import Mathlib

/-!
Verification development for the LibMemPool repository: a memory pool
allocator (variable size heap with best fit and coalescing, fixed size
classes, chain growth) together with the bundled Linux style red-black
tree.  The allocator core itself is not part of the source tree (only its
build file, documentation and the example driver are), so the allocator is
modelled from the specification; the red-black tree is embedded from
`Third/rb_tree.c`.
-/

namespace MemPool

/-- Page size of the OS backing allocation (spec section 4.3: pool sizes
are rounded up to the OS page size). -/
def pageSize : Nat := 4096

/-- Modelled from the spec: global minimum payload size of a heap block
(spec section 3, at least 32 bytes). -/
def minBlockSize : Nat := 32

/-- Modelled from the spec: default pool alignment, one cache line. -/
def defaultAlignment : Nat := 64

/-- Modelled from the spec: build time cap on the number of size classes. -/
def maxSizeClasses : Nat := 16

/-- Machine word size in bytes; slot headers are one word. -/
def wordSize : Nat := 8

/-- Magic tag sentinel used in slot headers. -/
def magicTag : Nat := 0xDEADBEEF

/-- Round `a` up to the next multiple of `n` (identity when `n = 0`). -/
def alignUp (a n : Nat) : Nat := a + (n - a % n) % n

/-- Executable power of two test, by repeated halving on a fuel budget. -/
def pow2Chk : Nat → Nat → Bool
  | 0, _ => false
  | _ + 1, 0 => false
  | _ + 1, 1 => true
  | f + 1, n + 2 => if (n + 2) % 2 = 1 then false else pow2Chk f ((n + 2) / 2)

/-- `isPow2 n` decides whether `n` is a power of two. -/
def isPow2 (n : Nat) : Bool := pow2Chk n n

/-- Error taxonomy of the pool (spec section 7); `ok` is the NONE value. -/
inductive PoolError where
  | ok
  | invalidSize
  | outOfMemory
  | invalidPointer
  | doubleFree
  | corruption
deriving DecidableEq, Repr

/-- Modelled from the spec: one block of the variable size heap H.  The
block bookkeeping is kept out of band (spec section 9 explicitly allows an
out of band header table keyed by address), so `size` is the full extent
of the block and the address list covers R by the sum of the sizes.
`uptr` is the user pointer handed out for this block; it survives a free
(the in band header with its magic tag would) and is how frees and double
frees are recognised.  `req` is the byte count requested by the caller and
`cls` the owning size class of a slab block. -/
structure Block where
  size : Nat
  free : Bool
  uptr : Option Nat
  req  : Nat
  cls  : Option Nat
deriving DecidableEq, Repr, Inhabited

/-- Modelled from the spec: one link of the chain: a backing region R of
`rsize` bytes at `base`, the address list `blocks` of H laid out
contiguously inside R, and the free list, kept as block addresses. -/
structure Link where
  base  : Nat
  rsize : Nat
  blocks : List Block
  freeList : List Nat
deriving DecidableEq, Repr, Inhabited

/-- Modelled from the spec: a fixed size class: slot size, capacity, base
address of its slab, the LIFO stack of free slot indices and the count of
slots currently allocated. -/
structure SizeClass where
  slotSize : Nat
  capacity : Nat
  slabBase : Nat
  freeStack : List Nat
  used : Nat
deriving DecidableEq, Repr, Inhabited

/-- Modelled from the spec: the pool head: alignment, size of the first
pool (the growth floor), the chain of links, the class table, the byte
memory and the last error word. -/
structure Pool where
  align : Nat
  origSize : Nat
  links : List Link
  classes : List SizeClass
  mem : Nat → Nat
  lastError : PoolError

/-- Total extent of an address list. -/
def sumSz (bs : List Block) : Nat := bs.foldr (fun b acc => b.size + acc) 0

/-- Addresses of the free blocks of an address list starting at `base`. -/
def freeAddrs : Nat → List Block → List Nat
  | _, [] => []
  | base, b :: rest =>
    if b.free then base :: freeAddrs (base + b.size) rest
    else freeAddrs (base + b.size) rest

/-- Modelled from the spec: payload needed to serve a request of `sz`
bytes with alignment `al` from a block at address `a`: the alignment
padding stays inside the block, and the payload never goes below the
global minimum block size. -/
def requiredAt (a al sz : Nat) : Nat := (alignUp a al - a) + max sz minBlockSize

/-- Modelled from the spec: best fit search over the address list: the
free block with the smallest payload that can serve the request, ties
broken by lowest address.  Returns index, address and payload of the
chosen block. -/
def pickBest (al sz : Nat) : Nat → List Block → Option (Nat × Nat × Nat)
  | _, [] => none
  | a, b :: rest =>
    let best := (pickBest al sz (a + b.size) rest).map (fun x => (x.1 + 1, x.2))
    if b.free = true ∧ requiredAt a al sz ≤ b.size then
      match best with
      | none => some (0, a, b.size)
      | some (j, a2, s2) => if s2 < b.size then some (j, a2, s2) else some (0, a, b.size)
    else best

/-- Modelled from the spec: carve an allocation of required payload `r`
out of the free block at index `i` (payload `bsz`).  If the block exceeds
the required payload by at least `minBlockSize` it is split and the
remainder becomes a new free block right after the allocated one. -/
def allocBlocks (bs : List Block) (i bsz r : Nat) (u : Option Nat) (sz : Nat)
    (cid : Option Nat) : List Block :=
  if r + minBlockSize ≤ bsz then
    bs.take i ++ ⟨r, false, u, sz, cid⟩ :: ⟨bsz - r, true, none, 0, none⟩ :: bs.drop (i + 1)
  else
    bs.take i ++ ⟨bsz, false, u, sz, cid⟩ :: bs.drop (i + 1)

/-- Modelled from the spec: serve one variable size request from a single
link: best fit search, split when worthwhile, free list updated.  `cid` is
set when the allocation carves a class slab. -/
def tryAllocLink (cid : Option Nat) (al sz : Nat) (l : Link) : Option (Link × Nat) :=
  match pickBest al sz l.base l.blocks with
  | none => none
  | some (i, a, bsz) =>
    let u := alignUp a al
    let r := requiredAt a al sz
    let uop : Option Nat := if cid = none then some u else none
    let bs := allocBlocks l.blocks i bsz r uop sz cid
    let fl0 := l.freeList.filter (fun x => x ≠ a)
    let fl := if r + minBlockSize ≤ bsz then (a + r) :: fl0 else fl0
    some ({ l with blocks := bs, freeList := fl }, u)

/-- Modelled from the spec: the first link with sufficient capacity
services the request. -/
def allocWalk (al sz : Nat) : List Link → Option (List Link × Nat)
  | [] => none
  | l :: rest =>
    match tryAllocLink none al sz l with
    | some (l2, u) => some (l2 :: rest, u)
    | none =>
      match allocWalk al sz rest with
      | some (rest2, u) => some (l :: rest2, u)
      | none => none

/-- First address past every region of the chain (page aligned). -/
def endAddr (ls : List Link) : Nat :=
  ls.foldr (fun l m => max (l.base + l.rsize) m) pageSize

/-- A fresh link: H is a single free block covering all of R. -/
def mkLink (b r : Nat) : Link := ⟨b, r, [⟨r, true, none, 0, none⟩], [b]⟩

def Pool.fail (P : Pool) (e : PoolError) : Pool := { P with lastError := e }

/-- Modelled from the spec: aligned variable size allocation over the
chain; a zero size or a non power of two alignment is INVALID_SIZE; when
no link can serve the request a new link of size max(request, original
pool size) is created and appended (spec sections 4.1, 4.3, 4.4). -/
def Pool.allocAligned (P : Pool) (sz al : Nat) : Pool × Option Nat :=
  if sz = 0 then (P.fail .invalidSize, none)
  else if isPow2 al = false then (P.fail .invalidSize, none)
  else
    let ea := max al P.align
    match allocWalk ea sz P.links with
    | some (ls, u) => ({ P with links := ls, lastError := .ok }, some u)
    | none =>
      let nl := mkLink (endAddr P.links) (alignUp (max sz P.origSize) pageSize)
      match tryAllocLink none ea sz nl with
      | some (nl2, u) =>
        ({ P with links := P.links ++ [nl2], lastError := .ok }, some u)
      | none => (P.fail .outOfMemory, none)

/-- Variable size allocation at the pool alignment. -/
def Pool.alloc (P : Pool) (sz : Nat) : Pool × Option Nat :=
  P.allocAligned sz P.align

/-- Locate the block whose user pointer is `p`: index, address, block. -/
def findBlk (p : Nat) : Nat → List Block → Option (Nat × Nat × Block)
  | _, [] => none
  | base, b :: rest =>
    if b.uptr = some p then some (0, base, b)
    else (findBlk p (base + b.size) rest).map (fun x => (x.1 + 1, x.2))

/-- Locate `p` in the chain: link index, block index, address, block. -/
def findInLinks (p : Nat) : List Link → Option (Nat × Nat × Nat × Block)
  | [] => none
  | l :: rest =>
    match findBlk p l.base l.blocks with
    | some (i, a, b) => some (0, i, a, b)
    | none => (findInLinks p rest).map (fun x => (x.1 + 1, x.2))

/-- Replace the element at index `k` through `f`. -/
def updateAt (ls : List Link) (k : Nat) (f : Link → Link) : List Link :=
  ls.take k ++ (match ls.drop k with
    | [] => []
    | l :: rest => f l :: rest)

/-- Modelled from the spec: release the allocated block at index `i`
(address `a`), in the only legal order: mark it free, fold the following
neighbour into it when free, then fold the result into the prior
neighbour when that one is free, and finally make sure the surviving
block is on the free list (spec section 4.1 Coalescing). -/
def linkFree (l : Link) (i a : Nat) (b : Block) : Link :=
  let pre := l.blocks.take i
  let post := l.blocks.drop (i + 1)
  let b1 : Block := ⟨b.size, true, b.uptr, b.req, none⟩
  let step2 : Block × List Block × List Nat :=
    match post with
    | c :: post2 =>
      if c.free then
        (⟨b1.size + c.size, true, b1.uptr, b1.req, none⟩, post2,
         l.freeList.filter (fun x => x ≠ a + b.size))
      else (b1, post, l.freeList)
    | [] => (b1, post, l.freeList)
  let b2 := step2.1
  let post3 := step2.2.1
  let fl2 := step2.2.2
  match pre.getLast? with
  | some pb =>
    if pb.free then
      { l with
        blocks := pre.dropLast ++ ⟨pb.size + b2.size, true, pb.uptr, pb.req, none⟩ :: post3,
        freeList := fl2 }
    else
      { l with blocks := pre ++ b2 :: post3,
               freeList := if a ∈ fl2 then fl2 else a :: fl2 }
  | none =>
    { l with blocks := pre ++ b2 :: post3,
             freeList := if a ∈ fl2 then fl2 else a :: fl2 }

/-- Modelled from the spec: free a pointer previously returned by alloc.
A foreign pointer leaves H unchanged and reports INVALID_POINTER; a
pointer whose block is already free reports DOUBLE_FREE and leaves H
unchanged (spec section 4.1 Error reporting). -/
def Pool.free (P : Pool) (p : Nat) : Pool :=
  match findInLinks p P.links with
  | none => P.fail .invalidPointer
  | some (k, i, a, b) =>
    if b.free then P.fail .doubleFree
    else { P with links := updateAt P.links k (fun l => linkFree l i a b),
                  lastError := .ok }

/-- Modelled from the spec: one defragmentation walk over an address
list, merging every run of adjacent free blocks. -/
def mergeAdj : List Block → List Block
  | [] => []
  | b :: rest =>
    match mergeAdj rest with
    | [] => [b]
    | c :: rest2 =>
      if b.free = true ∧ c.free = true then
        ⟨b.size + c.size, true, b.uptr, b.req, none⟩ :: rest2
      else b :: c :: rest2

/-- Defragment one link; the free list is compacted as well. -/
def linkDefrag (l : Link) : Link :=
  let bs := mergeAdj l.blocks
  { l with blocks := bs, freeList := freeAddrs l.base bs }

/-- Modelled from the spec: best effort merge pass over the whole chain. -/
def Pool.defragment (P : Pool) : Pool :=
  { P with links := P.links.map linkDefrag, lastError := .ok }

/-- Reset one link: H becomes a single free block covering R again. -/
def linkReset (l : Link) : Link :=
  { l with blocks := [⟨l.rsize, true, none, 0, none⟩], freeList := [l.base] }

/-- Modelled from the spec: reset H and F of each link without releasing
the backing regions. -/
def Pool.reset (P : Pool) : Pool :=
  { P with links := P.links.map linkReset, classes := [], lastError := .ok }

/-- Write `n` zero bytes starting at `p`. -/
def zeroRange (m : Nat → Nat) (p : Nat) : Nat → (Nat → Nat)
  | 0 => m
  | n + 1 => fun x => if x = p + n then 0 else zeroRange m p n x

/-- Modelled from the spec: calloc multiplies with overflow detection
(INVALID_SIZE on a size_t overflow) and zeroes the returned range. -/
def Pool.calloc (P : Pool) (n s : Nat) : Pool × Option Nat :=
  if 2 ^ 64 ≤ n * s then (P.fail .invalidSize, none)
  else
    match P.alloc (n * s) with
    | (P2, some p) => ({ P2 with mem := zeroRange P2.mem p (n * s) }, some p)
    | (P2, none) => (P2, none)

/-- Copy `n` bytes from `s0` to `d0`, reading the pre-state bytes. -/
def copyRange (m : Nat → Nat) (s0 d0 : Nat) : Nat → (Nat → Nat)
  | 0 => m
  | n + 1 => fun x => if x = d0 + n then m (s0 + n) else copyRange m s0 d0 n x

/-- Keep the block at index `i` but record the new requested size. -/
def setReq (l : Link) (i : Nat) (b : Block) (n : Nat) : Link :=
  { l with blocks := l.blocks.take i ++ ⟨b.size, b.free, b.uptr, n, b.cls⟩ :: l.blocks.drop (i + 1) }

/-- Modelled from the spec: grow the allocation at index `i` in place by
absorbing the following neighbour when it is free and large enough. -/
def growInPlace (l : Link) (i a need n : Nat) (b : Block) : Option Link :=
  match l.blocks.drop (i + 1) with
  | c :: post2 =>
    if c.free = true ∧ need ≤ b.size + c.size then
      some { l with
        blocks := l.blocks.take i ++ ⟨b.size + c.size, false, b.uptr, n, b.cls⟩ :: post2,
        freeList := l.freeList.filter (fun x => x ≠ a + b.size) }
    else none
  | [] => none

/-- Modelled from the spec: reallocation.  realloc(0, n) is alloc(n);
realloc(p, 0) frees p and returns null; otherwise the block grows in
place when its payload or the following free neighbour suffices, else a
new block is allocated, min(old, new) bytes are copied and the old block
is freed. -/
def Pool.realloc (P : Pool) (p n : Nat) : Pool × Option Nat :=
  if p = 0 then P.alloc n
  else if n = 0 then (P.free p, none)
  else
    match findInLinks p P.links with
    | none => (P.fail .invalidPointer, none)
    | some (k, i, a, b) =>
      if b.free then (P.fail .invalidPointer, none)
      else
        let need := (p - a) + max n minBlockSize
        if need ≤ b.size then
          ({ P with links := updateAt P.links k (fun l => setReq l i b n),
                    lastError := .ok }, some p)
        else
          match P.links.get? k with
          | none => (P.fail .invalidPointer, none)
          | some l =>
            match growInPlace l i a need n b with
            | some l2 =>
              ({ P with links := updateAt P.links k (fun _ => l2),
                        lastError := .ok }, some p)
            | none =>
              match P.alloc n with
              | (P2, some p2) =>
                (({ P2 with mem := copyRange P2.mem p p2 (min b.req n) }).free p, some p2)
              | (P2, none) => (P2, none)

/-- Stride of a class: one word slot header plus the slot payload. -/
def stride (c : SizeClass) : Nat := wordSize + c.slotSize

/-- Modelled from the spec: the one word slot header: magic tag plus the
owning class id. -/
def slotWord (cid : Nat) : Nat := magicTag * 2 ^ 32 + cid

/-- Write the slot header of every slot of a fresh slab. -/
def writeSlotWords (m : Nat → Nat) (sb st cid : Nat) : Nat → (Nat → Nat)
  | 0 => m
  | k + 1 => fun x => if x = sb + k * st then slotWord cid else writeSlotWords m sb st cid k x

/-- Modelled from the spec: add a fixed size class: INVALID_SIZE when the
size is zero or the class table is full; the slab is carved from the head
link as one allocated block owned by the class (H never splits or merges
it), every slot gets its one word header, and the free stack holds all
slot indices. -/
def Pool.addClass (P : Pool) (s cap : Nat) : Pool × Option Nat :=
  if s = 0 ∨ maxSizeClasses ≤ P.classes.length then (P.fail .invalidSize, none)
  else
    let ss := alignUp s wordSize
    let cid := P.classes.length
    let bytes := (wordSize + ss) * cap
    match P.links with
    | [] => (P.fail .outOfMemory, none)
    | l :: rest =>
      match tryAllocLink (some cid) P.align bytes l with
      | none => (P.fail .outOfMemory, none)
      | some (l2, sb) =>
        let c : SizeClass := ⟨ss, cap, sb, List.range cap, 0⟩
        ({ P with links := l2 :: rest, classes := P.classes ++ [c],
                  mem := writeSlotWords P.mem sb (wordSize + ss) cid cap,
                  lastError := .ok }, some cid)

/-- Modelled from the spec: the class with the smallest slot size at
least the requested size; lowest id on ties.  Returns index and size. -/
def pickClass (sz : Nat) : List SizeClass → Option (Nat × Nat)
  | [] => none
  | c :: rest =>
    let best := (pickClass sz rest).map (fun x => (x.1 + 1, x.2))
    if sz ≤ c.slotSize then
      match best with
      | none => some (0, c.slotSize)
      | some (j, s2) => if s2 < c.slotSize then some (j, s2) else some (0, c.slotSize)
    else best

/-- Replace the class at index `k` through `f`. -/
def updateCls (cs : List SizeClass) (k : Nat) (f : SizeClass → SizeClass) : List SizeClass :=
  cs.take k ++ (match cs.drop k with
    | [] => []
    | c :: rest => f c :: rest)

/-- Modelled from the spec: O(1) fixed size allocation: INVALID_SIZE when
no class matches, OUT_OF_MEMORY when the selected class is exhausted; no
chain walk is performed. -/
def Pool.allocFixed (P : Pool) (sz : Nat) : Pool × Option Nat :=
  match pickClass sz P.classes with
  | none => (P.fail .invalidSize, none)
  | some (k, _) =>
    match P.classes.get? k with
    | none => (P.fail .invalidSize, none)
    | some c =>
      match c.freeStack with
      | [] => (P.fail .outOfMemory, none)
      | idx :: restStack =>
        let ptr := c.slabBase + idx * stride c + wordSize
        let f := fun c0 : SizeClass => { c0 with freeStack := restStack, used := c0.used + 1 }
        ({ P with classes := updateCls P.classes k f, lastError := .ok }, some ptr)

/-- Modelled from the spec: O(1) fixed size release: the slot header
names the class; a slot already on the free stack is a double free. -/
def Pool.freeFixed (P : Pool) (p : Nat) : Pool :=
  let w := P.mem (p - wordSize)
  if w / 2 ^ 32 ≠ magicTag then P.fail .invalidPointer
  else
    let cid := w % 2 ^ 32
    match P.classes.get? cid with
    | none => P.fail .invalidPointer
    | some c =>
      let idx := (p - wordSize - c.slabBase) / stride c
      if idx ∈ c.freeStack then P.fail .doubleFree
      else
        let f := fun c0 : SizeClass => { c0 with freeStack := idx :: c0.freeStack, used := c0.used - 1 }
        { P with classes := updateCls P.classes cid f, lastError := .ok }

/-- Modelled from the spec: pointer ownership test over the whole chain. -/
def Pool.contains (P : Pool) (p : Nat) : Bool :=
  P.links.any (fun l => decide (l.base ≤ p ∧ p < l.base + l.rsize))

/-- Two neighbouring blocks are never both free. -/
def NotBothFree (x y : Block) : Prop := x.free = false ∨ y.free = false

instance (x y : Block) : Decidable (NotBothFree x y) := by
  unfold NotBothFree; infer_instance

/-- The coalescing invariant over an address list. -/
def NoAdj (bs : List Block) : Prop := List.Chain' NotBothFree bs

instance (bs : List Block) : Decidable (NoAdj bs) := by
  unfold NoAdj; infer_instance

/-- The structural checks of one link: the address list covers R exactly,
no two adjacent blocks are both free, and the free list holds exactly the
addresses of the free blocks. -/
def linkValid (l : Link) : Bool :=
  decide (sumSz l.blocks = l.rsize) &&
  decide (NoAdj l.blocks) &&
  l.freeList.all (fun x => decide (x ∈ freeAddrs l.base l.blocks)) &&
  (freeAddrs l.base l.blocks).all (fun x => decide (x ∈ l.freeList))

/-- Modelled from the spec: validate checks the structural invariants of
H on every link of the chain. -/
def Pool.validate (P : Pool) : Bool := P.links.all linkValid

/-- Modelled from the spec: create a pool: R is rounded up to the page
size, H starts as one free block covering R, F is empty. -/
def Pool.create (size : Nat) : Pool :=
  let r := alignUp (max size 1) pageSize
  { align := defaultAlignment, origSize := r, links := [mkLink pageSize r],
    classes := [], mem := fun _ => 0, lastError := .ok }

/-- One public operation of the pool API. -/
inductive Op where
  | alloc (sz : Nat)
  | allocAligned (sz al : Nat)
  | calloc (n s : Nat)
  | realloc (p n : Nat)
  | free (p : Nat)
  | allocFixed (sz : Nat)
  | freeFixed (p : Nat)
  | addClass (s cap : Nat)
  | defragment
  | reset

/-- Apply one operation, keeping only the pool state. -/
def Pool.step (P : Pool) : Op → Pool
  | .alloc sz => (P.alloc sz).1
  | .allocAligned sz al => (P.allocAligned sz al).1
  | .calloc n s => (P.calloc n s).1
  | .realloc p n => (P.realloc p n).1
  | .free p => P.free p
  | .allocFixed sz => (P.allocFixed sz).1
  | .freeFixed p => P.freeFixed p
  | .addClass s cap => (P.addClass s cap).1
  | .defragment => P.defragment
  | .reset => P.reset

/-- Apply a sequence of operations. -/
def Pool.run (P : Pool) : List Op → Pool
  | [] => P
  | o :: os => (P.step o).run os

/-- One fixed size operation of a test trace: allocate from the class, or
release the live pointer at the given position. -/
inductive FOp where
  | alloc
  | free (i : Nat)

/-- Run a trace of fixed size operations, keeping the list of live
pointers; a failed allocation or an out of range release aborts. -/
def runFixed (s : Nat) : Pool → List Nat → List FOp → Option (Pool × List Nat)
  | P, live, [] => some (P, live)
  | P, live, FOp.alloc :: rest =>
    match P.allocFixed s with
    | (P2, some ptr) => runFixed s P2 (live ++ [ptr]) rest
    | (_, none) => none
  | P, live, FOp.free i :: rest =>
    match live.get? i with
    | some ptr => runFixed s (P.freeFixed ptr) (live.erase ptr) rest
    | none => none

/-- A trace is well formed for a live count when every release names a
live position. -/
def wfTrace : Nat → List FOp → Prop
  | _, [] => True
  | n, FOp.alloc :: rest => wfTrace (n + 1) rest
  | n, FOp.free i :: rest => i < n ∧ wfTrace (n - 1) rest

/-- Number of allocations of a trace. -/
def countAllocs : List FOp → Nat
  | [] => 0
  | FOp.alloc :: rest => countAllocs rest + 1
  | FOp.free _ :: rest => countAllocs rest

/-- Allocate `n` blocks of `sz` bytes, collecting the returned pointers. -/
def allocMany (P : Pool) (sz : Nat) : Nat → Pool × List Nat
  | 0 => (P, [])
  | n + 1 =>
    match P.alloc sz with
    | (P2, some p) =>
      let r := allocMany P2 sz n
      (r.1, p :: r.2)
    | (P2, none) => allocMany P2 sz n

/-- Free all the given pointers in order. -/
def freeAll (P : Pool) (ps : List Nat) : Pool := ps.foldl Pool.free P

/-- Every even indexed element of a list. -/
def evens : List Nat → List Nat
  | [] => []
  | [x] => [x]
  | x :: _ :: rest => x :: evens rest

/-- The defragmentation scenario of the spec: a 2 MiB pool, two hundred
256 byte allocations, every even indexed one freed, one defragment pass,
then one 12800 byte allocation, which must succeed. -/
def defragScenario : Bool :=
  let P := Pool.create (2 * 1024 * 1024)
  let r := allocMany P 256 200
  let Pf := freeAll r.1 (evens r.2)
  let Pd := Pf.defragment
  ((Pd.alloc (256 * 50)).2).isSome

/-- All blocks have at least the global minimum payload. -/
def MinSz (bs : List Block) : Prop := ∀ b ∈ bs, minBlockSize ≤ b.size

/-- Every live allocation lies inside its own block. -/
def UserFit : Nat → List Block → Prop
  | _, [] => True
  | a, b :: rest =>
    (b.free = false → ∀ u, b.uptr = some u → a ≤ u ∧ u + b.req ≤ a + b.size) ∧
    UserFit (a + b.size) rest

/-- The live allocations of an address list: user pointer and requested
size of every allocated block that carries a user pointer. -/
def liveList : List Block → List (Nat × Nat)
  | [] => []
  | b :: rest =>
    (if b.free = false then
      (match b.uptr with
       | some v => [(v, b.req)]
       | none => []) else []) ++ liveList rest

/-- All live allocations of a pool, over the whole chain. -/
def poolLive (P : Pool) : List (Nat × Nat) :=
  P.links.foldr (fun l acc => liveList l.blocks ++ acc) []

/-- The invariant of one link of the chain. -/
structure LinkInv (l : Link) : Prop where
  cover : sumSz l.blocks = l.rsize
  noadj : NoAdj l.blocks
  flist : ∀ x, x ∈ l.freeList ↔ x ∈ freeAddrs l.base l.blocks
  minsz : MinSz l.blocks
  ufit  : UserFit l.base l.blocks
  bpage : pageSize ∣ l.base
  rpage : pageSize ∣ l.rsize
  bpos  : 0 < l.base
  rpos  : 0 < l.rsize

/-- The invariant of a whole pool. -/
structure PoolInv (P : Pool) : Prop where
  links : ∀ l ∈ P.links, LinkInv l
  order : P.links.Pairwise (fun l1 l2 => l1.base + l1.rsize ≤ l2.base)
  apow  : isPow2 P.align = true


/-- The state of a pool holding one fresh fixed size class together with
the pointers currently live from it: the free stack is a duplicate free
set of slot indices completing the live pointers to the capacity, every
live pointer names a distinct allocated slot, and every slot of the slab
carries its one word header in memory. -/
structure FixedInv (ss cap sb : Nat) (P : Pool) (live : List Nat) : Prop where
  cls : ∃ fs used, P.classes = [⟨ss, cap, sb, fs, used⟩] ∧
    live.length + fs.length = cap ∧ fs.Nodup ∧ (∀ j ∈ fs, j < cap) ∧
    (∀ p ∈ live, ∃ j, j < cap ∧ p = sb + j * (wordSize + ss) + wordSize ∧ j ∉ fs)
  nodup : live.Nodup
  mems : ∀ j, j < cap → P.mem (sb + j * (wordSize + ss)) = slotWord 0


/-! ### The red black tree of src/Third/rb_tree.c -/

namespace RB

/-- Node colour; RB_RED is 0 and RB_BLACK is 1 in the source. -/
inductive Color where
  | red
  | black
deriving DecidableEq

/-- A tree of `struct rb_node`s with integer keys.  The source packs the
parent pointer and the colour into `__rb_parent_color`; in this
functional embedding the parent pointer is implicit in the structure (a
child's parent is the node it hangs from, which is exactly the
consistency `rb_verify_node` checks), and the colour is carried by the
node. -/
inductive Tree where
  | nil
  | node (c : Color) (l : Tree) (k : Nat) (r : Tree)

/-- rb_is_red of a possibly NULL node (NULL reads as black). -/
def isRed : Tree → Bool
  | Tree.node Color.red _ _ _ => true
  | _ => false

/-- rb_is_black of a possibly NULL node. -/
def isBlack (t : Tree) : Bool := !(isRed t)

/-- rb_set_black on the root of a subtree; nothing happens on NULL. -/
def setBlack : Tree → Tree
  | Tree.nil => Tree.nil
  | Tree.node _ l k r => Tree.node Color.black l k r

/-- Which child of its parent a node is. -/
inductive Dir where
  | left
  | right

/-- One step of the path from a hole up to the root: the side the hole is
on, the colour and key of the parent, and the subtree on the other side.
This is the explicit form of the `rb_parent` chain of the source. -/
structure Frame where
  d : Dir
  c : Color
  k : Nat
  sib : Tree

/-- Rebuild the tree from a subtree and its path to the root. -/
def plug : Tree → List Frame → Tree
  | t, [] => t
  | t, ⟨Dir.left, c, k, sib⟩ :: ctx => plug (Tree.node c t k sib) ctx
  | t, ⟨Dir.right, c, k, sib⟩ :: ctx => plug (Tree.node c sib k t) ctx

/-- The descent of rb_insert: walk down comparing keys and record the
path; `none` when the key is already present, in which case rb_insert
returns -1 and changes nothing. -/
def insFind (k : Nat) : Tree → List Frame → Option (List Frame)
  | Tree.nil, ctx => some ctx
  | Tree.node c l k2 r, ctx =>
    if k < k2 then insFind k l (⟨Dir.left, c, k2, r⟩ :: ctx)
    else if k2 < k then insFind k r (⟨Dir.right, c, k2, l⟩ :: ctx)
    else none

/-- rb_insert_color: bottom up fixup after linking a red leaf.  `n` is
the current node (always red), the context is the remaining parent
chain.  A missing parent paints the node black (case 1), a black parent
ends the loop (case 2), a red uncle recolours and retries two levels up
(case 3), a black uncle rotates once or twice and ends the loop (cases 4
and 5); in the rotations the moved subtree roots are repainted black and
the new subtree root inherits the grandparent's colour, exactly as the
`rb_set_parent_color` and `__rb_rotate_set_parents` calls do. -/
def insFix : Tree → List Frame → Tree
  | n, [] => setBlack n
  | n, pf :: ctx =>
    if pf.c = Color.black then plug n (pf :: ctx)
    else
      match ctx with
      | [] =>
        -- a red parent is never the root; the shape is kept as found
        plug n (pf :: ctx)
      | gf :: ctx2 =>
        if isRed gf.sib then
          let P : Tree :=
            match pf.d with
            | Dir.left => Tree.node Color.black n pf.k pf.sib
            | Dir.right => Tree.node Color.black pf.sib pf.k n
          let G : Tree :=
            match gf.d with
            | Dir.left => Tree.node Color.red P gf.k (setBlack gf.sib)
            | Dir.right => Tree.node Color.red (setBlack gf.sib) gf.k P
          insFix G ctx2
        else
          match gf.d, pf.d with
          | Dir.left, Dir.left =>
            plug (Tree.node gf.c n pf.k
              (Tree.node Color.red (setBlack pf.sib) gf.k gf.sib)) ctx2
          | Dir.left, Dir.right =>
            match n with
            | Tree.nil => plug n (pf :: ctx)
            | Tree.node _ nl nk nr =>
              plug (Tree.node gf.c (Tree.node Color.red pf.sib pf.k (setBlack nl)) nk
                (Tree.node Color.red (setBlack nr) gf.k gf.sib)) ctx2
          | Dir.right, Dir.right =>
            plug (Tree.node gf.c
              (Tree.node Color.red gf.sib gf.k (setBlack pf.sib)) pf.k n) ctx2
          | Dir.right, Dir.left =>
            match n with
            | Tree.nil => plug n (pf :: ctx)
            | Tree.node _ nl nk nr =>
              plug (Tree.node gf.c (Tree.node Color.red gf.sib gf.k (setBlack nl)) nk
                (Tree.node Color.red (setBlack nr) pf.k pf.sib)) ctx2

/-- rb_insert: BST descent, -1 (here `none`) on a duplicate key, else the
new node is linked red and rb_insert_color runs. -/
def insert (t : Tree) (k : Nat) : Option Tree :=
  match insFind k t [] with
  | none => none
  | some ctx => some (insFix (Tree.node Color.red Tree.nil k Tree.nil) ctx)

/-- The descent of rb_erase to the node carrying the key. -/
def delFind (k : Nat) : Tree → List Frame → Option (Tree × List Frame)
  | Tree.nil, _ => none
  | Tree.node c l k2 r, ctx =>
    if k < k2 then delFind k l (⟨Dir.left, c, k2, r⟩ :: ctx)
    else if k2 < k then delFind k r (⟨Dir.right, c, k2, l⟩ :: ctx)
    else some (Tree.node c l k2 r, ctx)

/-- The successor walk of case 4 of __rb_erase_augmented: colour, key and
right child of the leftmost node of a subtree, plus the path from the
subtree root down to it. -/
def splitMin : Tree → Option (Color × Nat × Tree × List Frame)
  | Tree.nil => none
  | Tree.node c l k r =>
    match splitMin l with
    | none => some (c, k, r, [])
    | some (sc, sk, sr, ictx) => some (sc, sk, sr, ictx ++ [⟨Dir.left, c, k, r⟩])

/-- Cases 2 to 4 of ____rb_erase_color for a deficiency on the left
child: `pcol` is the parent's colour, `n` the deficient child, `sib` the
right hand sibling.  `Sum.inl` is the rebuilt subtree at the parent
position when the loop breaks, `Sum.inr` the new deficient subtree when
the loop moves up (case 2 under a black parent).  The `Tree.nil` arm is
the `if (!sibling) break;` safety check of the source. -/
def eraseLowLeft (pcol : Color) (n : Tree) (fk : Nat) : Tree → Sum Tree Tree
  | Tree.nil => Sum.inl (Tree.node pcol n fk Tree.nil)
  | Tree.node bc bl bk br =>
    if isBlack br then
      if isBlack bl then
        if pcol = Color.red then
          Sum.inl (Tree.node Color.black n fk (Tree.node Color.red bl bk br))
        else
          Sum.inr (Tree.node Color.black n fk (Tree.node Color.red bl bk br))
      else
        match bl with
        | Tree.nil => Sum.inl (Tree.node pcol n fk (Tree.node bc bl bk br))
        | Tree.node _ bll blk blr =>
          Sum.inl (Tree.node pcol (Tree.node Color.black n fk bll) blk
            (Tree.node Color.black (setBlack blr) bk br))
    else
      Sum.inl (Tree.node pcol (Tree.node Color.black n fk bl) bk (setBlack br))

/-- Mirror of `eraseLowLeft` for a deficiency on the right child, the
sibling being the left hand child. -/
def eraseLowRight (pcol : Color) (n : Tree) (fk : Nat) : Tree → Sum Tree Tree
  | Tree.nil => Sum.inl (Tree.node pcol Tree.nil fk n)
  | Tree.node bc bl bk br =>
    if isBlack bl then
      if isBlack br then
        if pcol = Color.red then
          Sum.inl (Tree.node Color.black (Tree.node Color.red bl bk br) fk n)
        else
          Sum.inr (Tree.node Color.black (Tree.node Color.red bl bk br) fk n)
      else
        match br with
        | Tree.nil => Sum.inl (Tree.node pcol (Tree.node bc bl bk br) fk n)
        | Tree.node _ brl brk brr =>
          Sum.inl (Tree.node pcol (Tree.node Color.black bl bk (setBlack brl)) brk
            (Tree.node Color.black brr fk n))
    else
      Sum.inl (Tree.node pcol (setBlack bl) bk (Tree.node Color.black br fk n))

/-- One iteration of the ____rb_erase_color loop at one parent frame.
Case 1 (red sibling) rotates, making the parent red and the walk resume
against the former inner child of the sibling; with a red parent the
inner cases always break, so the result is wrapped back under the new
subtree root which inherited the parent's colour. -/
def eraseIter (f : Frame) (n : Tree) : Sum Tree Tree :=
  match f.d with
  | Dir.left =>
    match f.sib with
    | Tree.nil => Sum.inl (Tree.node f.c n f.k Tree.nil)
    | Tree.node sc sl sk sr =>
      if sc = Color.red then
        match eraseLowLeft Color.red n f.k (setBlack sl) with
        | Sum.inl s => Sum.inl (Tree.node f.c s sk sr)
        | Sum.inr s => Sum.inl (Tree.node f.c s sk sr)
      else
        eraseLowLeft f.c n f.k (Tree.node sc sl sk sr)
  | Dir.right =>
    match f.sib with
    | Tree.nil => Sum.inl (Tree.node f.c Tree.nil f.k n)
    | Tree.node sc sl sk sr =>
      if sc = Color.red then
        match eraseLowRight Color.red n f.k (setBlack sr) with
        | Sum.inl s => Sum.inl (Tree.node f.c sl sk s)
        | Sum.inr s => Sum.inl (Tree.node f.c sl sk s)
      else
        eraseLowRight f.c n f.k (Tree.node sc sl sk sr)

/-- The ____rb_erase_color loop over the parent chain: break plugs the
rebuilt subtree back, case 2 under a black parent moves one level up. -/
def eraseFix : Tree → List Frame → Tree
  | n, [] => n
  | n, f :: ctx =>
    match eraseIter f n with
    | Sum.inl s => plug s ctx
    | Sum.inr s => eraseFix s ctx

/-- __rb_erase_augmented followed by ____rb_erase_color, by key: a node
with at most one child is replaced by that child which inherits its
colour; otherwise the in-tree successor takes its place and a present
right child of the successor is repainted black.  When a childless node
(or a childless successor) is unlinked, the source picks the restart
point of the recolouring walk as `rebalance = (pc & 1) ? NULL : parent`
(rb_tree.c lines 267 and 318): RB_BLACK being 1, the walk runs exactly
when the removed node was red and is skipped when it was black. -/
def erase (t : Tree) (k : Nat) : Option Tree :=
  match delFind k t [] with
  | none => none
  | some (Tree.nil, _) => none
  | some (Tree.node c l _ r, ctx) =>
    match l, r with
    | Tree.nil, Tree.nil =>
      if c = Color.black then some (plug Tree.nil ctx)
      else some (eraseFix Tree.nil ctx)
    | Tree.nil, Tree.node _ rl rk rr =>
      some (plug (Tree.node c rl rk rr) ctx)
    | Tree.node _ ll lk lr, Tree.nil =>
      some (plug (Tree.node c ll lk lr) ctx)
    | Tree.node lc ll lk lr, Tree.node rc rl rk rr =>
      match splitMin (Tree.node rc rl rk rr) with
      | none => none
      | some (sc, sk, sr, ictx) =>
        match sr with
        | Tree.nil =>
          if sc = Color.black then
            some (plug Tree.nil
              (ictx ++ ⟨Dir.right, c, sk, Tree.node lc ll lk lr⟩ :: ctx))
          else
            some (eraseFix Tree.nil
              (ictx ++ ⟨Dir.right, c, sk, Tree.node lc ll lk lr⟩ :: ctx))
        | Tree.node _ _ _ _ =>
          some (plug (setBlack sr)
            (ictx ++ ⟨Dir.right, c, sk, Tree.node lc ll lk lr⟩ :: ctx))

/-- rb_black_height: 0 signals a violation, otherwise the black height
with the NULL leaves counting as one black node each. -/
def blackHeight : Tree → Nat
  | Tree.nil => 1
  | Tree.node c l _ r =>
    let lh := blackHeight l
    let rh := blackHeight r
    if lh = 0 ∨ rh = 0 ∨ lh ≠ rh then 0
    else if c = Color.black then lh + 1 else lh

/-- rb_verify_node: no red node has a red child.  The parent pointer
checks of the source, `rb_parent(child) == node`, hold by construction in
this embedding. -/
def verifyNode : Tree → Bool
  | Tree.nil => true
  | Tree.node c l _ r =>
    (!(decide (c = Color.red)) || (!(isRed l) && !(isRed r))) &&
      verifyNode l && verifyNode r

/-- rb_verify: an empty tree is legal; otherwise the root is black, the
black heights balance, and no red node has a red child. -/
def verify : Tree → Bool
  | Tree.nil => true
  | Tree.node c l k r =>
    isBlack (Tree.node c l k r) &&
      (blackHeight (Tree.node c l k r) != 0) &&
      verifyNode (Tree.node c l k r)

/-- One trace operation on the compatibility wrapper: rb_insert of a key
(a duplicate returns -1 and changes nothing) or rb_erase of a contained
key (rb_erase is only ever called on contained nodes; an absent key is a
no-op of the trace). -/
inductive RBOp where
  | ins (k : Nat)
  | del (k : Nat)

/-- Apply one trace operation. -/
def applyOp (t : Tree) : RBOp → Tree
  | RBOp.ins k =>
    match insert t k with
    | some t2 => t2
    | none => t
  | RBOp.del k =>
    match erase t k with
    | some t2 => t2
    | none => t

/-- Run a trace from a tree. -/
def runOps : Tree → List RBOp → Tree
  | t, [] => t
  | t, o :: os => runOps (applyOp t o) os

/-- Validity with a given black height: exactly what rb_black_height and
rb_verify_node accept together (NULL has height one, a red node needs
black children and adds nothing, a black node adds one). -/
inductive Valid : Tree → Nat → Prop where
  | nil : Valid Tree.nil 1
  | red (l : Tree) (k : Nat) (r : Tree) {h : Nat} :
      Valid l h → Valid r h → isBlack l = true → isBlack r = true →
      Valid (Tree.node Color.red l k r) h
  | black (l : Tree) (k : Nat) (r : Tree) {h : Nat} :
      Valid l h → Valid r h → Valid (Tree.node Color.black l k r) (h + 1)

/-- Validity of a path context whose hole takes subtrees of black height
`h`: a red frame carries a black sibling and sits directly below a black
frame, so that no red node ever has a red parent along the path. -/
inductive CV : List Frame → Nat → Prop where
  | nil {h : Nat} : CV [] h
  | black (d : Dir) (k : Nat) (sib : Tree) {h : Nat} {ctx : List Frame} :
      Valid sib h → CV ctx (h + 1) → CV (⟨d, Color.black, k, sib⟩ :: ctx) h
  | red (d : Dir) (k : Nat) (sib : Tree) (d2 : Dir) (k2 : Nat) (sib2 : Tree)
      {h : Nat} {ctx : List Frame} :
      Valid sib h → isBlack sib = true → Valid sib2 h → CV ctx (h + 1) →
      CV (⟨d, Color.red, k, sib⟩ :: ⟨d2, Color.black, k2, sib2⟩ :: ctx) h

/-- The outermost frame of a path is black (the root of the surrounding
tree), or the path is empty. -/
def lastFrameBlack : List Frame → Bool
  | [] => true
  | [f] => decide (f.c = Color.black)
  | _ :: f :: ctx => lastFrameBlack (f :: ctx)

end RB

/-! ### Arithmetic facts about alignment and powers of two -/

theorem alignUp_ge (a n : Nat) : a ≤ alignUp a n := Nat.le_add_right _ _

theorem alignUp_lt (a : Nat) {n : Nat} (h : 0 < n) : alignUp a n < a + n :=
  Nat.add_lt_add_left (Nat.mod_lt _ h) a

theorem alignUp_mod (a : Nat) {n : Nat} (h : 0 < n) : alignUp a n % n = 0 := by
  unfold alignUp
  rcases Nat.eq_zero_or_pos (a % n) with h0 | hp
  · rw [h0, Nat.sub_zero, Nat.mod_self, Nat.add_zero]
    exact h0
  · have hlt : a % n < n := Nat.mod_lt _ h
    have h1 : (n - a % n) % n = n - a % n := Nat.mod_eq_of_lt (by omega)
    rw [h1, Nat.add_mod]
    have h2 : a % n + (n - a % n) % n = n := by
      rw [h1]; omega
    rw [h2, Nat.mod_self]

theorem dvd_alignUp (a : Nat) {n : Nat} (h : 0 < n) : n ∣ alignUp a n :=
  Nat.dvd_of_mod_eq_zero (alignUp_mod a h)

theorem alignUp_eq_of_dvd {a n : Nat} (h : n ∣ a) : alignUp a n = a := by
  rcases h with ⟨c, rfl⟩
  simp [alignUp, Nat.mul_mod_right]

theorem pow2Chk_pos {f n : Nat} (h : pow2Chk f n = true) : 0 < n := by
  cases f with
  | zero => simp [pow2Chk] at h
  | succ f =>
    cases n with
    | zero => simp [pow2Chk] at h
    | succ n => exact Nat.succ_pos n

theorem isPow2_pos {n : Nat} (h : isPow2 n = true) : 0 < n := pow2Chk_pos h

theorem pow2Chk_exists : ∀ f n, pow2Chk f n = true → ∃ k, n = 2 ^ k := by
  intro f
  induction f with
  | zero => intro n h; simp [pow2Chk] at h
  | succ f ih =>
    intro n h
    match n with
    | 0 => simp [pow2Chk] at h
    | 1 => exact ⟨0, rfl⟩
    | n + 2 =>
      rw [pow2Chk] at h
      by_cases hm : (n + 2) % 2 = 1
      · simp [hm] at h
      · simp [hm] at h
        obtain ⟨k, hk⟩ := ih _ h.2
        refine ⟨k + 1, ?_⟩
        rw [pow_succ]
        omega

theorem isPow2_exists {n : Nat} (h : isPow2 n = true) : ∃ k, n = 2 ^ k :=
  pow2Chk_exists n n h

theorem pow2_dvd_max_left {x y : Nat} (hx : isPow2 x = true) (hy : isPow2 y = true) :
    x ∣ max x y := by
  obtain ⟨i, rfl⟩ := isPow2_exists hx
  obtain ⟨j, rfl⟩ := isPow2_exists hy
  rcases Nat.le_total i j with hij | hij
  · have : (2 : Nat) ^ i ≤ 2 ^ j := Nat.pow_le_pow_right (by omega) hij
    rw [Nat.max_eq_right this]
    exact pow_dvd_pow 2 hij
  · have : (2 : Nat) ^ j ≤ 2 ^ i := Nat.pow_le_pow_right (by omega) hij
    rw [Nat.max_eq_left this]

theorem pow2_dvd_max_right {x y : Nat} (hx : isPow2 x = true) (hy : isPow2 y = true) :
    y ∣ max x y := by
  rw [Nat.max_comm]
  exact pow2_dvd_max_left hy hx

theorem pageSize_pos : 0 < pageSize := by decide

/-! ### Facts about block lists: sizes, free addresses, adjacency -/

theorem sumSz_nil : sumSz [] = 0 := rfl

theorem sumSz_cons (b : Block) (bs : List Block) :
    sumSz (b :: bs) = b.size + sumSz bs := rfl

theorem sumSz_append (xs ys : List Block) :
    sumSz (xs ++ ys) = sumSz xs + sumSz ys := by
  induction xs with
  | nil => simp [sumSz_nil]
  | cons b xs ih => simp only [List.cons_append, sumSz_cons, ih]; omega

theorem freeAddrs_cons (a : Nat) (b : Block) (bs : List Block) :
    freeAddrs a (b :: bs) =
      if b.free then a :: freeAddrs (a + b.size) bs else freeAddrs (a + b.size) bs := rfl

theorem freeAddrs_append (a : Nat) (xs ys : List Block) :
    freeAddrs a (xs ++ ys) = freeAddrs a xs ++ freeAddrs (a + sumSz xs) ys := by
  induction xs generalizing a with
  | nil => simp [freeAddrs, sumSz_nil]
  | cons b xs ih =>
    by_cases h : b.free <;>
      simp [freeAddrs_cons, h, ih, sumSz_cons, Nat.add_assoc]

theorem mem_freeAddrs_ge {x a : Nat} {bs : List Block} (h : x ∈ freeAddrs a bs) : a ≤ x := by
  induction bs generalizing a with
  | nil => simp [freeAddrs] at h
  | cons b bs ih =>
    rw [freeAddrs_cons] at h
    by_cases hf : b.free
    · simp [hf] at h
      rcases h with rfl | h
      · exact Nat.le_refl x
      · exact Nat.le_trans (Nat.le_add_right _ _) (ih h)
    · simp [hf] at h
      exact Nat.le_trans (Nat.le_add_right _ _) (ih h)

theorem mem_freeAddrs_lt {x a : Nat} {bs : List Block} (hm : MinSz bs)
    (h : x ∈ freeAddrs a bs) : x < a + sumSz bs := by
  induction bs generalizing a with
  | nil => simp [freeAddrs] at h
  | cons b bs ih =>
    have hb : minBlockSize ≤ b.size := hm b (List.mem_cons_self _ _)
    have hm2 : MinSz bs := fun c hc => hm c (List.mem_cons_of_mem _ hc)
    rw [freeAddrs_cons] at h
    rw [sumSz_cons]
    by_cases hf : b.free
    · simp [hf] at h
      rcases h with rfl | h
      · have h32 : (0:Nat) < minBlockSize := by decide
        omega
      · have := ih hm2 h
        omega
    · simp [hf] at h
      have := ih hm2 h
      omega

theorem MinSz.append {xs ys : List Block} (hx : MinSz xs) (hy : MinSz ys) :
    MinSz (xs ++ ys) := by
  intro b hb
  rcases List.mem_append.1 hb with h | h
  · exact hx b h
  · exact hy b h

theorem MinSz.of_append_left {xs ys : List Block} (h : MinSz (xs ++ ys)) : MinSz xs :=
  fun b hb => h b (List.mem_append.2 (Or.inl hb))

theorem MinSz.of_append_right {xs ys : List Block} (h : MinSz (xs ++ ys)) : MinSz ys :=
  fun b hb => h b (List.mem_append.2 (Or.inr hb))

theorem userFit_nil (a : Nat) : UserFit a [] := trivial

theorem userFit_cons {a : Nat} {b : Block} {bs : List Block} :
    UserFit a (b :: bs) ↔
      (b.free = false → ∀ u, b.uptr = some u → a ≤ u ∧ u + b.req ≤ a + b.size) ∧
      UserFit (a + b.size) bs := Iff.rfl

theorem userFit_append {a : Nat} {xs ys : List Block} :
    UserFit a (xs ++ ys) ↔ UserFit a xs ∧ UserFit (a + sumSz xs) ys := by
  induction xs generalizing a with
  | nil => simp [UserFit, sumSz_nil]
  | cons b xs ih =>
    simp only [List.cons_append, userFit_cons, ih, sumSz_cons, and_assoc]
    rw [Nat.add_assoc]

/-! ### Soundness and optimality of the best fit search -/

theorem pickBest_sound {al sz : Nat} : ∀ {bs : List Block} {a i x s : Nat},
    pickBest al sz a bs = some (i, x, s) →
    ∃ pre b post, bs = pre ++ b :: post ∧ pre.length = i ∧ x = a + sumSz pre ∧
      b.free = true ∧ b.size = s ∧ requiredAt x al sz ≤ s := by
  intro bs
  induction bs with
  | nil => intro a i x s h; simp [pickBest] at h
  | cons b rest ih =>
    intro a i x s h
    have hrec : ∀ {j a2 s2 : Nat}, pickBest al sz (a + b.size) rest = some (j, a2, s2) →
        j + 1 = i → a2 = x → s2 = s →
        ∃ pre c post, b :: rest = pre ++ c :: post ∧ pre.length = i ∧ x = a + sumSz pre ∧
          c.free = true ∧ c.size = s ∧ requiredAt x al sz ≤ s := by
      intro j a2 s2 hr hj ha2 hs2
      obtain ⟨pre, c, post, hsplit, hlen, hx, hf, hsz, hreq⟩ := ih hr
      subst ha2 hs2 hsplit
      exact ⟨b :: pre, c, post, rfl, by simp [hlen, hj], by
        rw [hx, sumSz_cons]; omega, hf, hsz, hreq⟩
    have hselfc : ∀ (hc : b.free = true ∧ requiredAt a al sz ≤ b.size),
        i = 0 → x = a → s = b.size →
        ∃ pre c post, b :: rest = pre ++ c :: post ∧ pre.length = i ∧ x = a + sumSz pre ∧
          c.free = true ∧ c.size = s ∧ requiredAt x al sz ≤ s := by
      intro hc hi hx hs
      exact ⟨[], b, rest, rfl, by simp [hi], by simp [hx, sumSz_nil],
        hc.1, hs.symm, by rw [hx, hs]; exact hc.2⟩
    rw [pickBest] at h
    cases hr : pickBest al sz (a + b.size) rest with
    | none =>
      simp only [hr, Option.map_none'] at h
      by_cases hc : b.free = true ∧ requiredAt a al sz ≤ b.size
      · rw [if_pos hc] at h
        simp only [Option.some.injEq, Prod.mk.injEq] at h
        exact hselfc hc h.1.symm h.2.1.symm h.2.2.symm
      · rw [if_neg hc] at h
        simp at h
    | some t =>
      obtain ⟨j, a2, s2⟩ := t
      simp only [hr, Option.map_some'] at h
      by_cases hc : b.free = true ∧ requiredAt a al sz ≤ b.size
      · rw [if_pos hc] at h
        by_cases hlt : s2 < b.size
        · rw [if_pos hlt] at h
          simp only [Option.some.injEq, Prod.mk.injEq] at h
          exact hrec hr h.1 h.2.1 h.2.2
        · rw [if_neg hlt] at h
          simp only [Option.some.injEq, Prod.mk.injEq] at h
          exact hselfc hc h.1.symm h.2.1.symm h.2.2.symm
      · rw [if_neg hc] at h
        simp only [Option.some.injEq, Prod.mk.injEq] at h
        exact hrec hr h.1 h.2.1 h.2.2

theorem pickBest_none {al sz : Nat} : ∀ {bs : List Block} {a : Nat},
    pickBest al sz a bs = none →
    ∀ pre c post, bs = pre ++ c :: post → c.free = true →
      requiredAt (a + sumSz pre) al sz ≤ c.size → False := by
  intro bs
  induction bs with
  | nil =>
    intro a _ pre c post hsplit _ _
    exact absurd hsplit (by simp)
  | cons b rest ih =>
    intro a h pre c post hsplit hf hreq
    rw [pickBest] at h
    cases hr : pickBest al sz (a + b.size) rest with
    | none =>
      simp only [hr, Option.map_none'] at h
      by_cases hc : b.free = true ∧ requiredAt a al sz ≤ b.size
      · rw [if_pos hc] at h; simp at h
      · cases pre with
        | nil =>
          simp only [List.nil_append] at hsplit
          cases hsplit
          exact hc ⟨hf, by simpa [sumSz_nil] using hreq⟩
        | cons p pre2 =>
          simp only [List.cons_append, List.cons.injEq] at hsplit
          obtain ⟨rfl, hsplit2⟩ := hsplit
          refine ih hr pre2 c post hsplit2 hf ?_
          rw [sumSz_cons] at hreq
          have : a + (b.size + sumSz pre2) = a + b.size + sumSz pre2 := by omega
          rwa [this] at hreq
    | some t =>
      obtain ⟨j, a2, s2⟩ := t
      simp only [hr, Option.map_some'] at h
      by_cases hc : b.free = true ∧ requiredAt a al sz ≤ b.size
      · rw [if_pos hc] at h
        by_cases hlt : s2 < b.size
        · rw [if_pos hlt] at h; simp at h
        · rw [if_neg hlt] at h; simp at h
      · rw [if_neg hc] at h; simp at h

theorem pickBest_best {al sz : Nat} : ∀ {bs : List Block} {a i x s : Nat},
    pickBest al sz a bs = some (i, x, s) →
    ∀ pre c post, bs = pre ++ c :: post → c.free = true →
      requiredAt (a + sumSz pre) al sz ≤ c.size →
      s < c.size ∨ (s = c.size ∧ x ≤ a + sumSz pre) := by
  intro bs
  induction bs with
  | nil => intro a i x s h; simp [pickBest] at h
  | cons b rest ih =>
    intro a i x s h pre c post hsplit hf hreq
    have hrecase : ∀ {j a2 s2}, pickBest al sz (a + b.size) rest = some (j, a2, s2) →
        s2 = s → a2 = x → ∀ pre2, pre = b :: pre2 → rest = pre2 ++ c :: post →
        s < c.size ∨ (s = c.size ∧ x ≤ a + sumSz pre) := by
      intro j a2 s2 hr hs2 ha2 pre2 hpre hsplit2
      subst hs2 ha2 hpre
      have hreq2 : requiredAt (a + b.size + sumSz pre2) al sz ≤ c.size := by
        rw [sumSz_cons] at hreq
        have : a + (b.size + sumSz pre2) = a + b.size + sumSz pre2 := by omega
        rwa [this] at hreq
      rcases ih hr pre2 c post hsplit2 hf hreq2 with h1 | ⟨h1, h2⟩
      · exact Or.inl h1
      · refine Or.inr ⟨h1, ?_⟩
        rw [sumSz_cons]
        omega
    rw [pickBest] at h
    cases hr : pickBest al sz (a + b.size) rest with
    | none =>
      simp only [hr, Option.map_none'] at h
      by_cases hc : b.free = true ∧ requiredAt a al sz ≤ b.size
      · rw [if_pos hc] at h
        simp only [Option.some.injEq, Prod.mk.injEq] at h
        obtain ⟨_, hx, hs⟩ := h
        cases pre with
        | nil =>
          simp only [List.nil_append] at hsplit
          cases hsplit
          exact Or.inr ⟨hs.symm, by simp [hx.symm]⟩
        | cons p pre2 =>
          simp only [List.cons_append, List.cons.injEq] at hsplit
          obtain ⟨rfl, hsplit2⟩ := hsplit
          exfalso
          refine pickBest_none hr pre2 c post hsplit2 hf ?_
          rw [sumSz_cons] at hreq
          have : a + (b.size + sumSz pre2) = a + b.size + sumSz pre2 := by omega
          rwa [this] at hreq
      · rw [if_neg hc] at h
        simp at h
    | some t =>
      obtain ⟨j, a2, s2⟩ := t
      simp only [hr, Option.map_some'] at h
      by_cases hc : b.free = true ∧ requiredAt a al sz ≤ b.size
      · rw [if_pos hc] at h
        by_cases hlt : s2 < b.size
        · rw [if_pos hlt] at h
          simp only [Option.some.injEq, Prod.mk.injEq] at h
          obtain ⟨_, hx, hs⟩ := h
          cases pre with
          | nil =>
            simp only [List.nil_append] at hsplit
            cases hsplit
            subst hs
            exact Or.inl hlt
          | cons p pre2 =>
            simp only [List.cons_append, List.cons.injEq] at hsplit
            obtain ⟨rfl, hsplit2⟩ := hsplit
            exact hrecase hr hs hx pre2 rfl hsplit2
        · rw [if_neg hlt] at h
          simp only [Option.some.injEq, Prod.mk.injEq] at h
          obtain ⟨_, hx, hs⟩ := h
          cases pre with
          | nil =>
            simp only [List.nil_append] at hsplit
            cases hsplit
            exact Or.inr ⟨hs.symm, by simp [hx.symm]⟩
          | cons p pre2 =>
            simp only [List.cons_append, List.cons.injEq] at hsplit
            obtain ⟨rfl, hsplit2⟩ := hsplit
            have hreq2 : requiredAt (a + b.size + sumSz pre2) al sz ≤ c.size := by
              rw [sumSz_cons] at hreq
              have : a + (b.size + sumSz pre2) = a + b.size + sumSz pre2 := by omega
              rwa [this] at hreq
            rcases ih hr pre2 c post hsplit2 hf hreq2 with h1 | ⟨h1, _⟩
            · subst hs
              omega
            · subst hs
              rw [sumSz_cons]
              rcases Nat.lt_or_ge b.size c.size with hbc | hbc
              · exact Or.inl hbc
              · exact Or.inr ⟨by omega, by omega⟩
      · rw [if_neg hc] at h
        simp only [Option.some.injEq, Prod.mk.injEq] at h
        obtain ⟨_, hx, hs⟩ := h
        cases pre with
        | nil =>
          simp only [List.nil_append] at hsplit
          cases hsplit
          exact absurd ⟨hf, by simpa [sumSz_nil] using hreq⟩ hc
        | cons p pre2 =>
          simp only [List.cons_append, List.cons.injEq] at hsplit
          obtain ⟨rfl, hsplit2⟩ := hsplit
          exact hrecase hr hs hx pre2 rfl hsplit2

/-! ### The link and pool invariants -/

/-! ### Live allocation bounds -/

theorem liveList_cons (b : Block) (bs : List Block) :
    liveList (b :: bs) =
      (if b.free = false then
        (match b.uptr with
         | some v => [(v, b.req)]
         | none => []) else []) ++ liveList bs := rfl

theorem liveList_append (xs ys : List Block) :
    liveList (xs ++ ys) = liveList xs ++ liveList ys := by
  induction xs with
  | nil => simp [liveList]
  | cons b xs ih => simp only [List.cons_append, liveList_cons, ih, List.append_assoc]

theorem liveList_bounds {a : Nat} {bs : List Block} (h : UserFit a bs) :
    ∀ pr ∈ liveList bs, a ≤ pr.1 ∧ pr.1 + pr.2 ≤ a + sumSz bs := by
  induction bs generalizing a with
  | nil => intro pr hpr; simp [liveList] at hpr
  | cons b bs ih =>
    intro pr hpr
    rw [liveList_cons] at hpr
    rw [sumSz_cons]
    rcases List.mem_append.1 hpr with h1 | h1
    · by_cases hf : b.free = false
      · rw [if_pos hf] at h1
        cases hu : b.uptr with
        | none => rw [hu] at h1; simp at h1
        | some v =>
          rw [hu] at h1
          simp at h1
          have hb := (userFit_cons.mp h).1 hf v hu
          rw [h1]
          exact ⟨hb.1, by have := hb.2; omega⟩
      · rw [if_neg hf] at h1; simp at h1
    · have h2 := (userFit_cons.mp h).2
      have := ih h2 pr h1
      omega

/-! ### Adjacency preservation under the heap surgeries -/

theorem noAdj_mid_alloc {pre post : List Block} {b c : Block}
    (h : NoAdj (pre ++ b :: post)) (hc : c.free = false) :
    NoAdj (pre ++ c :: post) := by
  unfold NoAdj at h ⊢
  rw [List.chain'_append] at h ⊢
  obtain ⟨h1, h2, h3⟩ := h
  refine ⟨h1, ?_, ?_⟩
  · rw [List.chain'_cons'] at h2 ⊢
    exact ⟨fun y _ => Or.inl hc, h2.2⟩
  · intro x hx y hy
    simp only [List.head?_cons, Option.mem_def, Option.some.injEq] at hy
    subst hy
    exact Or.inr hc

theorem noAdj_mid_split {pre post : List Block} {b c d : Block}
    (h : NoAdj (pre ++ b :: post)) (hb : b.free = true) (hc : c.free = false) :
    NoAdj (pre ++ c :: d :: post) := by
  unfold NoAdj at h ⊢
  rw [List.chain'_append] at h ⊢
  obtain ⟨h1, h2, h3⟩ := h
  refine ⟨h1, ?_, ?_⟩
  · rw [List.chain'_cons]
    refine ⟨Or.inl hc, ?_⟩
    rw [List.chain'_cons']
    constructor
    · intro y hy
      rcases (List.chain'_cons'.mp h2).1 y hy with h' | h'
      · rw [hb] at h'; cases h'
      · exact Or.inr h'
    · exact (List.chain'_cons'.mp h2).2
  · intro x hx y hy
    simp only [List.head?_cons, Option.mem_def, Option.some.injEq] at hy
    subst hy
    exact Or.inr hc

/-! ### Preservation by a single link allocation -/

theorem tryAllocLink_spec {cid : Option Nat} {al sz : Nat} {l l2 : Link} {u : Nat}
    (hinv : LinkInv l) (hal : 0 < al) (h : tryAllocLink cid al sz l = some (l2, u)) :
    LinkInv l2 ∧ l2.base = l.base ∧ l2.rsize = l.rsize ∧
    al ∣ u ∧ l.base ≤ u ∧ u + max sz minBlockSize ≤ l.base + l.rsize ∧
    (∀ pr ∈ liveList l.blocks, u + max sz minBlockSize ≤ pr.1 ∨ pr.1 + pr.2 ≤ u) := by
  cases hp : pickBest al sz l.base l.blocks with
  | none =>
    rw [tryAllocLink, hp] at h
    exact Option.noConfusion h
  | some t =>
    obtain ⟨i, a, bsz⟩ := t
    simp only [tryAllocLink, hp, Option.some.injEq, Prod.mk.injEq] at h
    obtain ⟨hl2, hu⟩ := h
    obtain ⟨pre, b, post, hbs, hlen, ha, hbf, hbsz, hreq⟩ := pickBest_sound hp
    have hmbs : minBlockSize = 32 := rfl
    have hbmem : b ∈ l.blocks := by
      rw [hbs]; exact List.mem_append.2 (Or.inr (List.mem_cons_self _ _))
    have hbm : minBlockSize ≤ b.size := hinv.minsz b hbmem
    have hpre_min : MinSz pre := by
      intro c hc
      exact hinv.minsz c (by rw [hbs]; exact List.mem_append.2 (Or.inl hc))
    have hpost_min : MinSz post := by
      intro c hc
      exact hinv.minsz c
        (by rw [hbs]; exact List.mem_append.2 (Or.inr (List.mem_cons_of_mem _ hc)))
    have htake : l.blocks.take i = pre := by
      rw [hbs]; exact List.take_left' hlen
    have hdrop : l.blocks.drop (i + 1) = post := by
      rw [hbs]
      have heq : pre ++ b :: post = (pre ++ [b]) ++ post := by simp
      rw [heq]
      exact List.drop_left' (by simp [hlen])
    have hsum : sumSz l.blocks = sumSz pre + (b.size + sumSz post) := by
      rw [hbs, sumSz_append, sumSz_cons]
    have hr32 : minBlockSize ≤ requiredAt a al sz := by
      unfold requiredAt
      have := Nat.le_max_right sz minBlockSize
      omega
    have hale : a ≤ alignUp a al := alignUp_ge a al
    have har : a + requiredAt a al sz = alignUp a al + max sz minBlockSize := by
      unfold requiredAt
      omega
    have hufp : UserFit l.base pre ∧ UserFit (a + b.size) post := by
      have huf := hinv.ufit
      rw [hbs, userFit_append] at huf
      refine ⟨huf.1, ?_⟩
      have h2 := (userFit_cons.mp huf.2).2
      rw [ha]
      exact h2
    have hfa_old : freeAddrs l.base l.blocks
        = freeAddrs l.base pre ++ a :: freeAddrs (a + b.size) post := by
      rw [hbs, freeAddrs_append, ← ha, freeAddrs_cons, if_pos hbf]
    have hna_pre : ∀ x ∈ freeAddrs l.base pre, x < a := by
      intro x hx
      have := mem_freeAddrs_lt hpre_min hx
      omega
    have hna_post : ∀ x ∈ freeAddrs (a + b.size) post, a + b.size ≤ x := by
      intro x hx
      exact mem_freeAddrs_ge hx
    have huop : ∀ v, (if cid = none then some (alignUp a al) else (none : Option Nat)) = some v →
        v = alignUp a al := by
      intro v hv
      by_cases hc : cid = none
      · rw [if_pos hc] at hv
        exact (Option.some.injEq _ _ ▸ hv).symm
      · rw [if_neg hc] at hv; cases hv
    -- the returned pointer facts, independent of the split decision
    have hbase_u : l.base ≤ u := by
      rw [← hu]; omega
    have hfit_u : u + max sz minBlockSize ≤ l.base + l.rsize := by
      have hc := hinv.cover
      rw [← hu]
      have h1 : alignUp a al + max sz minBlockSize = a + requiredAt a al sz := har.symm
      omega
    have hdvd_u : al ∣ u := by rw [← hu]; exact dvd_alignUp a hal
    have hlive : ∀ pr ∈ liveList l.blocks,
        u + max sz minBlockSize ≤ pr.1 ∨ pr.1 + pr.2 ≤ u := by
      intro pr hpr
      rw [hbs, liveList_append, liveList_cons, if_neg (by rw [hbf]; simp)] at hpr
      simp only [List.nil_append] at hpr
      rcases List.mem_append.1 hpr with h1 | h1
      · have := liveList_bounds hufp.1 pr h1
        right
        omega
      · have := liveList_bounds hufp.2 pr h1
        left
        rw [← hu]
        omega
    by_cases hsp : requiredAt a al sz + minBlockSize ≤ bsz
    · -- the chosen block is split
      rw [if_pos hsp] at hl2
      rw [allocBlocks, if_pos hsp, htake, hdrop] at hl2
      subst hl2
      refine ⟨⟨?_, ?_, ?_, ?_, ?_, hinv.bpage, hinv.rpage, hinv.bpos, hinv.rpos⟩,
        rfl, rfl, hdvd_u, hbase_u, hfit_u, hlive⟩
      ·
        simp only [sumSz_append, sumSz_cons]
        have := hinv.cover
        omega
      ·
        exact noAdj_mid_split (hbs ▸ hinv.noadj) hbf rfl
      ·
        intro x
        have htarget : freeAddrs l.base
            (pre ++ ⟨requiredAt a al sz, false,
              (if cid = none then some (alignUp a al) else none), sz, cid⟩ ::
              ⟨bsz - requiredAt a al sz, true, none, 0, none⟩ :: post)
            = freeAddrs l.base pre ++ (a + requiredAt a al sz) :: freeAddrs (a + b.size) post := by
          rw [freeAddrs_append, ← ha, freeAddrs_cons]
          dsimp only
          rw [if_neg (by simp : ¬(false = true)), freeAddrs_cons]
          dsimp only
          rw [if_pos rfl]
          have heq2 : a + requiredAt a al sz + (bsz - requiredAt a al sz) = a + b.size := by
            rw [hbsz]; omega
          rw [heq2]
        rw [htarget]
        constructor
        · intro hx
          rcases List.mem_cons.1 hx with rfl | hx2
          · exact List.mem_append.2 (Or.inr (List.mem_cons_self _ _))
          · have hx3 := List.mem_filter.1 hx2
            have hne : x ≠ a := by simpa using hx3.2
            have := (hinv.flist x).1 hx3.1
            rw [hfa_old] at this
            rcases List.mem_append.1 this with h1 | h1
            · exact List.mem_append.2 (Or.inl h1)
            · rcases List.mem_cons.1 h1 with rfl | h2
              · exact absurd rfl hne
              · exact List.mem_append.2 (Or.inr (List.mem_cons_of_mem _ h2))
        · intro hx
          rcases List.mem_append.1 hx with h1 | h1
          · have hlt := hna_pre x h1
            refine List.mem_cons_of_mem _ (List.mem_filter.2 ⟨?_, by simp; omega⟩)
            exact (hinv.flist x).2 (by rw [hfa_old]; exact List.mem_append.2 (Or.inl h1))
          · rcases List.mem_cons.1 h1 with rfl | h2
            · exact List.mem_cons_self _ _
            · have hge := hna_post x h2
              refine List.mem_cons_of_mem _ (List.mem_filter.2 ⟨?_, by simp; omega⟩)
              exact (hinv.flist x).2
                (by rw [hfa_old]; exact List.mem_append.2 (Or.inr (List.mem_cons_of_mem _ h2)))
      ·
        intro c hc
        rcases List.mem_append.1 hc with h1 | h1
        · exact hpre_min c h1
        · rcases List.mem_cons.1 h1 with rfl | h2
          · exact hr32
          · rcases List.mem_cons.1 h2 with rfl | h3
            · dsimp only
              omega
            · exact hpost_min c h3
      ·
        rw [userFit_append]
        refine ⟨hufp.1, ?_⟩
        rw [← ha, userFit_cons]
        dsimp only
        constructor
        · intro _ v hv
          have hveq := huop v hv
          subst hveq
          exact ⟨hale, by omega⟩
        · rw [userFit_cons]
          dsimp only
          refine ⟨(fun habs => nomatch habs), ?_⟩
          have heq3 : a + requiredAt a al sz + (bsz - requiredAt a al sz) = a + b.size := by
            rw [hbsz]; omega
          rw [heq3]
          exact hufp.2

    · -- the whole block is handed out
      rw [if_neg hsp] at hl2
      rw [allocBlocks, if_neg hsp, htake, hdrop] at hl2
      subst hl2
      refine ⟨⟨?_, ?_, ?_, ?_, ?_, hinv.bpage, hinv.rpage, hinv.bpos, hinv.rpos⟩,
        rfl, rfl, hdvd_u, hbase_u, hfit_u, hlive⟩
      ·
        simp only [sumSz_append, sumSz_cons]
        have := hinv.cover
        omega
      ·
        exact noAdj_mid_alloc (hbs ▸ hinv.noadj) rfl
      ·
        intro x
        have htarget : freeAddrs l.base
            (pre ++ ⟨bsz, false,
              (if cid = none then some (alignUp a al) else none), sz, cid⟩ :: post)
            = freeAddrs l.base pre ++ freeAddrs (a + b.size) post := by
          rw [freeAddrs_append, ← ha, freeAddrs_cons]
          dsimp only
          rw [if_neg (by simp : ¬(false = true))]
          rw [hbsz]
        rw [htarget]
        constructor
        · intro hx
          have hx3 := List.mem_filter.1 hx
          have hne : x ≠ a := by simpa using hx3.2
          have := (hinv.flist x).1 hx3.1
          rw [hfa_old] at this
          rcases List.mem_append.1 this with h1 | h1
          · exact List.mem_append.2 (Or.inl h1)
          · rcases List.mem_cons.1 h1 with rfl | h2
            · exact absurd rfl hne
            · exact List.mem_append.2 (Or.inr h2)
        · intro hx
          rcases List.mem_append.1 hx with h1 | h1
          · have hlt := hna_pre x h1
            refine List.mem_filter.2 ⟨?_, by simp; omega⟩
            exact (hinv.flist x).2 (by rw [hfa_old]; exact List.mem_append.2 (Or.inl h1))
          · have hge := hna_post x h1
            refine List.mem_filter.2 ⟨?_, by simp; omega⟩
            exact (hinv.flist x).2
              (by rw [hfa_old]; exact List.mem_append.2 (Or.inr (List.mem_cons_of_mem _ h1)))
      ·
        intro c hc
        rcases List.mem_append.1 hc with h1 | h1
        · exact hpre_min c h1
        · rcases List.mem_cons.1 h1 with rfl | h2
          · dsimp only
            omega
          · exact hpost_min c h2
      ·
        rw [userFit_append]
        refine ⟨hufp.1, ?_⟩
        rw [← ha, userFit_cons]
        dsimp only
        constructor
        · intro _ v hv
          have hveq := huop v hv
          subst hveq
          exact ⟨hale, by omega⟩
        · rw [← hbsz]
          exact hufp.2


/-! ### Rebuilding a link invariant after a free with coalescing -/

theorem mem_insertAddr {x a : Nat} {L : List Nat} :
    x ∈ (if a ∈ L then L else a :: L) ↔ x = a ∨ x ∈ L := by
  by_cases h : a ∈ L
  · rw [if_pos h]
    constructor
    · exact Or.inr
    · rintro (rfl | hx)
      · exact h
      · exact hx
  · rw [if_neg h]
    exact List.mem_cons

/-- Assemble the link invariant for a state of the shape
`qre ++ m :: qost` where `m` is the single free block produced by a
coalescing free. -/
theorem linkInv_mk {l : Link} {qre qost : List Block} {m : Block} {FL : List Nat}
    (hq1 : NoAdj qre) (hq2 : NoAdj qost)
    (hlast : ∀ x ∈ qre.getLast?, x.free = false)
    (hhead : ∀ y ∈ qost.head?, y.free = false)
    (hm : m.free = true)
    (hcov : sumSz qre + (m.size + sumSz qost) = l.rsize)
    (hfl : ∀ x, x ∈ FL ↔ x ∈ freeAddrs l.base qre ∨ x = l.base + sumSz qre ∨
           x ∈ freeAddrs (l.base + sumSz qre + m.size) qost)
    (hq1m : MinSz qre) (hq2m : MinSz qost) (hmm : minBlockSize ≤ m.size)
    (hu1 : UserFit l.base qre) (hu2 : UserFit (l.base + sumSz qre + m.size) qost)
    (hbp : pageSize ∣ l.base) (hrp : pageSize ∣ l.rsize)
    (hb0 : 0 < l.base) (hr0 : 0 < l.rsize) :
    LinkInv { l with blocks := qre ++ m :: qost, freeList := FL } := by
  constructor
  case cover => rw [sumSz_append, sumSz_cons]; exact hcov
  case noadj =>
    unfold NoAdj
    rw [List.chain'_append]
    refine ⟨hq1, ?_, ?_⟩
    · rw [List.chain'_cons']
      exact ⟨fun y hy => Or.inr (hhead y hy), hq2⟩
    · intro x hx y hy
      simp only [List.head?_cons, Option.mem_def, Option.some.injEq] at hy
      subst hy
      exact Or.inl (hlast x hx)
  case flist =>
    intro x
    rw [freeAddrs_append, freeAddrs_cons, if_pos hm]
    rw [hfl x]
    simp [List.mem_append, List.mem_cons, Nat.add_assoc]
  case minsz =>
    intro c hc
    rcases List.mem_append.1 hc with h1 | h1
    · exact hq1m c h1
    · rcases List.mem_cons.1 h1 with rfl | h2
      · exact hmm
      · exact hq2m c h2
  case ufit =>
    rw [userFit_append, userFit_cons]
    refine ⟨hu1, ?_, ?_⟩
    · intro hn
      rw [hm] at hn
      cases hn
    · exact hu2
  case bpage => exact hbp
  case rpage => exact hrp
  case bpos => exact hb0
  case rpos => exact hr0

theorem linkFree_eq_nn {l : Link} {i a : Nat} {b : Block} {pre post : List Block}
    (htake : l.blocks.take i = pre) (hdrop : l.blocks.drop (i + 1) = post)
    (hnext : ∀ y ∈ post.head?, y.free = false)
    (hnoprev : ∀ x ∈ pre.getLast?, x.free = false) :
    linkFree l i a b = { l with
      blocks := pre ++ ⟨b.size, true, b.uptr, b.req, none⟩ :: post,
      freeList := if a ∈ l.freeList then l.freeList else a :: l.freeList } := by
  unfold linkFree
  rw [htake, hdrop]
  cases post with
  | nil =>
    cases hgl : pre.getLast? with
    | none => simp [hgl]
    | some pb =>
      have hp : pb.free = false := hnoprev pb (by rw [hgl]; rfl)
      simp [hgl, hp]
  | cons c post2 =>
    have hc : c.free = false := hnext c rfl
    cases hgl : pre.getLast? with
    | none => simp [hgl, hc]
    | some pb =>
      have hp : pb.free = false := hnoprev pb (by rw [hgl]; rfl)
      simp [hgl, hc, hp]

theorem linkFree_eq_np {l : Link} {i a : Nat} {b pb : Block} {pre2 post : List Block}
    (htake : l.blocks.take i = pre2 ++ [pb]) (hdrop : l.blocks.drop (i + 1) = post)
    (hnext : ∀ y ∈ post.head?, y.free = false)
    (hpf : pb.free = true) :
    linkFree l i a b = { l with
      blocks := pre2 ++ ⟨pb.size + b.size, true, pb.uptr, pb.req, none⟩ :: post,
      freeList := l.freeList } := by
  unfold linkFree
  rw [htake, hdrop]
  cases post with
  | nil => simp [List.getLast?_concat, hpf, List.dropLast_concat]
  | cons c post2 =>
    have hc : c.free = false := hnext c rfl
    simp [List.getLast?_concat, hpf, hc, List.dropLast_concat]

theorem linkFree_eq_pn {l : Link} {i a : Nat} {b c : Block} {pre post2 : List Block}
    (htake : l.blocks.take i = pre) (hdrop : l.blocks.drop (i + 1) = c :: post2)
    (hcf : c.free = true)
    (hnoprev : ∀ x ∈ pre.getLast?, x.free = false) :
    linkFree l i a b = { l with
      blocks := pre ++ ⟨b.size + c.size, true, b.uptr, b.req, none⟩ :: post2,
      freeList :=
        if a ∈ l.freeList.filter (fun x => x ≠ a + b.size) then
          l.freeList.filter (fun x => x ≠ a + b.size)
        else a :: l.freeList.filter (fun x => x ≠ a + b.size) } := by
  unfold linkFree
  rw [htake, hdrop]
  cases hgl : pre.getLast? with
  | none => simp [hgl, hcf]
  | some pb =>
    have hp : pb.free = false := hnoprev pb (by rw [hgl]; rfl)
    simp [hgl, hcf, hp]

theorem linkFree_eq_pp {l : Link} {i a : Nat} {b c pb : Block} {pre2 post2 : List Block}
    (htake : l.blocks.take i = pre2 ++ [pb]) (hdrop : l.blocks.drop (i + 1) = c :: post2)
    (hcf : c.free = true) (hpf : pb.free = true) :
    linkFree l i a b = { l with
      blocks := pre2 ++ ⟨pb.size + (b.size + c.size), true, pb.uptr, pb.req, none⟩ :: post2,
      freeList := l.freeList.filter (fun x => x ≠ a + b.size) } := by
  unfold linkFree
  rw [htake, hdrop]
  simp [List.getLast?_concat, hcf, hpf, List.dropLast_concat]

theorem linkInv_free_nn {l : Link} {a : Nat} {b : Block} {pre post : List Block}
    (hinv : LinkInv l) (hbs : l.blocks = pre ++ b :: post)
    (ha : a = l.base + sumSz pre) (hbf : b.free = false)
    (hnext : ∀ y ∈ post.head?, y.free = false)
    (hnoprev : ∀ x ∈ pre.getLast?, x.free = false) :
    LinkInv { l with
      blocks := pre ++ ⟨b.size, true, b.uptr, b.req, none⟩ :: post,
      freeList := if a ∈ l.freeList then l.freeList else a :: l.freeList } := by
  have hmbs : minBlockSize = 32 := rfl
  have hna : NoAdj (pre ++ b :: post) := hbs ▸ hinv.noadj
  have hbm : minBlockSize ≤ b.size := hinv.minsz b
    (by rw [hbs]; exact List.mem_append.2 (Or.inr (List.mem_cons_self _ _)))
  have hpre_min : MinSz pre := fun x hx =>
    hinv.minsz x (by rw [hbs]; exact List.mem_append.2 (Or.inl hx))
  have hpost_min : MinSz post := fun x hx => hinv.minsz x
    (by rw [hbs]; exact List.mem_append.2 (Or.inr (List.mem_cons_of_mem _ hx)))
  have hcov0 : sumSz pre + (b.size + sumSz post) = l.rsize := by
    have hc := hinv.cover
    rw [hbs, sumSz_append, sumSz_cons] at hc
    exact hc
  have hW : UserFit l.base pre ∧ UserFit (l.base + sumSz pre + b.size) post := by
    have huf := hinv.ufit
    rw [hbs, userFit_append] at huf
    exact ⟨huf.1, (userFit_cons.mp huf.2).2⟩
  have hfa_old : freeAddrs l.base l.blocks
      = freeAddrs l.base pre ++ freeAddrs (a + b.size) post := by
    rw [hbs, freeAddrs_append, ← ha, freeAddrs_cons, if_neg (by rw [hbf]; simp)]
  have hq1 : NoAdj pre := by
    unfold NoAdj at hna ⊢
    exact hna.left_of_append
  have hq2 : NoAdj post := by
    unfold NoAdj at hna ⊢
    exact (hna.right_of_append).tail
  refine linkInv_mk hq1 hq2 hnoprev hnext rfl ?_ ?_ hpre_min hpost_min ?_ hW.1 ?_
    hinv.bpage hinv.rpage hinv.bpos hinv.rpos
  · dsimp only
    exact hcov0
  · intro x
    rw [mem_insertAddr]
    dsimp only
    rw [← ha]
    have hmem : x ∈ l.freeList ↔
        x ∈ freeAddrs l.base pre ∨ x ∈ freeAddrs (a + b.size) post := by
      rw [hinv.flist x, hfa_old, List.mem_append]
    constructor
    · rintro (rfl | hx)
      · exact Or.inr (Or.inl rfl)
      · rcases hmem.1 hx with h1 | h1
        · exact Or.inl h1
        · exact Or.inr (Or.inr h1)
    · rintro (h1 | h1 | h1)
      · exact Or.inr (hmem.2 (Or.inl h1))
      · exact Or.inl h1
      · exact Or.inr (hmem.2 (Or.inr h1))
  · dsimp only
    omega
  · dsimp only
    exact hW.2

theorem linkInv_free_pn {l : Link} {a : Nat} {b c : Block} {pre post2 : List Block}
    (hinv : LinkInv l) (hbs : l.blocks = pre ++ b :: c :: post2)
    (ha : a = l.base + sumSz pre) (hbf : b.free = false) (hcf : c.free = true)
    (hnoprev : ∀ x ∈ pre.getLast?, x.free = false) :
    LinkInv { l with
      blocks := pre ++ ⟨b.size + c.size, true, b.uptr, b.req, none⟩ :: post2,
      freeList :=
        if a ∈ l.freeList.filter (fun x => x ≠ a + b.size) then
          l.freeList.filter (fun x => x ≠ a + b.size)
        else a :: l.freeList.filter (fun x => x ≠ a + b.size) } := by
  have hmbs : minBlockSize = 32 := rfl
  have hna : NoAdj (pre ++ b :: c :: post2) := hbs ▸ hinv.noadj
  have hbm : minBlockSize ≤ b.size := hinv.minsz b
    (by rw [hbs]; exact List.mem_append.2 (Or.inr (List.mem_cons_self _ _)))
  have hcm : minBlockSize ≤ c.size := hinv.minsz c
    (by rw [hbs]
        exact List.mem_append.2 (Or.inr (List.mem_cons_of_mem _ (List.mem_cons_self _ _))))
  have hpre_min : MinSz pre := fun x hx =>
    hinv.minsz x (by rw [hbs]; exact List.mem_append.2 (Or.inl hx))
  have hpost_min : MinSz post2 := fun x hx => hinv.minsz x
    (by rw [hbs]
        exact List.mem_append.2
          (Or.inr (List.mem_cons_of_mem _ (List.mem_cons_of_mem _ hx))))
  have hcov0 : sumSz pre + (b.size + (c.size + sumSz post2)) = l.rsize := by
    have hc2 := hinv.cover
    rw [hbs, sumSz_append, sumSz_cons, sumSz_cons] at hc2
    exact hc2
  have hW : UserFit l.base pre ∧ UserFit (l.base + sumSz pre + b.size + c.size) post2 := by
    have huf := hinv.ufit
    rw [hbs, userFit_append] at huf
    exact ⟨huf.1, (userFit_cons.mp (userFit_cons.mp huf.2).2).2⟩
  have hfa_old : freeAddrs l.base l.blocks
      = freeAddrs l.base pre ++ (a + b.size) :: freeAddrs (a + b.size + c.size) post2 := by
    rw [hbs, freeAddrs_append, ← ha, freeAddrs_cons, if_neg (by rw [hbf]; simp),
      freeAddrs_cons, if_pos hcf]
  have hprefree : ∀ x ∈ freeAddrs l.base pre, x < a := by
    intro x hx
    have := mem_freeAddrs_lt hpre_min hx
    omega
  have hpostfree : ∀ x ∈ freeAddrs (a + b.size + c.size) post2, a + b.size + c.size ≤ x :=
    fun x hx => mem_freeAddrs_ge hx
  have hq1 : NoAdj pre := by
    unfold NoAdj at hna ⊢
    exact hna.left_of_append
  have hRight : List.Chain' NotBothFree (b :: c :: post2) := by
    unfold NoAdj at hna
    exact hna.right_of_append
  have hq2 : NoAdj post2 := by
    unfold NoAdj
    exact hRight.tail.tail
  have hhead : ∀ y ∈ post2.head?, y.free = false := by
    intro y hy
    rcases hRight.tail.rel_head? hy with h1 | h1
    · rw [hcf] at h1; cases h1
    · exact h1
  refine linkInv_mk hq1 hq2 hnoprev hhead rfl ?_ ?_ hpre_min hpost_min ?_ hW.1 ?_
    hinv.bpage hinv.rpage hinv.bpos hinv.rpos
  · dsimp only
    omega
  · intro x
    rw [mem_insertAddr]
    dsimp only
    rw [← ha, ← Nat.add_assoc]
    have hmem : x ∈ l.freeList ↔
        x ∈ freeAddrs l.base pre ∨ x = a + b.size ∨
          x ∈ freeAddrs (a + b.size + c.size) post2 := by
      rw [hinv.flist x, hfa_old]
      simp [List.mem_append, List.mem_cons]
    have hfilter : ∀ z : Nat, z ∈ l.freeList.filter (fun y => y ≠ a + b.size) ↔
        z ∈ l.freeList ∧ z ≠ a + b.size := by
      intro z
      rw [List.mem_filter]
      simp
    constructor
    · rintro (rfl | hx)
      · exact Or.inr (Or.inl rfl)
      · obtain ⟨hx1, hx2⟩ := (hfilter x).1 hx
        rcases hmem.1 hx1 with h1 | h1 | h1
        · exact Or.inl h1
        · exact absurd h1 hx2
        · exact Or.inr (Or.inr h1)
    · rintro (h1 | h1 | h1)
      · refine Or.inr ((hfilter x).2 ⟨hmem.2 (Or.inl h1), ?_⟩)
        have := hprefree x h1
        omega
      · exact Or.inl h1
      · refine Or.inr ((hfilter x).2 ⟨hmem.2 (Or.inr (Or.inr h1)), ?_⟩)
        have := hpostfree x h1
        omega
  · dsimp only
    omega
  · dsimp only
    have h2 := hW.2
    rw [Nat.add_assoc (l.base + sumSz pre)] at h2
    exact h2

theorem linkInv_free_np {l : Link} {a : Nat} {b pb : Block} {pre2 post : List Block}
    (hinv : LinkInv l) (hbs : l.blocks = (pre2 ++ [pb]) ++ b :: post)
    (ha : a = l.base + sumSz (pre2 ++ [pb])) (hbf : b.free = false) (hpf : pb.free = true)
    (hnext : ∀ y ∈ post.head?, y.free = false) :
    LinkInv { l with
      blocks := pre2 ++ ⟨pb.size + b.size, true, pb.uptr, pb.req, none⟩ :: post,
      freeList := l.freeList } := by
  have hmbs : minBlockSize = 32 := rfl
  have hna : NoAdj ((pre2 ++ [pb]) ++ b :: post) := hbs ▸ hinv.noadj
  have hsum_pre : sumSz (pre2 ++ [pb]) = sumSz pre2 + pb.size := by
    rw [sumSz_append, sumSz_cons, sumSz_nil]
    omega
  have hbm : minBlockSize ≤ b.size := hinv.minsz b
    (by rw [hbs]; exact List.mem_append.2 (Or.inr (List.mem_cons_self _ _)))
  have hpbm : minBlockSize ≤ pb.size := hinv.minsz pb
    (by rw [hbs]
        exact List.mem_append.2 (Or.inl (List.mem_append.2 (Or.inr (List.mem_cons_self _ _)))))
  have hpre_min : MinSz pre2 := fun x hx => hinv.minsz x
    (by rw [hbs]; exact List.mem_append.2 (Or.inl (List.mem_append.2 (Or.inl hx))))
  have hpost_min : MinSz post := fun x hx => hinv.minsz x
    (by rw [hbs]; exact List.mem_append.2 (Or.inr (List.mem_cons_of_mem _ hx)))
  have hcov0 : sumSz (pre2 ++ [pb]) + (b.size + sumSz post) = l.rsize := by
    have hc := hinv.cover
    rw [hbs, sumSz_append, sumSz_cons] at hc
    exact hc
  have hW : UserFit l.base (pre2 ++ [pb]) ∧
      UserFit (l.base + sumSz (pre2 ++ [pb]) + b.size) post := by
    have huf := hinv.ufit
    rw [hbs, userFit_append] at huf
    exact ⟨huf.1, (userFit_cons.mp huf.2).2⟩
  have hu1 : UserFit l.base pre2 := by
    have h1 := hW.1
    rw [userFit_append] at h1
    exact h1.1
  have hfa_pre : freeAddrs l.base (pre2 ++ [pb])
      = freeAddrs l.base pre2 ++ [l.base + sumSz pre2] := by
    rw [freeAddrs_append, freeAddrs_cons, if_pos hpf]
    rfl
  have hfa_old : freeAddrs l.base l.blocks
      = (freeAddrs l.base pre2 ++ [l.base + sumSz pre2]) ++ freeAddrs (a + b.size) post := by
    rw [hbs, freeAddrs_append, ← ha, freeAddrs_cons, if_neg (by rw [hbf]; simp), hfa_pre]
  have hchain_pre : List.Chain' NotBothFree (pre2 ++ [pb]) := by
    unfold NoAdj at hna
    exact hna.left_of_append
  have hq1 : NoAdj pre2 := by
    unfold NoAdj
    exact hchain_pre.left_of_append
  have hlast2 : ∀ x ∈ pre2.getLast?, x.free = false := by
    intro x hx
    have h3 := (List.chain'_append.1 hchain_pre).2.2 x hx pb (by rfl)
    rcases h3 with h4 | h4
    · exact h4
    · rw [hpf] at h4; cases h4
  have hq2 : NoAdj post := by
    unfold NoAdj at hna ⊢
    exact (hna.right_of_append).tail
  refine linkInv_mk hq1 hq2 hlast2 hnext rfl ?_ ?_ hpre_min hpost_min ?_ hu1 ?_
    hinv.bpage hinv.rpage hinv.bpos hinv.rpos
  · dsimp only
    omega
  · intro x
    dsimp only
    have hmem : x ∈ l.freeList ↔
        (x ∈ freeAddrs l.base pre2 ∨ x = l.base + sumSz pre2) ∨
          x ∈ freeAddrs (a + b.size) post := by
      rw [hinv.flist x, hfa_old, List.mem_append, List.mem_append]
      simp [List.mem_cons]
    rw [hmem]
    have haddr : l.base + sumSz pre2 + (pb.size + b.size) = a + b.size := by
      rw [ha, hsum_pre]; omega
    rw [haddr]
    constructor
    · rintro ((h1 | h1) | h1)
      · exact Or.inl h1
      · exact Or.inr (Or.inl h1)
      · exact Or.inr (Or.inr h1)
    · rintro (h1 | h1 | h1)
      · exact Or.inl (Or.inl h1)
      · exact Or.inl (Or.inr h1)
      · exact Or.inr h1
  · dsimp only
    omega
  · dsimp only
    have h2 := hW.2
    have haddr : l.base + sumSz (pre2 ++ [pb]) + b.size
        = l.base + sumSz pre2 + (pb.size + b.size) := by
      rw [hsum_pre]; omega
    rw [haddr] at h2
    exact h2

theorem linkInv_free_pp {l : Link} {a : Nat} {b c pb : Block} {pre2 post2 : List Block}
    (hinv : LinkInv l) (hbs : l.blocks = (pre2 ++ [pb]) ++ b :: c :: post2)
    (ha : a = l.base + sumSz (pre2 ++ [pb])) (hbf : b.free = false)
    (hpf : pb.free = true) (hcf : c.free = true) :
    LinkInv { l with
      blocks := pre2 ++ ⟨pb.size + (b.size + c.size), true, pb.uptr, pb.req, none⟩ :: post2,
      freeList := l.freeList.filter (fun x => x ≠ a + b.size) } := by
  have hmbs : minBlockSize = 32 := rfl
  have hna : NoAdj ((pre2 ++ [pb]) ++ b :: c :: post2) := hbs ▸ hinv.noadj
  have hsum_pre : sumSz (pre2 ++ [pb]) = sumSz pre2 + pb.size := by
    rw [sumSz_append, sumSz_cons, sumSz_nil]
    omega
  have hbm : minBlockSize ≤ b.size := hinv.minsz b
    (by rw [hbs]; exact List.mem_append.2 (Or.inr (List.mem_cons_self _ _)))
  have hpbm : minBlockSize ≤ pb.size := hinv.minsz pb
    (by rw [hbs]
        exact List.mem_append.2 (Or.inl (List.mem_append.2 (Or.inr (List.mem_cons_self _ _)))))
  have hcm : minBlockSize ≤ c.size := hinv.minsz c
    (by rw [hbs]
        exact List.mem_append.2 (Or.inr (List.mem_cons_of_mem _ (List.mem_cons_self _ _))))
  have hpre_min : MinSz pre2 := fun x hx => hinv.minsz x
    (by rw [hbs]; exact List.mem_append.2 (Or.inl (List.mem_append.2 (Or.inl hx))))
  have hpost_min : MinSz post2 := fun x hx => hinv.minsz x
    (by rw [hbs]
        exact List.mem_append.2
          (Or.inr (List.mem_cons_of_mem _ (List.mem_cons_of_mem _ hx))))
  have hcov0 : sumSz (pre2 ++ [pb]) + (b.size + (c.size + sumSz post2)) = l.rsize := by
    have hc2 := hinv.cover
    rw [hbs, sumSz_append, sumSz_cons, sumSz_cons] at hc2
    exact hc2
  have hW : UserFit l.base (pre2 ++ [pb]) ∧
      UserFit (l.base + sumSz (pre2 ++ [pb]) + b.size + c.size) post2 := by
    have huf := hinv.ufit
    rw [hbs, userFit_append] at huf
    exact ⟨huf.1, (userFit_cons.mp (userFit_cons.mp huf.2).2).2⟩
  have hu1 : UserFit l.base pre2 := by
    have h1 := hW.1
    rw [userFit_append] at h1
    exact h1.1
  have hfa_pre : freeAddrs l.base (pre2 ++ [pb])
      = freeAddrs l.base pre2 ++ [l.base + sumSz pre2] := by
    rw [freeAddrs_append, freeAddrs_cons, if_pos hpf]
    rfl
  have hfa_old : freeAddrs l.base l.blocks
      = (freeAddrs l.base pre2 ++ [l.base + sumSz pre2]) ++
        (a + b.size) :: freeAddrs (a + b.size + c.size) post2 := by
    rw [hbs, freeAddrs_append, ← ha, freeAddrs_cons, if_neg (by rw [hbf]; simp),
      freeAddrs_cons, if_pos hcf, hfa_pre]
  have hprefree : ∀ x ∈ freeAddrs l.base pre2, x < l.base + sumSz pre2 :=
    fun x hx => mem_freeAddrs_lt hpre_min hx
  have hpostfree : ∀ x ∈ freeAddrs (a + b.size + c.size) post2, a + b.size + c.size ≤ x :=
    fun x hx => mem_freeAddrs_ge hx
  have hchain_pre : List.Chain' NotBothFree (pre2 ++ [pb]) := by
    unfold NoAdj at hna
    exact hna.left_of_append
  have hq1 : NoAdj pre2 := by
    unfold NoAdj
    exact hchain_pre.left_of_append
  have hlast2 : ∀ x ∈ pre2.getLast?, x.free = false := by
    intro x hx
    have h3 := (List.chain'_append.1 hchain_pre).2.2 x hx pb (by rfl)
    rcases h3 with h4 | h4
    · exact h4
    · rw [hpf] at h4; cases h4
  have hRight : List.Chain' NotBothFree (b :: c :: post2) := by
    unfold NoAdj at hna
    exact hna.right_of_append
  have hq2 : NoAdj post2 := by
    unfold NoAdj
    exact hRight.tail.tail
  have hhead : ∀ y ∈ post2.head?, y.free = false := by
    intro y hy
    rcases hRight.tail.rel_head? hy with h1 | h1
    · rw [hcf] at h1; cases h1
    · exact h1
  refine linkInv_mk hq1 hq2 hlast2 hhead rfl ?_ ?_ hpre_min hpost_min ?_ hu1 ?_
    hinv.bpage hinv.rpage hinv.bpos hinv.rpos
  · dsimp only
    omega
  · intro x
    dsimp only
    have hmem : x ∈ l.freeList ↔
        ((x ∈ freeAddrs l.base pre2 ∨ x = l.base + sumSz pre2) ∨
          (x = a + b.size ∨ x ∈ freeAddrs (a + b.size + c.size) post2)) := by
      rw [hinv.flist x, hfa_old, List.mem_append, List.mem_append]
      simp [List.mem_cons]
    have hfilter : ∀ z : Nat, z ∈ l.freeList.filter (fun y => y ≠ a + b.size) ↔
        z ∈ l.freeList ∧ z ≠ a + b.size := by
      intro z
      rw [List.mem_filter]
      simp
    rw [hfilter]
    have haddr : l.base + sumSz pre2 + (pb.size + (b.size + c.size)) = a + b.size + c.size := by
      rw [ha, hsum_pre]; omega
    rw [haddr]
    have hbound : a = l.base + sumSz pre2 + pb.size := by rw [ha, hsum_pre]; omega
    constructor
    · rintro ⟨hx1, hx2⟩
      rcases hmem.1 hx1 with (h1 | h1) | (h1 | h1)
      · exact Or.inl h1
      · exact Or.inr (Or.inl h1)
      · exact absurd h1 hx2
      · exact Or.inr (Or.inr h1)
    · rintro (h1 | h1 | h1)
      · refine ⟨hmem.2 (Or.inl (Or.inl h1)), ?_⟩
        have := hprefree x h1
        omega
      · refine ⟨hmem.2 (Or.inl (Or.inr h1)), ?_⟩
        omega
      · refine ⟨hmem.2 (Or.inr (Or.inr h1)), ?_⟩
        have := hpostfree x h1
        omega
  · dsimp only
    omega
  · dsimp only
    have h2 := hW.2
    have haddr : l.base + sumSz (pre2 ++ [pb]) + b.size + c.size
        = l.base + sumSz pre2 + (pb.size + (b.size + c.size)) := by
      rw [hsum_pre]; omega
    rw [haddr] at h2
    exact h2

theorem linkFree_base (l : Link) (i a : Nat) (b : Block) :
    (linkFree l i a b).base = l.base := by
  unfold linkFree
  dsimp only
  split
  · split <;> rfl
  · rfl

theorem linkFree_rsize (l : Link) (i a : Nat) (b : Block) :
    (linkFree l i a b).rsize = l.rsize := by
  unfold linkFree
  dsimp only
  split
  · split <;> rfl
  · rfl

theorem linkFree_spec {l : Link} {i a : Nat} {b : Block} {pre post : List Block}
    (hinv : LinkInv l) (hbs : l.blocks = pre ++ b :: post) (hlen : pre.length = i)
    (ha : a = l.base + sumSz pre) (hbf : b.free = false) :
    LinkInv (linkFree l i a b) := by
  have htake : l.blocks.take i = pre := by rw [hbs]; exact List.take_left' hlen
  have hdrop : l.blocks.drop (i + 1) = post := by
    rw [hbs]
    have heq : pre ++ b :: post = (pre ++ [b]) ++ post := by simp
    rw [heq]
    exact List.drop_left' (by simp [hlen])
  cases post with
  | nil =>
    have hnext : ∀ y ∈ ([] : List Block).head?, y.free = false := by
      intro y hy; simp at hy
    rcases List.eq_nil_or_concat' pre with rfl | ⟨pre2, pb, rfl⟩
    · rw [linkFree_eq_nn htake hdrop hnext (by intro x hx; simp at hx)]
      exact linkInv_free_nn hinv hbs ha hbf hnext (by intro x hx; simp at hx)
    · by_cases hpf : pb.free = true
      · rw [linkFree_eq_np htake hdrop hnext hpf]
        exact linkInv_free_np hinv hbs ha hbf hpf hnext
      · have hnp : ∀ x ∈ (pre2 ++ [pb]).getLast?, x.free = false := by
          intro x hx
          rw [List.getLast?_concat] at hx
          simp at hx
          subst hx
          revert hpf
          cases pb.free <;> simp
        rw [linkFree_eq_nn htake hdrop hnext hnp]
        exact linkInv_free_nn hinv hbs ha hbf hnext hnp
  | cons c post2 =>
    by_cases hcf : c.free = true
    · rcases List.eq_nil_or_concat' pre with rfl | ⟨pre2, pb, rfl⟩
      · have hnp : ∀ x ∈ ([] : List Block).getLast?, x.free = false := by
          intro x hx; simp at hx
        rw [linkFree_eq_pn htake hdrop hcf hnp]
        exact linkInv_free_pn hinv hbs ha hbf hcf hnp
      · by_cases hpf : pb.free = true
        · rw [linkFree_eq_pp htake hdrop hcf hpf]
          exact linkInv_free_pp hinv hbs ha hbf hpf hcf
        · have hnp : ∀ x ∈ (pre2 ++ [pb]).getLast?, x.free = false := by
            intro x hx
            rw [List.getLast?_concat] at hx
            simp at hx
            subst hx
            revert hpf
            cases pb.free <;> simp
          rw [linkFree_eq_pn htake hdrop hcf hnp]
          exact linkInv_free_pn hinv hbs ha hbf hcf hnp
    · have hc2 : c.free = false := by revert hcf; cases c.free <;> simp
      have hnext : ∀ y ∈ (c :: post2).head?, y.free = false := by
        intro y hy
        simp at hy
        subst hy
        exact hc2
      rcases List.eq_nil_or_concat' pre with rfl | ⟨pre2, pb, rfl⟩
      · rw [linkFree_eq_nn htake hdrop hnext (by intro x hx; simp at hx)]
        exact linkInv_free_nn hinv hbs ha hbf hnext (by intro x hx; simp at hx)
      · by_cases hpf : pb.free = true
        · rw [linkFree_eq_np htake hdrop hnext hpf]
          exact linkInv_free_np hinv hbs ha hbf hpf hnext
        · have hnp : ∀ x ∈ (pre2 ++ [pb]).getLast?, x.free = false := by
            intro x hx
            rw [List.getLast?_concat] at hx
            simp at hx
            subst hx
            revert hpf
            cases pb.free <;> simp
          rw [linkFree_eq_nn htake hdrop hnext hnp]
          exact linkInv_free_nn hinv hbs ha hbf hnext hnp

/-! ### Locating blocks and links -/

theorem findBlk_sound {p : Nat} : ∀ {bs : List Block} {beta i a : Nat} {b : Block},
    findBlk p beta bs = some (i, a, b) →
    ∃ pre post, bs = pre ++ b :: post ∧ pre.length = i ∧ a = beta + sumSz pre ∧
      b.uptr = some p := by
  intro bs
  induction bs with
  | nil => intro beta i a b h; simp [findBlk] at h
  | cons x rest ih =>
    intro beta i a b h
    rw [findBlk] at h
    by_cases hc : x.uptr = some p
    · rw [if_pos hc] at h
      simp only [Option.some.injEq, Prod.mk.injEq] at h
      obtain ⟨hi, ha, hb⟩ := h
      subst hb
      exact ⟨[], rest, rfl, by simp [← hi], by simp [← ha, sumSz_nil], hc⟩
    · rw [if_neg hc] at h
      obtain ⟨⟨j, a2, b2⟩, hr, heq⟩ := Option.map_eq_some'.mp h
      simp only [Prod.mk.injEq] at heq
      obtain ⟨hj, ha2, hb2⟩ := heq
      subst hb2
      subst ha2
      obtain ⟨pre, post, hsplit, hlen, haddr, hup⟩ := ih hr
      subst hsplit
      exact ⟨x :: pre, post, rfl, by simp [hlen, hj], by rw [haddr, sumSz_cons]; omega, hup⟩

theorem findInLinks_sound {p : Nat} : ∀ {ls : List Link} {k i a : Nat} {b : Block},
    findInLinks p ls = some (k, i, a, b) →
    ∃ lpre l lpost, ls = lpre ++ l :: lpost ∧ lpre.length = k ∧
      findBlk p l.base l.blocks = some (i, a, b) := by
  intro ls
  induction ls with
  | nil => intro k i a b h; simp [findInLinks] at h
  | cons l rest ih =>
    intro k i a b h
    rw [findInLinks] at h
    cases hf : findBlk p l.base l.blocks with
    | some t =>
      obtain ⟨i2, a2, b2⟩ := t
      rw [hf] at h
      simp only [Option.some.injEq, Prod.mk.injEq] at h
      obtain ⟨hk, hi, ha, hb⟩ := h
      subst hb
      subst ha
      subst hi
      exact ⟨[], l, rest, rfl, by simp [← hk], hf⟩
    | none =>
      rw [hf] at h
      obtain ⟨⟨k2, i2, a2, b2⟩, hr, heq⟩ := Option.map_eq_some'.mp h
      simp only [Prod.mk.injEq] at heq
      obtain ⟨hk, hi, ha, hb⟩ := heq
      subst hb
      subst ha
      subst hi
      obtain ⟨lpre, l0, lpost, hsplit, hlen, hfb⟩ := ih hr
      subst hsplit
      exact ⟨l :: lpre, l0, lpost, rfl, by simp [hlen, hk], hfb⟩

theorem updateAt_eq {ls lpre lpost : List Link} {l : Link} {k : Nat}
    (hsplit : ls = lpre ++ l :: lpost) (hlen : lpre.length = k) (f : Link → Link) :
    updateAt ls k f = lpre ++ f l :: lpost := by
  unfold updateAt
  rw [hsplit, List.take_left' hlen]
  have hdrop : (lpre ++ l :: lpost).drop k = l :: lpost := List.drop_left' hlen
  rw [hdrop]

/-! ### Transfer of the chain ordering -/

theorem forall₂_mem_right {R : Link → Link → Prop} : ∀ {l1 l2 : List Link},
    List.Forall₂ R l1 l2 → ∀ y ∈ l2, ∃ x ∈ l1, R x y := by
  intro l1 l2 hf
  induction hf with
  | nil => intro y hy; simp at hy
  | cons hxy hrest ih =>
    intro y hy
    rcases List.mem_cons.1 hy with rfl | hy2
    · exact ⟨_, List.mem_cons_self _ _, hxy⟩
    · obtain ⟨x, hx, hr⟩ := ih y hy2
      exact ⟨x, List.mem_cons_of_mem _ hx, hr⟩

theorem pairwise_of_forall₂ {ls ls2 : List Link}
    (hf : List.Forall₂ (fun x y => x.base = y.base ∧ x.rsize = y.rsize) ls ls2)
    (h : ls.Pairwise (fun x y => x.base + x.rsize ≤ y.base)) :
    ls2.Pairwise (fun x y => x.base + x.rsize ≤ y.base) := by
  induction hf with
  | nil => exact List.Pairwise.nil
  | cons hxy hrest ih =>
    rw [List.pairwise_cons] at h ⊢
    refine ⟨?_, ih h.2⟩
    intro y2 hy2
    obtain ⟨y1, hy1, hr⟩ := forall₂_mem_right hrest y2 hy2
    rw [← hxy.1, ← hxy.2, ← hr.1]
    exact h.1 y1 hy1

theorem forall₂_baseSame_refl (ls : List Link) :
    List.Forall₂ (fun x y => x.base = y.base ∧ x.rsize = y.rsize) ls ls := by
  induction ls with
  | nil => exact List.Forall₂.nil
  | cons l rest ih => exact List.Forall₂.cons ⟨rfl, rfl⟩ ih

/-! ### Pool level preservation: fail and free -/

theorem poolInv_fail {P : Pool} (hinv : PoolInv P) (e : PoolError) : PoolInv (P.fail e) :=
  ⟨hinv.links, hinv.order, hinv.apow⟩

theorem free_inv {P : Pool} (p : Nat) (hinv : PoolInv P) : PoolInv (P.free p) := by
  unfold Pool.free
  cases hf : findInLinks p P.links with
  | none => exact poolInv_fail hinv _
  | some t =>
    obtain ⟨k, i, a, b⟩ := t
    dsimp only
    by_cases hbf : b.free = true
    · rw [if_pos hbf]
      exact poolInv_fail hinv _
    · rw [if_neg hbf]
      have hbf2 : b.free = false := by revert hbf; cases b.free <;> simp
      obtain ⟨lpre, l, lpost, hsplit, hlen, hfb⟩ := findInLinks_sound hf
      obtain ⟨pre, post, hbs, hblen, haddr, hup⟩ := findBlk_sound hfb
      have hlmem : l ∈ P.links := by
        rw [hsplit]; exact List.mem_append.2 (Or.inr (List.mem_cons_self _ _))
      have hlinv := hinv.links l hlmem
      have hup2 := updateAt_eq hsplit hlen (fun l0 => linkFree l0 i a b)
      constructor
      · intro l0 hl0
        rw [hup2] at hl0
        rcases List.mem_append.1 hl0 with h1 | h1
        · exact hinv.links l0 (by rw [hsplit]; exact List.mem_append.2 (Or.inl h1))
        · rcases List.mem_cons.1 h1 with rfl | h2
          · exact linkFree_spec hlinv hbs hblen haddr hbf2
          · exact hinv.links l0
              (by rw [hsplit]; exact List.mem_append.2 (Or.inr (List.mem_cons_of_mem _ h2)))
      · rw [hup2]
        have hford : List.Forall₂ (fun x y => x.base = y.base ∧ x.rsize = y.rsize)
            (lpre ++ l :: lpost) (lpre ++ linkFree l i a b :: lpost) := by
          refine List.rel_append (forall₂_baseSame_refl lpre) ?_
          exact List.Forall₂.cons ⟨(linkFree_base l i a b).symm, (linkFree_rsize l i a b).symm⟩
            (forall₂_baseSame_refl lpost)
        exact pairwise_of_forall₂ hford (hsplit ▸ hinv.order)
      · exact hinv.apow

/-! ### Pool level preservation: allocation and chain growth -/

theorem allocWalk_inv {al sz : Nat} : ∀ {ls ls2 : List Link} {u : Nat},
    allocWalk al sz ls = some (ls2, u) → (∀ l ∈ ls, LinkInv l) → 0 < al →
    (∀ l ∈ ls2, LinkInv l) ∧
    List.Forall₂ (fun x y => x.base = y.base ∧ x.rsize = y.rsize) ls ls2 := by
  intro ls
  induction ls with
  | nil => intro ls2 u h _ _; simp [allocWalk] at h
  | cons l rest ih =>
    intro ls2 u h hall hal
    rw [allocWalk] at h
    cases ht : tryAllocLink none al sz l with
    | some t =>
      obtain ⟨l2, u2⟩ := t
      rw [ht] at h
      simp only [Option.some.injEq, Prod.mk.injEq] at h
      obtain ⟨hls, hu⟩ := h
      subst hls
      obtain ⟨hinv2, hb, hr, _⟩ := tryAllocLink_spec (hall l (List.mem_cons_self _ _)) hal ht
      refine ⟨?_, List.Forall₂.cons ⟨hb.symm, hr.symm⟩ (forall₂_baseSame_refl rest)⟩
      intro l0 hl0
      rcases List.mem_cons.1 hl0 with rfl | h2
      · exact hinv2
      · exact hall l0 (List.mem_cons_of_mem _ h2)
    | none =>
      rw [ht] at h
      cases hw : allocWalk al sz rest with
      | none => rw [hw] at h; cases h
      | some t2 =>
        obtain ⟨rest2, u2⟩ := t2
        rw [hw] at h
        simp only [Option.some.injEq, Prod.mk.injEq] at h
        obtain ⟨hls, hu⟩ := h
        subst hls
        obtain ⟨hrest, hford⟩ := ih hw (fun x hx => hall x (List.mem_cons_of_mem _ hx)) hal
        refine ⟨?_, List.Forall₂.cons ⟨rfl, rfl⟩ hford⟩
        intro l0 hl0
        rcases List.mem_cons.1 hl0 with rfl | h2
        · exact hall l0 (List.mem_cons_self _ _)
        · exact hrest l0 h2

theorem endAddr_nil : endAddr [] = pageSize := rfl

theorem endAddr_cons (x : Link) (rest : List Link) :
    endAddr (x :: rest) = max (x.base + x.rsize) (endAddr rest) := rfl

theorem le_endAddr : ∀ {ls : List Link} {l : Link}, l ∈ ls → l.base + l.rsize ≤ endAddr ls := by
  intro ls
  induction ls with
  | nil => intro l hl; simp at hl
  | cons x rest ih =>
    intro l hl
    rw [endAddr_cons]
    rcases List.mem_cons.1 hl with rfl | h2
    · exact Nat.le_max_left _ _
    · exact Nat.le_trans (ih h2) (Nat.le_max_right _ _)

theorem pageSize_le_endAddr : ∀ ls : List Link, pageSize ≤ endAddr ls := by
  intro ls
  induction ls with
  | nil => exact Nat.le_refl _
  | cons x rest ih =>
    rw [endAddr_cons]
    exact Nat.le_trans ih (Nat.le_max_right _ _)

theorem dvd_endAddr : ∀ {ls : List Link},
    (∀ l ∈ ls, pageSize ∣ l.base ∧ pageSize ∣ l.rsize) → pageSize ∣ endAddr ls := by
  intro ls
  induction ls with
  | nil => intro _; exact dvd_refl _
  | cons x rest ih =>
    intro h
    rw [endAddr_cons]
    have h1 := h x (List.mem_cons_self _ _)
    have h2 := ih (fun l hl => h l (List.mem_cons_of_mem _ hl))
    rcases Nat.le_total (x.base + x.rsize) (endAddr rest) with hle | hle
    · rw [Nat.max_eq_right hle]
      exact h2
    · rw [Nat.max_eq_left hle]
      exact Nat.dvd_add h1.1 h1.2

theorem mkLink_inv {b r : Nat} (hb : pageSize ∣ b) (hr : pageSize ∣ r)
    (hb0 : 0 < b) (hr0 : 0 < r) : LinkInv (mkLink b r) := by
  have hrmin : minBlockSize ≤ r := by
    have h1 := Nat.le_of_dvd hr0 hr
    have h2 : (minBlockSize : Nat) ≤ pageSize := by decide
    omega
  constructor
  case cover => simp [mkLink, sumSz_cons, sumSz_nil]
  case noadj => exact List.chain'_singleton _
  case flist =>
    intro x
    simp [mkLink, freeAddrs_cons, freeAddrs]
  case minsz =>
    intro c hc
    have hc2 : c = ⟨r, true, none, 0, none⟩ := by simpa [mkLink] using hc
    subst hc2
    exact hrmin
  case ufit => exact ⟨(fun h => nomatch h), trivial⟩
  case bpage => exact hb
  case rpage => exact hr
  case bpos => exact hb0
  case rpos => exact hr0

theorem allocAligned_inv {P : Pool} (sz al : Nat) (hinv : PoolInv P) :
    PoolInv (P.allocAligned sz al).1 := by
  unfold Pool.allocAligned
  by_cases h0 : sz = 0
  · rw [if_pos h0]
    exact poolInv_fail hinv _
  · rw [if_neg h0]
    by_cases hp : isPow2 al = false
    · rw [if_pos hp]
      exact poolInv_fail hinv _
    · rw [if_neg hp]
      have hal : 0 < max al P.align := by
        have := isPow2_pos hinv.apow
        omega
      dsimp only
      cases hw : allocWalk (max al P.align) sz P.links with
      | some t =>
        obtain ⟨ls, u⟩ := t
        dsimp only
        obtain ⟨hall, hford⟩ := allocWalk_inv hw hinv.links hal
        exact ⟨hall, pairwise_of_forall₂ hford hinv.order, hinv.apow⟩
      | none =>
        dsimp only
        cases hta : tryAllocLink none (max al P.align) sz
            (mkLink (endAddr P.links) (alignUp (max sz P.origSize) pageSize)) with
        | some t2 =>
          obtain ⟨nl2, u⟩ := t2
          dsimp only
          have hpage : ∀ l ∈ P.links, pageSize ∣ l.base ∧ pageSize ∣ l.rsize :=
            fun l hl => ⟨(hinv.links l hl).bpage, (hinv.links l hl).rpage⟩
          have hmkinv : LinkInv (mkLink (endAddr P.links)
              (alignUp (max sz P.origSize) pageSize)) := by
            refine mkLink_inv (dvd_endAddr hpage) (dvd_alignUp _ pageSize_pos) ?_ ?_
            · exact Nat.lt_of_lt_of_le pageSize_pos (pageSize_le_endAddr _)
            · have h1 : 1 ≤ max sz P.origSize := by omega
              have h2 := alignUp_ge (max sz P.origSize) pageSize
              omega
          obtain ⟨hinv2, hbeq, hreq2, _⟩ := tryAllocLink_spec hmkinv hal hta
          constructor
          · intro l0 hl0
            rcases List.mem_append.1 hl0 with h1 | h1
            · exact hinv.links l0 h1
            · rcases List.mem_cons.1 h1 with rfl | h2
              · exact hinv2
              · simp at h2
          · rw [List.pairwise_append]
            refine ⟨hinv.order, by simp, ?_⟩
            intro x hx y hy
            have hy2 : y = nl2 := by simpa using hy
            have hb3 : y.base = endAddr P.links := by
              rw [hy2]
              exact hbeq
            rw [hb3]
            exact le_endAddr hx
          · exact hinv.apow
        | none =>
          exact poolInv_fail hinv _

theorem alloc_inv {P : Pool} (sz : Nat) (hinv : PoolInv P) : PoolInv (P.alloc sz).1 :=
  allocAligned_inv sz P.align hinv

theorem calloc_inv {P : Pool} (n s : Nat) (hinv : PoolInv P) : PoolInv (P.calloc n s).1 := by
  unfold Pool.calloc
  by_cases h0 : 2 ^ 64 ≤ n * s
  · rw [if_pos h0]
    exact poolInv_fail hinv _
  · rw [if_neg h0]
    have := alloc_inv (n * s) hinv
    cases ha : P.alloc (n * s) with
    | mk P2 r =>
      cases r with
      | some p =>
        dsimp only
        rw [ha] at this
        exact ⟨this.links, this.order, this.apow⟩
      | none =>
        dsimp only
        rw [ha] at this
        exact this

/-! ### Defragmentation -/

theorem mergeAdj_sumSz : ∀ bs : List Block, sumSz (mergeAdj bs) = sumSz bs := by
  intro bs
  induction bs with
  | nil => rfl
  | cons b rest ih =>
    rw [mergeAdj]
    cases hm : mergeAdj rest with
    | nil =>
      rw [hm] at ih
      dsimp only
      simp only [sumSz_cons, sumSz_nil] at ih ⊢
      omega
    | cons c rest2 =>
      rw [hm] at ih
      dsimp only
      by_cases hf : b.free = true ∧ c.free = true
      · rw [if_pos hf]
        simp only [sumSz_cons] at ih ⊢
        omega
      · rw [if_neg hf]
        simp only [sumSz_cons] at ih ⊢
        omega

theorem mergeAdj_minsz : ∀ {bs : List Block}, MinSz bs → MinSz (mergeAdj bs) := by
  intro bs
  induction bs with
  | nil => intro h; exact h
  | cons b rest ih =>
    intro h
    have hb : minBlockSize ≤ b.size := h b (List.mem_cons_self _ _)
    have hrest : MinSz rest := fun x hx => h x (List.mem_cons_of_mem _ hx)
    have hmrest := ih hrest
    rw [mergeAdj]
    cases hm : mergeAdj rest with
    | nil =>
      intro x hx
      have : x = b := by simpa using hx
      subst this
      exact hb
    | cons c rest2 =>
      rw [hm] at hmrest
      dsimp only
      by_cases hf : b.free = true ∧ c.free = true
      · rw [if_pos hf]
        intro x hx
        rcases List.mem_cons.1 hx with rfl | h2
        · dsimp only
          omega
        · exact hmrest x (List.mem_cons_of_mem _ h2)
      · rw [if_neg hf]
        intro x hx
        rcases List.mem_cons.1 hx with rfl | h2
        · exact hb
        · exact hmrest x h2

theorem mergeAdj_noAdj : ∀ bs : List Block, NoAdj (mergeAdj bs) := by
  intro bs
  induction bs with
  | nil => exact List.chain'_nil
  | cons b rest ih =>
    rw [mergeAdj]
    cases hm : mergeAdj rest with
    | nil => exact List.chain'_singleton _
    | cons c rest2 =>
      rw [hm] at ih
      dsimp only
      by_cases hf : b.free = true ∧ c.free = true
      · rw [if_pos hf]
        unfold NoAdj at ih ⊢
        rw [List.chain'_cons'] at ih ⊢
        refine ⟨?_, ih.2⟩
        intro y hy
        rcases ih.1 y hy with h1 | h1
        · rw [hf.2] at h1; cases h1
        · exact Or.inr h1
      · rw [if_neg hf]
        unfold NoAdj at ih ⊢
        rw [List.chain'_cons]
        refine ⟨?_, ih⟩
        unfold NotBothFree
        revert hf
        cases b.free <;> cases c.free <;> simp

theorem mergeAdj_userFit : ∀ {bs : List Block} {a : Nat}, UserFit a bs → UserFit a (mergeAdj bs) := by
  intro bs
  induction bs with
  | nil => intro a h; exact h
  | cons b rest ih =>
    intro a h
    have h1 := (userFit_cons.mp h).1
    have h2 := (userFit_cons.mp h).2
    have hmrest := ih h2
    rw [mergeAdj]
    cases hm : mergeAdj rest with
    | nil => exact ⟨h1, trivial⟩
    | cons c rest2 =>
      rw [hm] at hmrest
      dsimp only
      by_cases hf : b.free = true ∧ c.free = true
      · rw [if_pos hf]
        have h3 := (userFit_cons.mp hmrest).2
        refine userFit_cons.mpr ⟨?_, ?_⟩
        · intro hn
          simp at hn
        · dsimp only
          rw [← Nat.add_assoc]
          exact h3
      · rw [if_neg hf]
        exact userFit_cons.mpr ⟨h1, hmrest⟩

theorem mergeAdj_of_noAdj : ∀ {bs : List Block}, NoAdj bs → mergeAdj bs = bs := by
  intro bs
  induction bs with
  | nil => intro _; rfl
  | cons b rest ih =>
    intro h
    have hrest : NoAdj rest := h.tail
    rw [mergeAdj, ih hrest]
    cases rest with
    | nil => rfl
    | cons c rest2 =>
      dsimp only
      have hrel : NotBothFree b c := h.rel_head
      have : ¬(b.free = true ∧ c.free = true) := by
        unfold NotBothFree at hrel
        revert hrel
        cases b.free <;> cases c.free <;> simp
      rw [if_neg this]

theorem linkDefrag_inv {l : Link} (hinv : LinkInv l) : LinkInv (linkDefrag l) := by
  unfold linkDefrag
  constructor
  case cover =>
    dsimp only
    rw [mergeAdj_sumSz]
    exact hinv.cover
  case noadj => exact mergeAdj_noAdj l.blocks
  case flist => intro x; exact Iff.rfl
  case minsz => exact mergeAdj_minsz hinv.minsz
  case ufit => exact mergeAdj_userFit hinv.ufit
  case bpage => exact hinv.bpage
  case rpage => exact hinv.rpage
  case bpos => exact hinv.bpos
  case rpos => exact hinv.rpos

theorem forall₂_baseSame_map {ls : List Link} (f : Link → Link)
    (hf : ∀ l, (f l).base = l.base ∧ (f l).rsize = l.rsize) :
    List.Forall₂ (fun x y => x.base = y.base ∧ x.rsize = y.rsize) ls (ls.map f) := by
  induction ls with
  | nil => exact List.Forall₂.nil
  | cons l rest ih =>
    exact List.Forall₂.cons ⟨(hf l).1.symm, (hf l).2.symm⟩ ih

theorem defragment_inv {P : Pool} (hinv : PoolInv P) : PoolInv P.defragment := by
  constructor
  · intro l0 hl0
    obtain ⟨l, hl, rfl⟩ := List.mem_map.1 hl0
    exact linkDefrag_inv (hinv.links l hl)
  · exact pairwise_of_forall₂ (forall₂_baseSame_map linkDefrag (fun _ => ⟨rfl, rfl⟩)) hinv.order
  · exact hinv.apow

theorem linkDefrag_idem (l : Link) : linkDefrag (linkDefrag l) = linkDefrag l := by
  unfold linkDefrag
  dsimp only
  rw [mergeAdj_of_noAdj (mergeAdj_noAdj l.blocks)]

/-! ### Reset -/

theorem linkReset_inv {l : Link} (hinv : LinkInv l) : LinkInv (linkReset l) := by
  have hrmin : minBlockSize ≤ l.rsize := by
    have h1 := Nat.le_of_dvd hinv.rpos hinv.rpage
    have h2 : (minBlockSize : Nat) ≤ pageSize := by decide
    omega
  constructor
  case cover => simp [linkReset, sumSz_cons, sumSz_nil]
  case noadj => exact List.chain'_singleton _
  case flist =>
    intro x
    simp [linkReset, freeAddrs_cons, freeAddrs]
  case minsz =>
    intro c hc
    have hc2 : c = ⟨l.rsize, true, none, 0, none⟩ := by simpa [linkReset] using hc
    subst hc2
    exact hrmin
  case ufit => exact ⟨(fun h => nomatch h), trivial⟩
  case bpage => exact hinv.bpage
  case rpage => exact hinv.rpage
  case bpos => exact hinv.bpos
  case rpos => exact hinv.rpos

theorem reset_inv {P : Pool} (hinv : PoolInv P) : PoolInv P.reset := by
  constructor
  · intro l0 hl0
    obtain ⟨l, hl, rfl⟩ := List.mem_map.1 hl0
    exact linkReset_inv (hinv.links l hl)
  · exact pairwise_of_forall₂ (forall₂_baseSame_map linkReset (fun _ => ⟨rfl, rfl⟩)) hinv.order
  · exact hinv.apow

/-! ### Class table operations -/

theorem addClass_inv {P : Pool} (s cap : Nat) (hinv : PoolInv P) :
    PoolInv (P.addClass s cap).1 := by
  unfold Pool.addClass
  by_cases h0 : s = 0 ∨ maxSizeClasses ≤ P.classes.length
  · rw [if_pos h0]
    exact poolInv_fail hinv _
  · rw [if_neg h0]
    dsimp only
    cases hls : P.links with
    | nil => exact poolInv_fail hinv _
    | cons l rest =>
      dsimp only
      cases hta : tryAllocLink (some P.classes.length) P.align
          ((wordSize + alignUp s wordSize) * cap) l with
      | none => exact poolInv_fail hinv _
      | some t =>
        obtain ⟨l2, sb⟩ := t
        dsimp only
        have hlinv := hinv.links l (by rw [hls]; exact List.mem_cons_self _ _)
        have hal : 0 < P.align := isPow2_pos hinv.apow
        obtain ⟨hinv2, hb, hr, _⟩ := tryAllocLink_spec hlinv hal hta
        constructor
        · intro l0 hl0
          rcases List.mem_cons.1 hl0 with rfl | h2
          · exact hinv2
          · exact hinv.links l0 (by rw [hls]; exact List.mem_cons_of_mem _ h2)
        · have hford : List.Forall₂ (fun x y => x.base = y.base ∧ x.rsize = y.rsize)
              (l :: rest) (l2 :: rest) :=
            List.Forall₂.cons ⟨hb.symm, hr.symm⟩ (forall₂_baseSame_refl rest)
          exact pairwise_of_forall₂ hford (hls ▸ hinv.order)
        · exact hinv.apow

theorem allocFixed_links (P : Pool) (sz : Nat) :
    (P.allocFixed sz).1.links = P.links ∧ (P.allocFixed sz).1.align = P.align := by
  unfold Pool.allocFixed
  split
  · exact ⟨rfl, rfl⟩
  · split
    · exact ⟨rfl, rfl⟩
    · split
      · exact ⟨rfl, rfl⟩
      · exact ⟨rfl, rfl⟩

theorem freeFixed_links (P : Pool) (p : Nat) :
    (P.freeFixed p).links = P.links ∧ (P.freeFixed p).align = P.align := by
  unfold Pool.freeFixed
  dsimp only
  split
  · exact ⟨rfl, rfl⟩
  · split
    · exact ⟨rfl, rfl⟩
    · split
      · exact ⟨rfl, rfl⟩
      · exact ⟨rfl, rfl⟩

theorem poolInv_of_linksEq {P Q : Pool} (hinv : PoolInv P) (hl : Q.links = P.links)
    (ha : Q.align = P.align) : PoolInv Q := by
  constructor
  · rw [hl]
    exact hinv.links
  · rw [hl]
    exact hinv.order
  · rw [ha]
    exact hinv.apow

theorem allocFixed_inv {P : Pool} (sz : Nat) (hinv : PoolInv P) :
    PoolInv (P.allocFixed sz).1 :=
  poolInv_of_linksEq hinv (allocFixed_links P sz).1 (allocFixed_links P sz).2

theorem freeFixed_inv {P : Pool} (p : Nat) (hinv : PoolInv P) :
    PoolInv (P.freeFixed p) :=
  poolInv_of_linksEq hinv (freeFixed_links P p).1 (freeFixed_links P p).2

/-! ### Reallocation -/

theorem noAdj_mid_absorb {pre post2 : List Block} {b c d : Block}
    (h : NoAdj (pre ++ b :: c :: post2)) (hcf : c.free = true) (hd : d.free = false) :
    NoAdj (pre ++ d :: post2) := by
  unfold NoAdj at h ⊢
  rw [List.chain'_append] at h ⊢
  obtain ⟨h1, h2, h3⟩ := h
  refine ⟨h1, ?_, ?_⟩
  · rw [List.chain'_cons']
    constructor
    · intro y hy
      rcases h2.tail.rel_head? hy with h4 | h4
      · rw [hcf] at h4; cases h4
      · exact Or.inr h4
    · exact h2.tail.tail
  · intro x hx y hy
    simp only [List.head?_cons, Option.mem_def, Option.some.injEq] at hy
    subst hy
    exact Or.inr hd

theorem setReq_inv {l : Link} {i a n : Nat} {b : Block} {pre post : List Block}
    (hinv : LinkInv l) (hbs : l.blocks = pre ++ b :: post) (hlen : pre.length = i)
    (ha : a = l.base + sumSz pre) (hbf : b.free = false)
    (hneed : ∀ u, b.uptr = some u → u + n ≤ a + b.size) :
    LinkInv (setReq l i b n) := by
  have htake : l.blocks.take i = pre := by rw [hbs]; exact List.take_left' hlen
  have hdrop : l.blocks.drop (i + 1) = post := by
    rw [hbs]
    have heq : pre ++ b :: post = (pre ++ [b]) ++ post := by simp
    rw [heq]
    exact List.drop_left' (by simp [hlen])
  have hres : setReq l i b n = { l with
      blocks := pre ++ ⟨b.size, b.free, b.uptr, n, b.cls⟩ :: post } := by
    unfold setReq
    rw [htake, hdrop]
  rw [hres]
  have hna : NoAdj (pre ++ b :: post) := hbs ▸ hinv.noadj
  have huf0 := hinv.ufit
  rw [hbs, userFit_append] at huf0
  have haold := (userFit_cons.mp huf0.2).1
  constructor
  case cover =>
    have hc := hinv.cover
    rw [hbs, sumSz_append, sumSz_cons] at hc
    dsimp only
    rw [sumSz_append, sumSz_cons]
    exact hc
  case noadj =>
    exact noAdj_mid_alloc hna (by dsimp only; exact hbf)
  case flist =>
    intro x
    dsimp only
    rw [hinv.flist x, hbs]
    rw [freeAddrs_append, freeAddrs_cons, if_neg (by rw [hbf]; simp)]
    rw [freeAddrs_append, freeAddrs_cons]
    dsimp only
    rw [if_neg (by rw [hbf]; simp)]
  case minsz =>
    intro c hc
    rcases List.mem_append.1 hc with h1 | h1
    · exact hinv.minsz c (by rw [hbs]; exact List.mem_append.2 (Or.inl h1))
    · rcases List.mem_cons.1 h1 with rfl | h2
      · dsimp only
        exact hinv.minsz b
          (by rw [hbs]; exact List.mem_append.2 (Or.inr (List.mem_cons_self _ _)))
      · exact hinv.minsz c
          (by rw [hbs]; exact List.mem_append.2 (Or.inr (List.mem_cons_of_mem _ h2)))
  case ufit =>
    rw [userFit_append, userFit_cons]
    refine ⟨huf0.1, ?_, ?_⟩
    · intro _ u hu
      dsimp only at hu ⊢
      have h1 := haold hbf u hu
      have h2 := hneed u hu
      rw [ha] at h2
      exact ⟨h1.1, h2⟩
    · dsimp only
      exact (userFit_cons.mp huf0.2).2
  case bpage => exact hinv.bpage
  case rpage => exact hinv.rpage
  case bpos => exact hinv.bpos
  case rpos => exact hinv.rpos

theorem growInPlace_inv {l : Link} {i a need n : Nat} {b : Block} {l2 : Link}
    {pre post : List Block}
    (hinv : LinkInv l) (hbs : l.blocks = pre ++ b :: post) (hlen : pre.length = i)
    (ha : a = l.base + sumSz pre) (hbf : b.free = false)
    (hup : ∀ u, b.uptr = some u → u + n ≤ a + need)
    (h : growInPlace l i a need n b = some l2) :
    LinkInv l2 ∧ l2.base = l.base ∧ l2.rsize = l.rsize := by
  have hmbs : minBlockSize = 32 := rfl
  have htake : l.blocks.take i = pre := by rw [hbs]; exact List.take_left' hlen
  have hdrop : l.blocks.drop (i + 1) = post := by
    rw [hbs]
    have heq : pre ++ b :: post = (pre ++ [b]) ++ post := by simp
    rw [heq]
    exact List.drop_left' (by simp [hlen])
  unfold growInPlace at h
  rw [hdrop, htake] at h
  cases post with
  | nil => cases h
  | cons c post2 =>
    dsimp only at h
    by_cases hcc : c.free = true ∧ need ≤ b.size + c.size
    · rw [if_pos hcc] at h
      simp only [Option.some.injEq] at h
      subst h
      have hna : NoAdj (pre ++ b :: c :: post2) := hbs ▸ hinv.noadj
      have hbm : minBlockSize ≤ b.size := hinv.minsz b
        (by rw [hbs]; exact List.mem_append.2 (Or.inr (List.mem_cons_self _ _)))
      have hcm : minBlockSize ≤ c.size := hinv.minsz c
        (by rw [hbs]
            exact List.mem_append.2 (Or.inr (List.mem_cons_of_mem _ (List.mem_cons_self _ _))))
      have hpre_min : MinSz pre := fun x hx =>
        hinv.minsz x (by rw [hbs]; exact List.mem_append.2 (Or.inl hx))
      have hcov0 : sumSz pre + (b.size + (c.size + sumSz post2)) = l.rsize := by
        have hc2 := hinv.cover
        rw [hbs, sumSz_append, sumSz_cons, sumSz_cons] at hc2
        exact hc2
      have huf0 := hinv.ufit
      rw [hbs, userFit_append] at huf0
      have haold := (userFit_cons.mp huf0.2).1
      have hpost2uf := (userFit_cons.mp (userFit_cons.mp huf0.2).2).2
      have hfa_old : freeAddrs l.base l.blocks
          = freeAddrs l.base pre ++ (a + b.size) :: freeAddrs (a + b.size + c.size) post2 := by
        rw [hbs, freeAddrs_append, ← ha, freeAddrs_cons, if_neg (by rw [hbf]; simp),
          freeAddrs_cons, if_pos hcc.1]
      have hprefree : ∀ x ∈ freeAddrs l.base pre, x < a := by
        intro x hx
        have := mem_freeAddrs_lt hpre_min hx
        omega
      have hpostfree : ∀ x ∈ freeAddrs (a + b.size + c.size) post2, a + b.size + c.size ≤ x :=
        fun x hx => mem_freeAddrs_ge hx
      refine ⟨⟨?_, ?_, ?_, ?_, ?_, hinv.bpage, hinv.rpage, hinv.bpos, hinv.rpos⟩, rfl, rfl⟩
      ·
        dsimp only
        simp only [sumSz_append, sumSz_cons]
        omega
      ·
        exact noAdj_mid_absorb hna hcc.1 rfl
      ·
        intro x
        dsimp only
        have hfilter : x ∈ l.freeList.filter (fun y => y ≠ a + b.size) ↔
            x ∈ l.freeList ∧ x ≠ a + b.size := by
          rw [List.mem_filter]
          simp
        rw [hfilter, hinv.flist x, hfa_old]
        rw [freeAddrs_append, ← ha, freeAddrs_cons]
        dsimp only
        rw [if_neg (by simp : ¬(false = true)), ← Nat.add_assoc]
        rw [List.mem_append, List.mem_append, List.mem_cons]
        constructor
        · rintro ⟨h1 | (h1 | h1), h2⟩
          · exact Or.inl h1
          · exact absurd h1 h2
          · exact Or.inr h1
        · rintro (h1 | h1)
          · refine ⟨Or.inl h1, ?_⟩
            have := hprefree x h1
            omega
          · refine ⟨Or.inr (Or.inr h1), ?_⟩
            have := hpostfree x h1
            omega
      ·
        intro x hx
        rcases List.mem_append.1 hx with h1 | h1
        · exact hpre_min x h1
        · rcases List.mem_cons.1 h1 with rfl | h2
          · dsimp only
            omega
          · exact hinv.minsz x
              (by rw [hbs]
                  exact List.mem_append.2
                    (Or.inr (List.mem_cons_of_mem _ (List.mem_cons_of_mem _ h2))))
      ·
        rw [userFit_append, userFit_cons]
        refine ⟨huf0.1, ?_, ?_⟩
        · intro _ u hu
          dsimp only at hu ⊢
          have h1 := haold hbf u hu
          have h2 := hup u hu
          rw [ha] at h2
          constructor
          · exact h1.1
          · have := hcc.2
            omega
        · dsimp only
          have h3 := hpost2uf
          rw [Nat.add_assoc (l.base + sumSz pre)] at h3
          exact h3
    · rw [if_neg hcc] at h
      cases h

theorem poolInv_updateAt {P : Pool} {lpre lpost : List Link} {l l2 : Link} {k : Nat}
    (hinv : PoolInv P) (hsplit : P.links = lpre ++ l :: lpost) (hlen : lpre.length = k)
    (hinv2 : LinkInv l2) (hb : l2.base = l.base) (hr : l2.rsize = l.rsize)
    (e : PoolError) (f : Link → Link) (hfl : f l = l2) :
    PoolInv { P with links := updateAt P.links k f, lastError := e } := by
  have hup2 := updateAt_eq hsplit hlen f
  rw [hfl] at hup2
  constructor
  · intro l0 hl0
    dsimp only at hl0
    rw [hup2] at hl0
    rcases List.mem_append.1 hl0 with h1 | h1
    · exact hinv.links l0 (by rw [hsplit]; exact List.mem_append.2 (Or.inl h1))
    · rcases List.mem_cons.1 h1 with rfl | h2
      · exact hinv2
      · exact hinv.links l0
          (by rw [hsplit]; exact List.mem_append.2 (Or.inr (List.mem_cons_of_mem _ h2)))
  · dsimp only
    rw [hup2]
    have hford : List.Forall₂ (fun x y => x.base = y.base ∧ x.rsize = y.rsize)
        (lpre ++ l :: lpost) (lpre ++ l2 :: lpost) := by
      refine List.rel_append (forall₂_baseSame_refl lpre) ?_
      exact List.Forall₂.cons ⟨hb.symm, hr.symm⟩ (forall₂_baseSame_refl lpost)
    exact pairwise_of_forall₂ hford (hsplit ▸ hinv.order)
  · exact hinv.apow

theorem realloc_inv {P : Pool} (p n : Nat) (hinv : PoolInv P) : PoolInv (P.realloc p n).1 := by
  unfold Pool.realloc
  by_cases hp0 : p = 0
  · rw [if_pos hp0]
    exact alloc_inv n hinv
  · rw [if_neg hp0]
    by_cases hn0 : n = 0
    · rw [if_pos hn0]
      exact free_inv p hinv
    · rw [if_neg hn0]
      cases hf : findInLinks p P.links with
      | none => exact poolInv_fail hinv _
      | some t =>
        obtain ⟨k, i, a, b⟩ := t
        dsimp only
        by_cases hbf : b.free = true
        · rw [if_pos hbf]
          exact poolInv_fail hinv _
        · rw [if_neg hbf]
          have hbf2 : b.free = false := by revert hbf; cases b.free <;> simp
          obtain ⟨lpre, l, lpost, hsplit, hlen, hfb⟩ := findInLinks_sound hf
          obtain ⟨pre, post, hbs, hblen, haddr, hupb⟩ := findBlk_sound hfb
          have hlmem : l ∈ P.links := by
            rw [hsplit]; exact List.mem_append.2 (Or.inr (List.mem_cons_self _ _))
          have hlinv := hinv.links l hlmem
          have huf0 := hlinv.ufit
          rw [hbs, userFit_append] at huf0
          have hage := (userFit_cons.mp huf0.2).1 hbf2 p hupb
          by_cases hfit : (p - a) + max n minBlockSize ≤ b.size
          · rw [if_pos hfit]
            have hneed : ∀ u, b.uptr = some u → u + n ≤ a + b.size := by
              intro u hu
              rw [hupb] at hu
              have hu2 : p = u := by
                simpa using hu
              subst hu2
              have h1 : l.base + sumSz pre ≤ p := hage.1
              have h2 : n ≤ max n minBlockSize := Nat.le_max_left _ _
              rw [haddr]
              omega
            exact poolInv_updateAt hinv hsplit hlen
              (setReq_inv hlinv hbs hblen haddr hbf2 hneed) rfl rfl _ _ rfl
          · rw [if_neg hfit]
            cases hlg : P.links.get? k with
            | none => exact poolInv_fail hinv _
            | some l0 =>
              have hl0 : l0 = l := by
                have hg2 : (lpre ++ l :: lpost).get? k = some l := by
                  rw [← hlen]
                  rw [List.get?_append_right (Nat.le_refl _)]
                  simp
                rw [hsplit] at hlg
                rw [hg2] at hlg
                exact (Option.some.injEq _ _ ▸ hlg).symm
              subst hl0
              dsimp only
              cases hg : growInPlace l0 i a ((p - a) + max n minBlockSize) n b with
              | some l2 =>
                dsimp only
                have hup : ∀ u, b.uptr = some u →
                    u + n ≤ a + ((p - a) + max n minBlockSize) := by
                  intro u hu
                  rw [hupb] at hu
                  have hu2 : p = u := by simpa using hu
                  subst hu2
                  have h1 : l0.base + sumSz pre ≤ p := hage.1
                  have h2 : n ≤ max n minBlockSize := Nat.le_max_left _ _
                  rw [haddr]
                  omega
                obtain ⟨hinv2, hb2, hr2⟩ :=
                  growInPlace_inv hlinv hbs hblen haddr hbf2 hup hg
                exact poolInv_updateAt hinv hsplit hlen hinv2 hb2 hr2 _ _ rfl
              | none =>
                cases halc : P.alloc n with
                | mk P2 r =>
                  cases r with
                  | some p2 =>
                    dsimp only
                    have h2 : PoolInv P2 := by
                      have h3 := alloc_inv n hinv
                      rw [halc] at h3
                      exact h3
                    have h3 : PoolInv { P2 with
                        mem := copyRange P2.mem p p2 (min b.req n) } :=
                      ⟨h2.links, h2.order, h2.apow⟩
                    exact free_inv p h3
                  | none =>
                    dsimp only
                    have h3 := alloc_inv n hinv
                    rw [halc] at h3
                    exact h3

/-! ### The whole system invariant -/

theorem linkValid_of_inv {l : Link} (hinv : LinkInv l) : linkValid l = true := by
  unfold linkValid
  rw [Bool.and_eq_true, Bool.and_eq_true, Bool.and_eq_true]
  refine ⟨⟨⟨?_, ?_⟩, ?_⟩, ?_⟩
  · exact decide_eq_true hinv.cover
  · exact decide_eq_true hinv.noadj
  · rw [List.all_eq_true]
    intro x hx
    exact decide_eq_true ((hinv.flist x).1 hx)
  · rw [List.all_eq_true]
    intro x hx
    exact decide_eq_true ((hinv.flist x).2 hx)

theorem validate_of_inv {P : Pool} (hinv : PoolInv P) : P.validate = true := by
  unfold Pool.validate
  rw [List.all_eq_true]
  intro l hl
  exact linkValid_of_inv (hinv.links l hl)

theorem step_inv {P : Pool} (op : Op) (hinv : PoolInv P) : PoolInv (P.step op) := by
  cases op with
  | alloc sz => exact alloc_inv sz hinv
  | allocAligned sz al => exact allocAligned_inv sz al hinv
  | calloc n s => exact calloc_inv n s hinv
  | realloc p n => exact realloc_inv p n hinv
  | free p => exact free_inv p hinv
  | allocFixed sz => exact allocFixed_inv sz hinv
  | freeFixed p => exact freeFixed_inv p hinv
  | addClass s cap => exact addClass_inv s cap hinv
  | defragment => exact defragment_inv hinv
  | reset => exact reset_inv hinv

theorem run_inv {P : Pool} (ops : List Op) (hinv : PoolInv P) : PoolInv (P.run ops) := by
  induction ops generalizing P with
  | nil => exact hinv
  | cons o os ih => exact ih (step_inv o hinv)

theorem create_inv (size : Nat) : PoolInv (Pool.create size) := by
  constructor
  · intro l hl
    have hl2 : l = mkLink pageSize (alignUp (max size 1) pageSize) := by
      simpa [Pool.create] using hl
    subst hl2
    refine mkLink_inv (dvd_refl _) (dvd_alignUp _ pageSize_pos) pageSize_pos ?_
    have h1 : 1 ≤ max size 1 := Nat.le_max_right _ _
    have h2 := alignUp_ge (max size 1) pageSize
    omega
  · simp [Pool.create]
  · show isPow2 defaultAlignment = true
    decide

/-- C1: for every pool and every sequence of public operations, after each
operation the address list of H covers the backing region R exactly once,
no two adjacent blocks in the address list are both free, and the free
list contains exactly the blocks whose state is free; consequently
validate returns true on every such pool. -/
theorem heap_invariants_hold (size : Nat) (ops : List Op) :
    (∀ l ∈ ((Pool.create size).run ops).links,
      sumSz l.blocks = l.rsize ∧ NoAdj l.blocks ∧
        (∀ x, x ∈ l.freeList ↔ x ∈ freeAddrs l.base l.blocks)) ∧
    ((Pool.create size).run ops).validate = true := by
  have hinv := run_inv ops (create_inv size)
  refine ⟨?_, validate_of_inv hinv⟩
  intro l hl
  have h := hinv.links l hl
  exact ⟨h.cover, h.noadj, h.flist⟩

/-! ### Error paths of the allocator -/

theorem findBlk_none_of {p : Nat} : ∀ {bs : List Block} (beta : Nat),
    (∀ b ∈ bs, b.uptr ≠ some p) → findBlk p beta bs = none := by
  intro bs
  induction bs with
  | nil => intro beta _; rfl
  | cons b rest ih =>
    intro beta h
    rw [findBlk]
    rw [if_neg (h b (List.mem_cons_self _ _))]
    rw [ih _ (fun c hc => h c (List.mem_cons_of_mem _ hc))]
    rfl

theorem findInLinks_none_of {p : Nat} : ∀ {ls : List Link},
    (∀ l ∈ ls, ∀ b ∈ l.blocks, b.uptr ≠ some p) → findInLinks p ls = none := by
  intro ls
  induction ls with
  | nil => intro _; rfl
  | cons l rest ih =>
    intro h
    rw [findInLinks]
    rw [findBlk_none_of _ (h l (List.mem_cons_self _ _))]
    rw [ih (fun l2 hl2 => h l2 (List.mem_cons_of_mem _ hl2))]
    rfl

/-- C5: a zero byte allocation and an aligned allocation whose alignment
is not a power of two both return no pointer, report INVALID_SIZE, and
leave the chain, the class table and the memory untouched, so the pool
stays usable. -/
theorem invalid_size_requests (P : Pool) (sz al : Nat) (hal : isPow2 al = false) :
    (P.alloc 0).2 = none ∧ (P.alloc 0).1.lastError = PoolError.invalidSize ∧
    (P.alloc 0).1.links = P.links ∧ (P.alloc 0).1.classes = P.classes ∧
    (P.alloc 0).1.mem = P.mem ∧
    (P.allocAligned sz al).2 = none ∧
    (P.allocAligned sz al).1.lastError = PoolError.invalidSize ∧
    (P.allocAligned sz al).1.links = P.links ∧
    (P.allocAligned sz al).1.classes = P.classes ∧
    (P.allocAligned sz al).1.mem = P.mem := by
  have h1 : P.alloc 0 = (P.fail .invalidSize, none) := by
    unfold Pool.alloc Pool.allocAligned
    rw [if_pos rfl]
  have h2 : P.allocAligned sz al = (P.fail .invalidSize, none) := by
    unfold Pool.allocAligned
    by_cases h0 : sz = 0
    · rw [if_pos h0]
    · rw [if_neg h0, if_pos hal]
  rw [h1, h2]
  exact ⟨rfl, rfl, rfl, rfl, rfl, rfl, rfl, rfl, rfl, rfl⟩

theorem invalid_size_requests_witness :
    ((Pool.create 4096).alloc 0).2 = none ∧
    ((Pool.create 4096).alloc 0).1.lastError = PoolError.invalidSize ∧
    ((Pool.create 4096).alloc 0).1.links = (Pool.create 4096).links ∧
    ((Pool.create 4096).alloc 0).1.classes = (Pool.create 4096).classes ∧
    ((Pool.create 4096).alloc 0).1.mem = (Pool.create 4096).mem ∧
    ((Pool.create 4096).allocAligned 64 24).2 = none ∧
    ((Pool.create 4096).allocAligned 64 24).1.lastError = PoolError.invalidSize ∧
    ((Pool.create 4096).allocAligned 64 24).1.links = (Pool.create 4096).links ∧
    ((Pool.create 4096).allocAligned 64 24).1.classes = (Pool.create 4096).classes ∧
    ((Pool.create 4096).allocAligned 64 24).1.mem = (Pool.create 4096).mem :=
  invalid_size_requests (Pool.create 4096) 64 24 (by decide)

/-- C6: freeing a pointer that no block of any link owns leaves the chain
unchanged and reports INVALID_POINTER; freeing a pointer whose block is
already free leaves the chain unchanged and reports DOUBLE_FREE. -/
theorem free_rejects_foreign_and_double (P : Pool) (p : Nat) :
    ((∀ l ∈ P.links, ∀ b ∈ l.blocks, b.uptr ≠ some p) →
      (P.free p).links = P.links ∧
      (P.free p).lastError = PoolError.invalidPointer) ∧
    (∀ k i a b, findInLinks p P.links = some (k, i, a, b) → b.free = true →
      (P.free p).links = P.links ∧ (P.free p).lastError = PoolError.doubleFree) := by
  constructor
  · intro h
    unfold Pool.free
    rw [findInLinks_none_of h]
    exact ⟨rfl, rfl⟩
  · intro k i a b hf hbf
    unfold Pool.free
    rw [hf]
    dsimp only
    rw [if_pos hbf]
    exact ⟨rfl, rfl⟩

theorem free_rejects_foreign_and_double_witness :
    (((Pool.create 4096).free 74565).links = (Pool.create 4096).links ∧
     ((Pool.create 4096).free 74565).lastError = PoolError.invalidPointer) ∧
    (((((Pool.create 4096).alloc 64).1.free 4096).free 4096).links =
      (((Pool.create 4096).alloc 64).1.free 4096).links ∧
     ((((Pool.create 4096).alloc 64).1.free 4096).free 4096).lastError =
      PoolError.doubleFree) := by
  refine ⟨(free_rejects_foreign_and_double (Pool.create 4096) 74565).1 (by decide), ?_⟩
  exact (free_rejects_foreign_and_double (((Pool.create 4096).alloc 64).1.free 4096) 4096).2
    0 0 4096 ⟨4096, true, some 4096, 64, none⟩ rfl rfl

/-! ### Memory contents across operations -/

theorem allocAligned_mem (P : Pool) (sz al : Nat) : (P.allocAligned sz al).1.mem = P.mem := by
  unfold Pool.allocAligned
  by_cases h0 : sz = 0
  · rw [if_pos h0]; rfl
  · rw [if_neg h0]
    by_cases hp : isPow2 al = false
    · rw [if_pos hp]; rfl
    · rw [if_neg hp]
      dsimp only
      cases hw : allocWalk (max al P.align) sz P.links with
      | some t =>
        obtain ⟨ls, u⟩ := t
        rfl
      | none =>
        dsimp only
        cases hta : tryAllocLink none (max al P.align) sz
            (mkLink (endAddr P.links) (alignUp (max sz P.origSize) pageSize)) with
        | some t2 =>
          obtain ⟨nl2, u⟩ := t2
          rfl
        | none => rfl

theorem alloc_mem (P : Pool) (sz : Nat) : (P.alloc sz).1.mem = P.mem :=
  allocAligned_mem P sz P.align

theorem free_mem (P : Pool) (p : Nat) : (P.free p).mem = P.mem := by
  unfold Pool.free
  cases hf : findInLinks p P.links with
  | none => rfl
  | some t =>
    obtain ⟨k, i, a, b⟩ := t
    dsimp only
    by_cases hbf : b.free = true
    · rw [if_pos hbf]; rfl
    · rw [if_neg hbf]

theorem copyRange_read (m : Nat → Nat) (s0 d0 : Nat) :
    ∀ cnt j, j < cnt → copyRange m s0 d0 cnt (d0 + j) = m (s0 + j) := by
  intro cnt
  induction cnt with
  | zero => intro j hj; omega
  | succ n ih =>
    intro j hj
    rw [copyRange]
    dsimp only
    by_cases hjn : j = n
    · subst hjn
      rw [if_pos rfl]
    · rw [if_neg (by omega : ¬ d0 + j = d0 + n)]
      exact ih j (by omega)

/-- C3: a successful reallocation of pointer `p` to `n` bytes preserves
the first min(old requested size, n) bytes of the contents at the
returned pointer. -/
theorem realloc_preserves_contents {P : Pool} {p n k i a p2 : Nat} {b : Block}
    (hfind : findInLinks p P.links = some (k, i, a, b))
    (hp0 : p ≠ 0) (hn0 : n ≠ 0)
    (h : (P.realloc p n).2 = some p2) :
    ∀ j, j < min b.req n → (P.realloc p n).1.mem (p2 + j) = P.mem (p + j) := by
  intro j hj
  unfold Pool.realloc at h ⊢
  rw [if_neg hp0, if_neg hn0, hfind] at h ⊢
  dsimp only at h ⊢
  by_cases hbf : b.free = true
  · rw [if_pos hbf] at h
    exact absurd h (by simp)
  · rw [if_neg hbf] at h ⊢
    by_cases hneed : (p - a) + max n minBlockSize ≤ b.size
    · rw [if_pos hneed] at h ⊢
      dsimp only at h ⊢
      have h2 : p = p2 := Option.some.inj h
      subst h2
      rfl
    · rw [if_neg hneed] at h ⊢
      cases hg : P.links.get? k with
      | none =>
        rw [hg] at h
        exact absurd h (by simp)
      | some l =>
        rw [hg] at h
        dsimp only at h ⊢
        cases hgi : growInPlace l i a ((p - a) + max n minBlockSize) n b with
        | some l2 =>
          rw [hgi] at h
          dsimp only at h ⊢
          have h2 : p = p2 := Option.some.inj h
          subst h2
          rfl
        | none =>
          rw [hgi] at h
          cases halc : P.alloc n with
          | mk P2 r =>
            rw [halc] at h
            cases r with
            | none =>
              exact absurd h (by simp)
            | some q =>
              dsimp only at h ⊢
              have h2 : q = p2 := Option.some.inj h
              subst h2
              have hP2 : P2.mem = P.mem := by
                have hm := alloc_mem P n
                rw [halc] at hm
                exact hm
              rw [free_mem]
              dsimp only
              rw [copyRange_read _ _ _ _ j hj, hP2]

theorem realloc_preserves_contents_witness :
    (((Pool.create 4096).alloc 512).1.realloc 4096 1536).1.mem 4096 =
      ((Pool.create 4096).alloc 512).1.mem 4096 := by
  have h := @realloc_preserves_contents ((Pool.create 4096).alloc 512).1 4096 1536 0 0
      4096 4096 ⟨512, false, some 4096, 512, none⟩
      rfl (by decide) (by decide) rfl 0 (by decide)
  simpa using h

/-! ### Best fit selection and splitting -/

/-- C7: a variable size allocation from a link serves the request from the
free block with the smallest payload at least the required one, ties broken
by lowest address; the block is split exactly when its payload exceeds the
requirement by at least the minimum block size, and then the remainder
follows the allocation as a new free block whose address joins the free
list. -/
theorem best_fit_and_split {al sz : Nat} {l l2 : Link} {u : Nat}
    (h : tryAllocLink none al sz l = some (l2, u)) :
    ∃ i a bsz pre b post,
      pickBest al sz l.base l.blocks = some (i, a, bsz) ∧
      u = alignUp a al ∧
      l.blocks = pre ++ b :: post ∧ pre.length = i ∧ a = l.base + sumSz pre ∧
      b.free = true ∧ b.size = bsz ∧ requiredAt a al sz ≤ bsz ∧
      (∀ qre c qost, l.blocks = qre ++ c :: qost → c.free = true →
        requiredAt (l.base + sumSz qre) al sz ≤ c.size →
        bsz < c.size ∨ (bsz = c.size ∧ a ≤ l.base + sumSz qre)) ∧
      (requiredAt a al sz + minBlockSize ≤ bsz →
        l2.blocks = pre ++ ⟨requiredAt a al sz, false, some u, sz, none⟩ ::
          ⟨bsz - requiredAt a al sz, true, none, 0, none⟩ :: post ∧
        a + requiredAt a al sz ∈ l2.freeList) ∧
      (bsz < requiredAt a al sz + minBlockSize →
        l2.blocks = pre ++ ⟨bsz, false, some u, sz, none⟩ :: post) := by
  cases hp : pickBest al sz l.base l.blocks with
  | none =>
    rw [tryAllocLink, hp] at h
    exact Option.noConfusion h
  | some t =>
    obtain ⟨i, a, bsz⟩ := t
    simp only [tryAllocLink, hp, Option.some.injEq, Prod.mk.injEq] at h
    obtain ⟨hl2, hu⟩ := h
    rw [if_pos trivial] at hl2
    obtain ⟨pre, b, post, hbs, hlen, ha, hbf, hbsz, hreq⟩ := pickBest_sound hp
    have htake : l.blocks.take i = pre := by
      rw [hbs]; exact List.take_left' hlen
    have hdrop : l.blocks.drop (i + 1) = post := by
      rw [hbs]
      have heq : pre ++ b :: post = (pre ++ [b]) ++ post := by simp
      rw [heq]
      exact List.drop_left' (by simp [hlen])
    refine ⟨i, a, bsz, pre, b, post, rfl, hu.symm, hbs, hlen, ha, hbf, hbsz, hreq, ?_, ?_, ?_⟩
    · intro qre c qost hsplit hcf hcreq
      exact pickBest_best hp qre c qost hsplit hcf hcreq
    · intro hbig
      constructor
      · rw [← hl2]
        dsimp only
        unfold allocBlocks
        rw [if_pos hbig, htake, hdrop, hu]
      · rw [← hl2]
        dsimp only
        rw [if_pos hbig]
        exact List.mem_cons_self _ _
    · intro hsmall
      rw [← hl2]
      dsimp only
      unfold allocBlocks
      rw [if_neg (by omega : ¬ requiredAt a al sz + minBlockSize ≤ bsz), htake, hdrop, hu]

theorem best_fit_and_split_witness :
    ∃ i a bsz,
      pickBest 8 33 (4096 : Nat)
        [⟨128, true, none, 0, none⟩, ⟨64, false, some 4224, 64, none⟩,
         ⟨96, true, none, 0, none⟩, ⟨3808, false, none, 0, none⟩] = some (i, a, bsz) ∧
      a = 4288 ∧ bsz = 96 := by
  obtain ⟨i, a, bsz, -, -, -, hp, -, -, -, -, -, -, -, -, -, -⟩ :=
    @best_fit_and_split 8 33
      ⟨4096, 4096,
        [⟨128, true, none, 0, none⟩, ⟨64, false, some 4224, 64, none⟩,
         ⟨96, true, none, 0, none⟩, ⟨3808, false, none, 0, none⟩], [4096, 4288]⟩
      ⟨4096, 4096,
        [⟨128, true, none, 0, none⟩, ⟨64, false, some 4224, 64, none⟩,
         ⟨33, false, some 4288, 33, none⟩, ⟨63, true, none, 0, none⟩,
         ⟨3808, false, none, 0, none⟩], [4321, 4096]⟩
      4288 rfl
  have hps : pickBest 8 33 (4096 : Nat)
      [⟨128, true, none, 0, none⟩, ⟨64, false, some 4224, 64, none⟩,
       ⟨96, true, none, 0, none⟩, ⟨3808, false, none, 0, none⟩] =
      some (2, 4288, 96) := rfl
  have h2 : some ((2 : Nat), (4288 : Nat), (96 : Nat)) = some (i, a, bsz) := by
    rw [← hps]; exact hp
  have h3 := Option.some.inj h2
  have ha2 : a = 4288 := by
    have h4 := congrArg (fun x : Nat × Nat × Nat => x.2.1) h3
    simpa using h4.symm
  have hb2 : bsz = 96 := by
    have h4 := congrArg (fun x : Nat × Nat × Nat => x.2.2) h3
    simpa using h4.symm
  exact ⟨i, a, bsz, hp, ha2, hb2⟩

/-! ### Pointer soundness of successful allocations -/

theorem allocWalk_split {al sz : Nat} : ∀ {ls ls2 : List Link} {u : Nat},
    allocWalk al sz ls = some (ls2, u) →
    ∃ lpre l l2 lpost, ls = lpre ++ l :: lpost ∧ ls2 = lpre ++ l2 :: lpost ∧
      tryAllocLink none al sz l = some (l2, u) := by
  intro ls
  induction ls with
  | nil => intro ls2 u h; exact Option.noConfusion h
  | cons l rest ih =>
    intro ls2 u h
    rw [allocWalk] at h
    cases ht : tryAllocLink none al sz l with
    | some t =>
      obtain ⟨l2, u2⟩ := t
      rw [ht] at h
      simp only [Option.some.injEq, Prod.mk.injEq] at h
      obtain ⟨hls, hu⟩ := h
      subst hu
      exact ⟨[], l, l2, rest, rfl, hls.symm, ht⟩
    | none =>
      rw [ht] at h
      cases hw : allocWalk al sz rest with
      | none => rw [hw] at h; exact Option.noConfusion h
      | some t2 =>
        obtain ⟨rest2, u2⟩ := t2
        rw [hw] at h
        simp only [Option.some.injEq, Prod.mk.injEq] at h
        obtain ⟨hls, hu⟩ := h
        subst hu
        obtain ⟨lpre, l0, l02, lpost, h1, h2, h3⟩ := ih hw
        exact ⟨l :: lpre, l0, l02, lpost, by rw [h1, List.cons_append],
          by rw [← hls, h2, List.cons_append], h3⟩

theorem mem_liveFold : ∀ {ls : List Link} {pr : Nat × Nat},
    pr ∈ ls.foldr (fun l acc => liveList l.blocks ++ acc) [] ↔
      ∃ l ∈ ls, pr ∈ liveList l.blocks := by
  intro ls
  induction ls with
  | nil => intro pr; simp
  | cons l rest ih =>
    intro pr
    simp only [List.foldr_cons, List.mem_append, ih, List.mem_cons]
    constructor
    · rintro (h | ⟨l0, hl0, hpr⟩)
      · exact ⟨l, Or.inl rfl, h⟩
      · exact ⟨l0, Or.inr hl0, hpr⟩
    · rintro ⟨l0, hl0 | hl0, hpr⟩
      · subst hl0; exact Or.inl hpr
      · exact Or.inr ⟨l0, hl0, hpr⟩

/-- C2: a successful aligned allocation returns a pointer that is a
multiple of the alignment, lies inside the grown pool, and whose requested
range is disjoint from every allocation live before the call. -/
theorem alloc_pointer_sound {P : Pool} {sz al u : Nat}
    (hinv : PoolInv P) (h : (P.allocAligned sz al).2 = some u) :
    u % al = 0 ∧ (P.allocAligned sz al).1.contains u = true ∧
    (∀ pr ∈ poolLive P, u + sz ≤ pr.1 ∨ pr.1 + pr.2 ≤ u) := by
  unfold Pool.allocAligned at h ⊢
  by_cases h0 : sz = 0
  · rw [if_pos h0] at h
    exact absurd h (by simp)
  · rw [if_neg h0] at h ⊢
    by_cases hp : isPow2 al = false
    · rw [if_pos hp] at h
      exact absurd h (by simp)
    · rw [if_neg hp] at h ⊢
      have hal2 : isPow2 al = true := by
        revert hp; cases isPow2 al <;> simp
      have hal0 : 0 < al := isPow2_pos hal2
      have hea : 0 < max al P.align := by omega
      have haldvd : al ∣ max al P.align := pow2_dvd_max_left hal2 hinv.apow
      have hmbs : minBlockSize = 32 := rfl
      dsimp only at h ⊢
      cases hw : allocWalk (max al P.align) sz P.links with
      | some t =>
        obtain ⟨ls, u2⟩ := t
        rw [hw] at h
        dsimp only at h ⊢
        have hu2 : u2 = u := Option.some.inj h
        subst hu2
        obtain ⟨lpre, l, l2, lpost, hsp, hsp2, hta⟩ := allocWalk_split hw
        have hlmem : l ∈ P.links := by
          rw [hsp]; exact List.mem_append.2 (Or.inr (List.mem_cons_self _ _))
        obtain ⟨hinv2, hbeq, hreq, hdvd, hble, hult, hdisj⟩ :=
          tryAllocLink_spec (hinv.links l hlmem) hea hta
        refine ⟨?_, ?_, ?_⟩
        · obtain ⟨c, hc⟩ := dvd_trans haldvd hdvd
          rw [hc]
          exact Nat.mul_mod_right al c
        · refine List.any_eq_true.2 ⟨l2, ?_, ?_⟩
          · rw [hsp2]; exact List.mem_append.2 (Or.inr (List.mem_cons_self _ _))
          · refine decide_eq_true ⟨?_, ?_⟩
            · rw [hbeq]; exact hble
            · rw [hbeq, hreq]; omega
        · intro pr hpr
          obtain ⟨l0, hl0, hprl⟩ := mem_liveFold.1 hpr
          rw [hsp] at hl0
          have hord := hsp ▸ hinv.order
          have hordsp := List.pairwise_append.1 hord
          have hbound : ∀ l3, l3 ∈ P.links → ∀ pr2 ∈ liveList l3.blocks,
              l3.base ≤ pr2.1 ∧ pr2.1 + pr2.2 ≤ l3.base + l3.rsize := by
            intro l3 hl3 pr2 hpr2
            have hi3 := hinv.links l3 hl3
            have hb := liveList_bounds hi3.ufit pr2 hpr2
            rw [hi3.cover] at hb
            exact hb
          rcases List.mem_append.1 hl0 with hmem | hmem
          · have hend : l0.base + l0.rsize ≤ l.base :=
              hordsp.2.2 l0 hmem l (List.mem_cons_self _ _)
            have hb := hbound l0 (by rw [hsp]; exact List.mem_append.2 (Or.inl hmem)) pr hprl
            right
            omega
          · rcases List.mem_cons.1 hmem with rfl | hmem2
            · rcases hdisj pr hprl with h1 | h1
              · left; omega
              · right; exact h1
            · have hend : l.base + l.rsize ≤ l0.base :=
                (List.pairwise_cons.1 hordsp.2.1).1 l0 hmem2
              have hb := hbound l0
                (by rw [hsp]; exact List.mem_append.2 (Or.inr (List.mem_cons_of_mem _ hmem2)))
                pr hprl
              left
              omega
      | none =>
        rw [hw] at h
        dsimp only at h ⊢
        cases hta : tryAllocLink none (max al P.align) sz
            (mkLink (endAddr P.links) (alignUp (max sz P.origSize) pageSize)) with
        | none =>
          rw [hta] at h
          exact absurd h (by simp)
        | some t2 =>
          obtain ⟨nl2, u2⟩ := t2
          rw [hta] at h
          dsimp only at h ⊢
          have hu2 : u2 = u := Option.some.inj h
          subst hu2
          have hpage : ∀ l ∈ P.links, pageSize ∣ l.base ∧ pageSize ∣ l.rsize :=
            fun l hl => ⟨(hinv.links l hl).bpage, (hinv.links l hl).rpage⟩
          have hmkinv : LinkInv (mkLink (endAddr P.links)
              (alignUp (max sz P.origSize) pageSize)) := by
            refine mkLink_inv (dvd_endAddr hpage) (dvd_alignUp _ pageSize_pos) ?_ ?_
            · exact Nat.lt_of_lt_of_le pageSize_pos (pageSize_le_endAddr _)
            · have h1 : 1 ≤ max sz P.origSize := by omega
              have h2 := alignUp_ge (max sz P.origSize) pageSize
              omega
          obtain ⟨hinv2, hbeq, hreq, hdvd, hble, hult, _⟩ :=
            tryAllocLink_spec hmkinv hea hta
          refine ⟨?_, ?_, ?_⟩
          · obtain ⟨c, hc⟩ := dvd_trans haldvd hdvd
            rw [hc]
            exact Nat.mul_mod_right al c
          · refine List.any_eq_true.2 ⟨nl2, ?_, ?_⟩
            · exact List.mem_append.2 (Or.inr (List.mem_cons_self _ _))
            · refine decide_eq_true ⟨?_, ?_⟩
              · rw [hbeq]; exact hble
              · rw [hbeq, hreq]; omega
          · intro pr hpr
            obtain ⟨l0, hl0, hprl⟩ := mem_liveFold.1 hpr
            have hi0 := hinv.links l0 hl0
            have hb := liveList_bounds hi0.ufit pr hprl
            rw [hi0.cover] at hb
            have hend : l0.base + l0.rsize ≤ endAddr P.links := le_endAddr hl0
            have hble2 : endAddr P.links ≤ u2 := hble
            right
            omega

theorem alloc_pointer_sound_witness :
    (4096 : Nat) % 128 = 0 ∧
    ((Pool.create 100).allocAligned 200 128).1.contains 4096 = true ∧
    (∀ pr ∈ poolLive (Pool.create 100), 4096 + 200 ≤ pr.1 ∨ pr.1 + pr.2 ≤ 4096) :=
  alloc_pointer_sound (create_inv 100) rfl

/-! ### Chain growth -/

theorem tryAllocLink_mkLink {al sz B R : Nat} (hd : al ∣ B)
    (hR : max sz minBlockSize ≤ R) :
    ∃ l2, tryAllocLink none al sz (mkLink B R) = some (l2, B) := by
  have hreq2 : requiredAt B al sz = max sz minBlockSize := by
    unfold requiredAt
    rw [alignUp_eq_of_dvd hd]
    omega
  have hpick : pickBest al sz B [(⟨R, true, none, 0, none⟩ : Block)] = some (0, B, R) := by
    rw [pickBest, pickBest]
    dsimp only
    simp only [Option.map_none']
    rw [if_pos ⟨trivial, by rw [hreq2]; exact hR⟩]
  cases hta : tryAllocLink none al sz (mkLink B R) with
  | none =>
    rw [tryAllocLink] at hta
    simp only [mkLink] at hta
    rw [hpick] at hta
    dsimp only at hta
    exact Option.noConfusion hta
  | some t =>
    obtain ⟨l2, u⟩ := t
    rw [tryAllocLink] at hta
    simp only [mkLink] at hta
    rw [hpick] at hta
    dsimp only at hta
    simp only [Option.some.injEq, Prod.mk.injEq] at hta
    have hu : u = B := by
      rw [← hta.2, alignUp_eq_of_dvd hd]
    refine ⟨l2, ?_⟩
    rw [hu]

/-- C4: an allocation that no existing link can serve still succeeds: a
new link sized to the page aligned maximum of the request and the original
pool size is appended to the chain, and the returned pointer is owned by
the grown pool. -/
theorem chain_growth {P : Pool} {sz al : Nat}
    (hinv : PoolInv P) (hsz : sz ≠ 0) (hal : isPow2 al = true)
    (hdv : max al P.align ∣ pageSize)
    (hwalk : allocWalk (max al P.align) sz P.links = none) :
    ∃ u, (P.allocAligned sz al).2 = some u ∧
      (P.allocAligned sz al).1.links.length = P.links.length + 1 ∧
      (P.allocAligned sz al).1.contains u = true := by
  unfold Pool.allocAligned
  rw [if_neg hsz]
  rw [if_neg (by simp [hal] : ¬ isPow2 al = false)]
  dsimp only
  rw [hwalk]
  have hpage : ∀ l ∈ P.links, pageSize ∣ l.base ∧ pageSize ∣ l.rsize :=
    fun l hl => ⟨(hinv.links l hl).bpage, (hinv.links l hl).rpage⟩
  have hdB : max al P.align ∣ endAddr P.links := dvd_trans hdv (dvd_endAddr hpage)
  have hmbs : minBlockSize = 32 := rfl
  have hps : pageSize = 4096 := rfl
  have hR : max sz minBlockSize ≤ alignUp (max sz P.origSize) pageSize := by
    have h1 := alignUp_ge (max sz P.origSize) pageSize
    have h2 : pageSize ∣ alignUp (max sz P.origSize) pageSize := dvd_alignUp _ pageSize_pos
    have h3 : 0 < alignUp (max sz P.origSize) pageSize := by
      have h5 : 1 ≤ max sz P.origSize := by omega
      omega
    have h4 : pageSize ≤ alignUp (max sz P.origSize) pageSize := Nat.le_of_dvd h3 h2
    omega
  obtain ⟨nl2, hta⟩ := tryAllocLink_mkLink hdB hR
  rw [hta]
  dsimp only
  refine ⟨endAddr P.links, rfl, ?_, ?_⟩
  · rw [List.length_append]
    rfl
  · have hea : 0 < max al P.align := by
      have := isPow2_pos hal
      omega
    have hmkinv : LinkInv (mkLink (endAddr P.links)
        (alignUp (max sz P.origSize) pageSize)) := by
      refine mkLink_inv (dvd_endAddr hpage) (dvd_alignUp _ pageSize_pos) ?_ ?_
      · exact Nat.lt_of_lt_of_le pageSize_pos (pageSize_le_endAddr _)
      · have h1 : 1 ≤ max sz P.origSize := by omega
        have h2 := alignUp_ge (max sz P.origSize) pageSize
        omega
    obtain ⟨hinv2, hbeq, hreq, hdvd, hble, hult, _⟩ := tryAllocLink_spec hmkinv hea hta
    refine List.any_eq_true.2 ⟨nl2, ?_, ?_⟩
    · exact List.mem_append.2 (Or.inr (List.mem_cons_self _ _))
    · refine decide_eq_true ⟨?_, ?_⟩
      · rw [hbeq]; exact hble
      · rw [hbeq, hreq]
        omega

theorem chain_growth_witness :
    ∃ u, ((Pool.create (64 * 1024)).allocAligned (96 * 1024) 64).2 = some u ∧
      ((Pool.create (64 * 1024)).allocAligned (96 * 1024) 64).1.links.length =
        (Pool.create (64 * 1024)).links.length + 1 ∧
      ((Pool.create (64 * 1024)).allocAligned (96 * 1024) 64).1.contains u = true :=
  chain_growth (create_inv (64 * 1024)) (by decide) (by decide) (by decide) rfl

/-! ### Defragmentation -/

set_option maxRecDepth 10000 in
/-- C9: defragment merges every run of adjacent free blocks in every link,
preserving each link's base, region size and coverage, and it is
idempotent; the fragmentation scenario of the spec (a 2 MiB pool, two
hundred 256 byte allocations, every even indexed one freed, one
defragment pass, then a 12800 byte allocation) succeeds. -/
theorem defragment_correct (P : Pool) :
    P.defragment.defragment = P.defragment ∧
    (∀ l ∈ P.defragment.links, NoAdj l.blocks) ∧
    List.Forall₂ (fun x y => y.base = x.base ∧ y.rsize = x.rsize ∧
      sumSz y.blocks = sumSz x.blocks) P.links P.defragment.links ∧
    defragScenario = true := by
  refine ⟨?_, ?_, ?_, by decide⟩
  · unfold Pool.defragment
    cases P with
    | mk al os ls cs m le =>
      dsimp only
      have hfun : linkDefrag ∘ linkDefrag = linkDefrag := funext linkDefrag_idem
      rw [List.map_map, hfun]
  · intro l hl
    unfold Pool.defragment at hl
    dsimp only at hl
    obtain ⟨l0, hl0, rfl⟩ := List.mem_map.1 hl
    exact mergeAdj_noAdj l0.blocks
  · unfold Pool.defragment
    dsimp only
    generalize P.links = ls
    induction ls with
    | nil => exact List.Forall₂.nil
    | cons l rest ih =>
      refine List.Forall₂.cons ⟨rfl, rfl, ?_⟩ ih
      exact mergeAdj_sumSz l.blocks

/-! ### Fixed size classes -/

theorem writeSlotWords_read (m : Nat → Nat) (sb st cid : Nat) (hst : 0 < st) :
    ∀ cap j, j < cap → writeSlotWords m sb st cid cap (sb + j * st) = slotWord cid := by
  intro cap
  induction cap with
  | zero => intro j hj; omega
  | succ k ih =>
    intro j hj
    rw [writeSlotWords]
    dsimp only
    by_cases hjk : j = k
    · subst hjk
      rw [if_pos rfl]
    · have hne : ¬ sb + j * st = sb + k * st := by
        intro hc
        have h2 : j * st = k * st := by omega
        exact hjk (Nat.eq_of_mul_eq_mul_right hst h2)
      rw [if_neg hne]
      exact ih j (by omega)

theorem pickClass_none : ∀ {cs : List SizeClass} {sz : Nat}, pickClass sz cs = none →
    ∀ j cj, cs.get? j = some cj → sz ≤ cj.slotSize → False := by
  intro cs
  induction cs with
  | nil =>
    intro sz _ j cj hg _
    cases j <;> exact Option.noConfusion hg
  | cons c rest ih =>
    intro sz h j cj hg hle
    rw [pickClass] at h
    cases hr : pickClass sz rest with
    | none =>
      rw [hr] at h
      simp only [Option.map_none'] at h
      by_cases hc : sz ≤ c.slotSize
      · rw [if_pos hc] at h
        exact Option.noConfusion h
      · cases j with
        | zero =>
          have hcj : c = cj := Option.some.inj hg
          exact hc (by rw [hcj]; exact hle)
        | succ j2 => exact ih hr j2 cj hg hle
    | some t =>
      obtain ⟨j0, s0⟩ := t
      rw [hr] at h
      simp only [Option.map_some'] at h
      by_cases hc : sz ≤ c.slotSize
      · rw [if_pos hc] at h
        split at h <;> exact Option.noConfusion h
      · rw [if_neg hc] at h
        exact Option.noConfusion h

theorem pickClass_sound : ∀ {cs : List SizeClass} {sz k s2 : Nat},
    pickClass sz cs = some (k, s2) →
    ∃ c, cs.get? k = some c ∧ c.slotSize = s2 ∧ sz ≤ s2 ∧
      ∀ j cj, cs.get? j = some cj → sz ≤ cj.slotSize →
        s2 < cj.slotSize ∨ (s2 = cj.slotSize ∧ k ≤ j) := by
  intro cs
  induction cs with
  | nil => intro sz k s2 h; exact Option.noConfusion h
  | cons c rest ih =>
    intro sz k s2 h
    rw [pickClass] at h
    cases hr : pickClass sz rest with
    | none =>
      rw [hr] at h
      simp only [Option.map_none'] at h
      by_cases hc : sz ≤ c.slotSize
      · rw [if_pos hc] at h
        simp only [Option.some.injEq, Prod.mk.injEq] at h
        obtain ⟨hk, hs⟩ := h
        subst hs
        refine ⟨c, by rw [← hk]; rfl, rfl, hc, ?_⟩
        intro j cj hg hle
        cases j with
        | zero =>
          have hcj : c = cj := Option.some.inj hg
          right
          exact ⟨by rw [hcj], by omega⟩
        | succ j2 => exact (pickClass_none hr j2 cj hg hle).elim
      · rw [if_neg hc] at h
        exact Option.noConfusion h
    | some t =>
      obtain ⟨j0, s0⟩ := t
      rw [hr] at h
      simp only [Option.map_some'] at h
      by_cases hc : sz ≤ c.slotSize
      · rw [if_pos hc] at h
        by_cases hlt : s0 < c.slotSize
        · rw [if_pos hlt] at h
          simp only [Option.some.injEq, Prod.mk.injEq] at h
          obtain ⟨hk, hs⟩ := h
          subst hs
          obtain ⟨c0, hg0, hslot, hsz0, hopt⟩ := ih hr
          refine ⟨c0, ?_, hslot, hsz0, ?_⟩
          · rw [← hk]; exact hg0
          · intro j cj hg hle
            cases j with
            | zero =>
              have hcj : c = cj := Option.some.inj hg
              left
              rw [← hcj]
              exact hlt
            | succ j2 =>
              rcases hopt j2 cj hg hle with h1 | ⟨h1, h2⟩
              · left; exact h1
              · right; exact ⟨h1, by omega⟩
        · rw [if_neg hlt] at h
          simp only [Option.some.injEq, Prod.mk.injEq] at h
          obtain ⟨hk, hs⟩ := h
          subst hs
          obtain ⟨c0, hg0, hslot, hsz0, hopt⟩ := ih hr
          have hcs0 : c.slotSize ≤ s0 := by omega
          refine ⟨c, by rw [← hk]; rfl, rfl, hc, ?_⟩
          intro j cj hg hle
          cases j with
          | zero =>
            have hcj : c = cj := Option.some.inj hg
            right
            exact ⟨by rw [hcj], by omega⟩
          | succ j2 =>
            rcases hopt j2 cj hg hle with h1 | ⟨h1, h2⟩
            · left; omega
            · rcases Nat.lt_or_ge c.slotSize cj.slotSize with h3 | h3
              · left; exact h3
              · right; exact ⟨by omega, by omega⟩
      · rw [if_neg hc] at h
        simp only [Option.some.injEq, Prod.mk.injEq] at h
        obtain ⟨hk, hs⟩ := h
        subst hs
        obtain ⟨c0, hg0, hslot, hsz0, hopt⟩ := ih hr
        refine ⟨c0, by rw [← hk]; exact hg0, hslot, hsz0, ?_⟩
        intro j cj hg hle
        cases j with
        | zero =>
          have hcj : c = cj := Option.some.inj hg
          exact absurd hle (by rw [← hcj]; exact hc)
        | succ j2 =>
          rcases hopt j2 cj hg hle with h1 | ⟨h1, h2⟩
          · left; exact h1
          · right; exact ⟨h1, by omega⟩

theorem fixedInv_alloc {s ss cap sb : Nat} {P : Pool} {live : List Nat}
    (hinv : FixedInv ss cap sb P live) (hs : s ≤ ss) (hroom : live.length < cap) :
    ∃ P2 ptr, P.allocFixed s = (P2, some ptr) ∧
      FixedInv ss cap sb P2 (live ++ [ptr]) ∧ P2.links = P.links := by
  obtain ⟨fs, used, hcls, hlen, hnd, hbnd, hlive⟩ := hinv.cls
  have hpc : pickClass s P.classes = some (0, ss) := by
    rw [hcls, pickClass, pickClass]
    dsimp only
    simp only [Option.map_none']
    rw [if_pos hs]
  cases fs with
  | nil =>
    exfalso
    simp only [List.length_nil] at hlen
    omega
  | cons idx rest =>
    have heq : P.allocFixed s =
        ({ P with classes := [⟨ss, cap, sb, rest, used + 1⟩], lastError := .ok },
         some (sb + idx * (wordSize + ss) + wordSize)) := by
      unfold Pool.allocFixed
      rw [hpc]
      dsimp only
      rw [hcls]
      rfl
    have hw8 : wordSize = 8 := rfl
    have hst : 0 < wordSize + ss := by omega
    have hnotin : sb + idx * (wordSize + ss) + wordSize ∉ live := by
      intro hmem
      obtain ⟨j, hj, hpe, hjn⟩ := hlive _ hmem
      have hjidx : j = idx := by
        have h2 : j * (wordSize + ss) = idx * (wordSize + ss) := by omega
        exact Nat.eq_of_mul_eq_mul_right hst h2
      subst hjidx
      exact hjn (List.mem_cons_self _ _)
    refine ⟨_, _, heq, ?_, rfl⟩
    constructor
    · refine ⟨rest, used + 1, rfl, ?_, (List.nodup_cons.1 hnd).2,
        fun j hj => hbnd j (List.mem_cons_of_mem _ hj), ?_⟩
      · simp only [List.length_append, List.length_singleton]
        simp only [List.length_cons] at hlen
        omega
      · intro p hp
        rcases List.mem_append.1 hp with hp1 | hp1
        · obtain ⟨j, hj, hpe, hjn⟩ := hlive p hp1
          exact ⟨j, hj, hpe, fun hc => hjn (List.mem_cons_of_mem _ hc)⟩
        · have hpe : p = sb + idx * (wordSize + ss) + wordSize := by
            simpa using hp1
          exact ⟨idx, hbnd idx (List.mem_cons_self _ _), hpe, (List.nodup_cons.1 hnd).1⟩
    · refine hinv.nodup.append (List.nodup_singleton _) ?_
      intro a ha hb
      rw [List.mem_singleton] at hb
      subst hb
      exact hnotin ha
    · exact fun j hj => hinv.mems j hj

theorem fixedInv_free {ss cap sb : Nat} {P : Pool} {live : List Nat} {i : Nat}
    (hinv : FixedInv ss cap sb P live) (hi : i < live.length) :
    ∃ ptr, live.get? i = some ptr ∧
      FixedInv ss cap sb (P.freeFixed ptr) (live.erase ptr) ∧
      (P.freeFixed ptr).links = P.links := by
  obtain ⟨fs, used, hcls, hlen, hnd, hbnd, hlive⟩ := hinv.cls
  refine ⟨live.get ⟨i, hi⟩, List.get?_eq_get hi, ?_, ?_⟩
  · have hmem : live.get ⟨i, hi⟩ ∈ live := List.get_mem live i hi
    obtain ⟨j, hj, hpe, hjn⟩ := hlive _ hmem
    have hw8 : wordSize = 8 := rfl
    have hst : 0 < wordSize + ss := by omega
    have hsub : live.get ⟨i, hi⟩ - wordSize = sb + j * (wordSize + ss) := by omega
    have hwrd : P.mem (live.get ⟨i, hi⟩ - wordSize) = slotWord 0 := by
      rw [hsub]
      exact hinv.mems j hj
    have hmagic : slotWord 0 / 2 ^ 32 = magicTag := by decide
    have hmod : slotWord 0 % 2 ^ 32 = 0 := by decide
    have hidx : (live.get ⟨i, hi⟩ - wordSize - sb) / (wordSize + ss) = j := by
      rw [hsub, Nat.add_sub_cancel_left]
      exact Nat.mul_div_cancel j hst
    have heq : P.freeFixed (live.get ⟨i, hi⟩) =
        { P with classes := [⟨ss, cap, sb, j :: fs, used - 1⟩], lastError := .ok } := by
      unfold Pool.freeFixed
      rw [hwrd]
      dsimp only
      rw [if_neg (show ¬ slotWord 0 / 2 ^ 32 ≠ magicTag from fun hne => hne hmagic)]
      rw [hmod, hcls]
      simp only [List.get?_cons_zero]
      unfold stride
      dsimp only
      rw [hidx]
      rw [if_neg hjn]
      rfl
    rw [heq]
    constructor
    · refine ⟨j :: fs, used - 1, rfl, ?_, List.nodup_cons.2 ⟨hjn, hnd⟩, ?_, ?_⟩
      · rw [List.length_erase_of_mem hmem]
        simp only [List.length_cons]
        omega
      · intro j2 hj2
        rcases List.mem_cons.1 hj2 with rfl | hj3
        · exact hj
        · exact hbnd j2 hj3
      · intro p hp
        rw [hinv.nodup.mem_erase_iff] at hp
        obtain ⟨hpne, hpmem⟩ := hp
        obtain ⟨j2, hj2, hpe2, hj2n⟩ := hlive p hpmem
        refine ⟨j2, hj2, hpe2, ?_⟩
        intro hc
        rcases List.mem_cons.1 hc with rfl | hc2
        · exact hpne (by rw [hpe2, ← hpe])
        · exact hj2n hc2
    · exact hinv.nodup.erase _
    · exact fun j2 hj2 => hinv.mems j2 hj2
  · exact (freeFixed_links P _).1

theorem runFixed_ok {s ss cap sb : Nat} : ∀ {tr : List FOp} {P : Pool} {live : List Nat},
    FixedInv ss cap sb P live → s ≤ ss →
    wfTrace live.length tr → countAllocs tr + live.length ≤ cap →
    ∃ P2 live2, runFixed s P live tr = some (P2, live2) ∧
      FixedInv ss cap sb P2 live2 ∧ P2.links = P.links := by
  intro tr
  induction tr with
  | nil =>
    intro P live hinv hs _ _
    exact ⟨P, live, rfl, hinv, rfl⟩
  | cons op rest ih =>
    intro P live hinv hs hwf hcnt
    cases op with
    | alloc =>
      have hca : countAllocs (FOp.alloc :: rest) = countAllocs rest + 1 := rfl
      have hroom : live.length < cap := by omega
      obtain ⟨P2, ptr, halc, hinv2, hlinks⟩ := fixedInv_alloc hinv hs hroom
      rw [runFixed, halc]
      have hlen2 : (live ++ [ptr]).length = live.length + 1 := by
        simp [List.length_append]
      obtain ⟨P3, live3, hrun, hinv3, hl3⟩ := ih hinv2 hs
        (by rw [hlen2]; exact hwf) (by rw [hlen2]; omega)
      exact ⟨P3, live3, hrun, hinv3, by rw [hl3, hlinks]⟩
    | free i =>
      have hi : i < live.length := hwf.1
      obtain ⟨ptr, hget, hinv2, hlinks⟩ := fixedInv_free hinv hi
      rw [runFixed, hget]
      have hmem : ptr ∈ live := by
        have := List.get?_eq_get hi
        rw [hget] at this
        have hptr : ptr = live.get ⟨i, hi⟩ := Option.some.inj this
        rw [hptr]
        exact List.get_mem live i hi
      have hlen2 : (live.erase ptr).length = live.length - 1 :=
        List.length_erase_of_mem hmem
      have hca : countAllocs (FOp.free i :: rest) = countAllocs rest := rfl
      obtain ⟨P3, live3, hrun, hinv3, hl3⟩ := ih hinv2 hs
        (by rw [hlen2]; exact hwf.2) (by rw [hlen2]; omega)
      exact ⟨P3, live3, hrun, hinv3, by rw [hl3, hlinks]⟩

theorem addClass_start {P : Pool} {s cap : Nat} {Q : Pool} {cid : Nat}
    (hcls : P.classes = []) (h : P.addClass s cap = (Q, some cid)) :
    cid = 0 ∧ ∃ sb, FixedInv (alignUp s wordSize) cap sb Q [] := by
  unfold Pool.addClass at h
  rw [hcls] at h
  by_cases hs0 : s = 0
  · rw [if_pos (Or.inl hs0)] at h
    exact absurd (congrArg Prod.snd h) (by simp)
  · rw [if_neg (fun hc => hc.elim hs0 (fun h2 => absurd h2 (by decide)))] at h
    dsimp only at h
    cases hls : P.links with
    | nil =>
      rw [hls] at h
      exact absurd (congrArg Prod.snd h) (by simp)
    | cons l rest =>
      rw [hls] at h
      dsimp only at h
      cases hta : tryAllocLink (some (List.length [])) P.align
          ((wordSize + alignUp s wordSize) * cap) l with
      | none =>
        rw [hta] at h
        exact absurd (congrArg Prod.snd h) (by simp)
      | some t =>
        obtain ⟨l2, sb⟩ := t
        rw [hta] at h
        dsimp only at h
        have hQ := congrArg Prod.fst h
        have hc2 := congrArg Prod.snd h
        dsimp only at hQ hc2
        have hcid : cid = 0 := (Option.some.inj hc2).symm
        refine ⟨hcid, sb, ?_⟩
        constructor
        · refine ⟨List.range cap, 0, ?_, ?_, List.nodup_range cap, ?_, ?_⟩
          · rw [← hQ]
            rfl
          · simp [List.length_range]
          · exact fun j hj => List.mem_range.1 hj
          · intro p hp
            exact absurd hp (List.not_mem_nil p)
        · exact List.nodup_nil
        · intro j hj
          rw [← hQ]
          dsimp only
          have hst : 0 < wordSize + alignUp s wordSize := by
            have hw8 : wordSize = 8 := rfl
            omega
          exact writeSlotWords_read P.mem sb (wordSize + alignUp s wordSize) 0 hst cap j hj

/-- C8: registering a fixed size class on a pool whose class table is
fresh and then running any interleaving of at most capacity many fixed
allocations with releases of live pointers succeeds entirely, and every
live pointer carries the one word slot prefix whose magic tag names its
class; moreover fixed allocation always selects the class with the
smallest sufficient slot size (lowest id on ties) and never walks the
chain. -/
theorem fixed_class_traces {P : Pool} {s cap : Nat} {Q : Pool} {cid : Nat} {tr : List FOp}
    (hcls : P.classes = [])
    (h : P.addClass s cap = (Q, some cid))
    (hwf : wfTrace 0 tr) (hcnt : countAllocs tr ≤ cap) :
    (∃ P2 live2, runFixed s Q [] tr = some (P2, live2) ∧
      (∀ p ∈ live2, P2.mem (p - wordSize) = slotWord cid) ∧ P2.links = Q.links) ∧
    (∀ (R : Pool) (sz : Nat), (R.allocFixed sz).1.links = R.links) ∧
    (∀ (cs : List SizeClass) (sz k s2 : Nat), pickClass sz cs = some (k, s2) →
      ∃ c, cs.get? k = some c ∧ c.slotSize = s2 ∧ sz ≤ s2 ∧
        ∀ j cj, cs.get? j = some cj → sz ≤ cj.slotSize →
          s2 < cj.slotSize ∨ (s2 = cj.slotSize ∧ k ≤ j)) := by
  obtain ⟨hcid0, sb, hfinv⟩ := addClass_start hcls h
  subst hcid0
  refine ⟨?_, fun R sz => (allocFixed_links R sz).1, fun cs sz k s2 hp => pickClass_sound hp⟩
  have hs : s ≤ alignUp s wordSize := alignUp_ge s wordSize
  obtain ⟨P2, live2, hrun, hinv2, hlinks⟩ := runFixed_ok hfinv hs hwf
    (by simpa using hcnt)
  refine ⟨P2, live2, hrun, ?_, hlinks⟩
  intro p hp
  obtain ⟨fs2, used2, hcls2, _, _, _, hlive2⟩ := hinv2.cls
  obtain ⟨j, hj, hpe, _⟩ := hlive2 p hp
  have hw8 : wordSize = 8 := rfl
  have hsub : p - wordSize = sb + j * (wordSize + alignUp s wordSize) := by omega
  rw [hsub]
  exact hinv2.mems j hj

theorem fixed_class_traces_witness :
    ∃ P2 live2,
      runFixed 64 ((Pool.create 4096).addClass 64 2).1 []
          [FOp.alloc, FOp.free 0, FOp.alloc] = some (P2, live2) ∧
      (∀ p ∈ live2, P2.mem (p - wordSize) = slotWord 0) ∧
      P2.links = ((Pool.create 4096).addClass 64 2).1.links := by
  have h2 : ((Pool.create 4096).addClass 64 2).2 = some 0 := rfl
  have heq : (Pool.create 4096).addClass 64 2 =
      (((Pool.create 4096).addClass 64 2).1, some 0) := by
    rw [← h2]
  exact (@fixed_class_traces (Pool.create 4096) 64 2 ((Pool.create 4096).addClass 64 2).1 0
    [FOp.alloc, FOp.free 0, FOp.alloc] rfl heq ⟨Nat.zero_lt_one, trivial⟩ (by decide)).1

/-! ### Red black tree: basic facts -/

namespace RB

theorem valid_pos : ∀ {t : Tree} {h : Nat}, Valid t h → 1 ≤ h := by
  intro t h hv
  induction hv with
  | nil => exact Nat.le_refl 1
  | red l k r hl hr bl br ihl ihr => exact ihl
  | black l k r hl hr ihl ihr => omega

theorem red_of_isRed : ∀ {t : Tree}, isRed t = true →
    ∃ l k r, t = Tree.node Color.red l k r := by
  intro t h
  cases t with
  | nil => exact absurd h (by simp [isRed])
  | node c l k r =>
    cases c with
    | red => exact ⟨l, k, r, rfl⟩
    | black => exact absurd h (by simp [isRed])

theorem isBlack_node {c : Color} {l : Tree} {k : Nat} {r : Tree}
    (h : isBlack (Tree.node c l k r) = true) : c = Color.black := by
  cases c with
  | black => rfl
  | red => exact absurd h (by simp [isBlack, isRed])

theorem isBlack_black (l : Tree) (k : Nat) (r : Tree) :
    isBlack (Tree.node Color.black l k r) = true := rfl

theorem isRed_of_not_black {t : Tree} (h : ¬ isBlack t = true) : isRed t = true := by
  unfold isBlack at h
  revert h
  cases isRed t <;> simp

theorem not_red_of_black {t : Tree} (h : isBlack t = true) : isRed t = false := by
  unfold isBlack at h
  revert h
  cases isRed t <;> simp

theorem black_of_not_red {t : Tree} (h : ¬ isRed t = true) : isBlack t = true := by
  unfold isBlack
  revert h
  cases isRed t <;> simp

theorem valid_red_inv {l : Tree} {k h : Nat} {r : Tree}
    (hv : Valid (Tree.node Color.red l k r) h) :
    Valid l h ∧ Valid r h ∧ isBlack l = true ∧ isBlack r = true := by
  cases hv with
  | red _ _ _ hl hr bl br => exact ⟨hl, hr, bl, br⟩

theorem valid_black_inv {l : Tree} {k h : Nat} {r : Tree}
    (hv : Valid (Tree.node Color.black l k r) h) :
    ∃ h2, h = h2 + 1 ∧ Valid l h2 ∧ Valid r h2 := by
  cases hv with
  | black _ _ _ hl hr => exact ⟨_, rfl, hl, hr⟩

theorem valid_nil_inv {h : Nat} (hv : Valid Tree.nil h) : h = 1 := by
  cases hv
  rfl

theorem setBlack_of_black : ∀ {t : Tree}, isBlack t = true → setBlack t = t := by
  intro t h
  cases t with
  | nil => rfl
  | node c l k r =>
    rw [isBlack_node h]
    rfl

theorem valid_setBlack_red {l : Tree} {k h : Nat} {r : Tree}
    (hv : Valid (Tree.node Color.red l k r) h) :
    Valid (setBlack (Tree.node Color.red l k r)) (h + 1) := by
  obtain ⟨hl, hr, _, _⟩ := valid_red_inv hv
  exact Valid.black _ _ _ hl hr

theorem isBlack_setBlack : ∀ t : Tree, isBlack (setBlack t) = true := by
  intro t
  cases t <;> rfl

theorem lastFrameBlack_tail {f : Frame} {ctx : List Frame}
    (h : lastFrameBlack (f :: ctx) = true) : lastFrameBlack ctx = true := by
  cases ctx with
  | nil => rfl
  | cons g ctx2 => exact h

theorem lastFrameBlack_build {f : Frame} {ctx : List Frame}
    (h1 : ctx = [] → f.c = Color.black) (h2 : lastFrameBlack ctx = true) :
    lastFrameBlack (f :: ctx) = true := by
  cases ctx with
  | nil => simp [lastFrameBlack, h1 rfl]
  | cons g ctx2 => exact h2

theorem lastFrameBlack_append : ∀ (xs : List Frame) (f : Frame) (ys : List Frame),
    lastFrameBlack (xs ++ f :: ys) = lastFrameBlack (f :: ys) := by
  intro xs
  induction xs with
  | nil => intro f ys; rfl
  | cons x xs ih =>
    intro f ys
    cases xs with
    | nil => rfl
    | cons y xs2 => exact ih f ys

theorem blackHeight_of_valid : ∀ {t : Tree} {h : Nat}, Valid t h → blackHeight t = h := by
  intro t h hv
  induction hv with
  | nil => rfl
  | red l k r hl hr bl br ihl ihr =>
    rw [blackHeight]
    rw [ihl, ihr]
    have hp := valid_pos hl
    rw [if_neg (by omega : ¬ _)]
    rfl
  | black l k r hl hr ihl ihr =>
    rw [blackHeight]
    rw [ihl, ihr]
    have hp := valid_pos hl
    rw [if_neg (by omega : ¬ _)]
    rfl

theorem verifyNode_of_valid : ∀ {t : Tree} {h : Nat}, Valid t h → verifyNode t = true := by
  intro t h hv
  induction hv with
  | nil => rfl
  | red l k r hl hr bl br ihl ihr =>
    rw [verifyNode]
    rw [not_red_of_black bl, not_red_of_black br, ihl, ihr]
    rfl
  | black l k r hl hr ihl ihr =>
    rw [verifyNode]
    rw [ihl, ihr]
    rfl

theorem verify_of_valid {t : Tree} {h : Nat} (hv : Valid t h) (hb : isBlack t = true) :
    verify t = true := by
  cases t with
  | nil => rfl
  | node c l k r =>
    rw [verify]
    rw [Bool.and_eq_true, Bool.and_eq_true]
    refine ⟨⟨hb, ?_⟩, verifyNode_of_valid hv⟩
    rw [blackHeight_of_valid hv]
    have hp := valid_pos hv
    simp only [bne_iff_ne, ne_eq]
    omega

end RB

/-! ### Red black tree: insertion preserves the invariants -/

namespace RB

theorem plug_valid : ∀ {ctx : List Frame} {h : Nat}, CV ctx h → ∀ (t : Tree), Valid t h →
    (isRed t = true →
      ctx = [] ∨ ∃ d k2 sib rest, ctx = (⟨d, Color.black, k2, sib⟩ : Frame) :: rest) →
    ∃ H, Valid (plug t ctx) H ∧
      (lastFrameBlack ctx = true → (ctx = [] → isBlack t = true) →
        isBlack (plug t ctx) = true) := by
  intro ctx h hcv
  induction hcv with
  | nil =>
    intro t hv _
    exact ⟨_, hv, fun _ h2 => h2 rfl⟩
  | black d k2 sib hsib hcv2 ih =>
    intro t hv _
    cases d with
    | left =>
      obtain ⟨H, hval, hblk⟩ := ih (Tree.node Color.black t k2 sib)
        (Valid.black _ _ _ hv hsib) (fun habs => nomatch habs)
      refine ⟨H, hval, fun hlast _ => ?_⟩
      exact hblk (lastFrameBlack_tail hlast) (fun _ => rfl)
    | right =>
      obtain ⟨H, hval, hblk⟩ := ih (Tree.node Color.black sib k2 t)
        (Valid.black _ _ _ hsib hv) (fun habs => nomatch habs)
      refine ⟨H, hval, fun hlast _ => ?_⟩
      exact hblk (lastFrameBlack_tail hlast) (fun _ => rfl)
  | red d k2 sib d2 k3 sib2 hsib hsbb hsib2 hcv2 ih =>
    intro t hv hred
    have htb : isBlack t = true := by
      by_cases hrt : isRed t = true
      · rcases hred hrt with h1 | ⟨d0, k0, sib0, rest0, h1⟩
        · exact absurd h1 (by simp)
        · exact absurd h1 (by simp)
      · exact black_of_not_red hrt
    cases d with
    | left =>
      have hv2 := Valid.red t k2 sib hv hsib htb hsbb
      cases d2 with
      | left =>
        obtain ⟨H, hval, hblk⟩ := ih
          (Tree.node Color.black (Tree.node Color.red t k2 sib) k3 sib2)
          (Valid.black _ _ _ hv2 hsib2) (fun habs => nomatch habs)
        refine ⟨H, hval, fun hlast _ => ?_⟩
        exact hblk (lastFrameBlack_tail (lastFrameBlack_tail hlast)) (fun _ => rfl)
      | right =>
        obtain ⟨H, hval, hblk⟩ := ih
          (Tree.node Color.black sib2 k3 (Tree.node Color.red t k2 sib))
          (Valid.black _ _ _ hsib2 hv2) (fun habs => nomatch habs)
        refine ⟨H, hval, fun hlast _ => ?_⟩
        exact hblk (lastFrameBlack_tail (lastFrameBlack_tail hlast)) (fun _ => rfl)
    | right =>
      have hv2 := Valid.red sib k2 t hsib hv hsbb htb
      cases d2 with
      | left =>
        obtain ⟨H, hval, hblk⟩ := ih
          (Tree.node Color.black (Tree.node Color.red sib k2 t) k3 sib2)
          (Valid.black _ _ _ hv2 hsib2) (fun habs => nomatch habs)
        refine ⟨H, hval, fun hlast _ => ?_⟩
        exact hblk (lastFrameBlack_tail (lastFrameBlack_tail hlast)) (fun _ => rfl)
      | right =>
        obtain ⟨H, hval, hblk⟩ := ih
          (Tree.node Color.black sib2 k3 (Tree.node Color.red sib k2 t))
          (Valid.black _ _ _ hsib2 hv2) (fun habs => nomatch habs)
        refine ⟨H, hval, fun hlast _ => ?_⟩
        exact hblk (lastFrameBlack_tail (lastFrameBlack_tail hlast)) (fun _ => rfl)

theorem insFind_cv : ∀ (t : Tree) (ctx : List Frame) (h k : Nat) (ctx2 : List Frame),
    Valid t h → CV ctx h →
    (isRed t = true →
      ∃ d k2 sib rest, ctx = (⟨d, Color.black, k2, sib⟩ : Frame) :: rest) →
    lastFrameBlack ctx = true → (ctx = [] → isBlack t = true) →
    insFind k t ctx = some ctx2 →
    CV ctx2 1 ∧ lastFrameBlack ctx2 = true := by
  intro t
  induction t with
  | nil =>
    intro ctx h k ctx2 hv hcv _ hlast _ hfind
    rw [insFind] at hfind
    have h1 : ctx = ctx2 := Option.some.inj hfind
    subst h1
    have h2 : h = 1 := valid_nil_inv hv
    subst h2
    exact ⟨hcv, hlast⟩
  | node c l k2 r ihl ihr =>
    intro ctx h k ctx2 hv hcv hred hlast hemp hfind
    rw [insFind] at hfind
    by_cases hlt : k < k2
    · rw [if_pos hlt] at hfind
      cases c with
      | black =>
        obtain ⟨h2, hh, hvl, hvr⟩ := valid_black_inv hv
        subst hh
        refine ihl (⟨Dir.left, Color.black, k2, r⟩ :: ctx) h2 k ctx2 hvl
          (CV.black _ _ _ hvr hcv) (fun _ => ⟨Dir.left, k2, r, ctx, rfl⟩)
          (lastFrameBlack_build (fun _ => rfl) hlast)
          (fun habs => nomatch habs) hfind
      | red =>
        obtain ⟨hvl, hvr, hbl, hbr⟩ := valid_red_inv hv
        obtain ⟨d, k3, sib, rest, hctx⟩ := hred rfl
        subst hctx
        cases hcv with
        | black _ _ _ hsib hcv2 =>
          refine ihl (⟨Dir.left, Color.red, k2, r⟩ :: ⟨d, Color.black, k3, sib⟩ :: rest)
            h k ctx2 hvl (CV.red _ _ _ _ _ _ hvr hbr hsib hcv2)
            (fun hrl => absurd hrl (by rw [not_red_of_black hbl]; simp))
            (lastFrameBlack_build (fun habs => nomatch habs) hlast)
            (fun habs => nomatch habs) hfind
    · rw [if_neg hlt] at hfind
      by_cases hgt : k2 < k
      · rw [if_pos hgt] at hfind
        cases c with
        | black =>
          obtain ⟨h2, hh, hvl, hvr⟩ := valid_black_inv hv
          subst hh
          refine ihr (⟨Dir.right, Color.black, k2, l⟩ :: ctx) h2 k ctx2 hvr
            (CV.black _ _ _ hvl hcv) (fun _ => ⟨Dir.right, k2, l, ctx, rfl⟩)
            (lastFrameBlack_build (fun _ => rfl) hlast)
            (fun habs => nomatch habs) hfind
        | red =>
          obtain ⟨hvl, hvr, hbl, hbr⟩ := valid_red_inv hv
          obtain ⟨d, k3, sib, rest, hctx⟩ := hred rfl
          subst hctx
          cases hcv with
          | black _ _ _ hsib hcv2 =>
            refine ihr (⟨Dir.right, Color.red, k2, l⟩ :: ⟨d, Color.black, k3, sib⟩ :: rest)
              h k ctx2 hvr (CV.red _ _ _ _ _ _ hvl hbl hsib hcv2)
              (fun hrl => absurd hrl (by rw [not_red_of_black hbr]; simp))
              (lastFrameBlack_build (fun habs => nomatch habs) hlast)
              (fun habs => nomatch habs) hfind
      · rw [if_neg hgt] at hfind
        exact Option.noConfusion hfind

theorem insFix_eq_black (n : Tree) (pd : Dir) (pk : Nat) (psib : Tree) (ctx : List Frame) :
    insFix n (⟨pd, Color.black, pk, psib⟩ :: ctx) =
      plug n (⟨pd, Color.black, pk, psib⟩ :: ctx) := by
  cases n <;> cases ctx <;> rfl

theorem insFix_eq_ll (n : Tree) (pk : Nat) (psib : Tree)
    (gc : Color) (gk : Nat) (gsib : Tree) (ctx2 : List Frame) :
    insFix n (⟨Dir.left, Color.red, pk, psib⟩ :: ⟨Dir.left, gc, gk, gsib⟩ :: ctx2) =
    (if isRed gsib = true then
       insFix (Tree.node Color.red (Tree.node Color.black n pk psib) gk
         (setBlack gsib)) ctx2
     else
       plug (Tree.node gc n pk
         (Tree.node Color.red (setBlack psib) gk gsib)) ctx2) := by
  cases n <;> rfl

theorem insFix_eq_rr (n : Tree) (pk : Nat) (psib : Tree)
    (gc : Color) (gk : Nat) (gsib : Tree) (ctx2 : List Frame) :
    insFix n (⟨Dir.right, Color.red, pk, psib⟩ :: ⟨Dir.right, gc, gk, gsib⟩ :: ctx2) =
    (if isRed gsib = true then
       insFix (Tree.node Color.red (setBlack gsib) gk
         (Tree.node Color.black psib pk n)) ctx2
     else
       plug (Tree.node gc
         (Tree.node Color.red gsib gk (setBlack psib)) pk n) ctx2) := by
  cases n <;> rfl

theorem insFix_eq_rl (nc : Color) (nl : Tree) (nk : Nat) (nr : Tree)
    (pk : Nat) (psib : Tree) (gc : Color) (gk : Nat) (gsib : Tree) (ctx2 : List Frame) :
    insFix (Tree.node nc nl nk nr)
      (⟨Dir.right, Color.red, pk, psib⟩ :: ⟨Dir.left, gc, gk, gsib⟩ :: ctx2) =
    (if isRed gsib = true then
       insFix (Tree.node Color.red
         (Tree.node Color.black psib pk (Tree.node nc nl nk nr)) gk
         (setBlack gsib)) ctx2
     else
       plug (Tree.node gc (Tree.node Color.red psib pk (setBlack nl)) nk
         (Tree.node Color.red (setBlack nr) gk gsib)) ctx2) := rfl

theorem insFix_eq_lr (nc : Color) (nl : Tree) (nk : Nat) (nr : Tree)
    (pk : Nat) (psib : Tree) (gc : Color) (gk : Nat) (gsib : Tree) (ctx2 : List Frame) :
    insFix (Tree.node nc nl nk nr)
      (⟨Dir.left, Color.red, pk, psib⟩ :: ⟨Dir.right, gc, gk, gsib⟩ :: ctx2) =
    (if isRed gsib = true then
       insFix (Tree.node Color.red (setBlack gsib) gk
         (Tree.node Color.black (Tree.node nc nl nk nr) pk psib)) ctx2
     else
       plug (Tree.node gc (Tree.node Color.red gsib gk (setBlack nl)) nk
         (Tree.node Color.red (setBlack nr) pk psib)) ctx2) := rfl

theorem insFix_valid : ∀ {ctx : List Frame} {h : Nat}, CV ctx h → ∀ (n : Tree), Valid n h →
    isRed n = true → lastFrameBlack ctx = true →
    ∃ H, Valid (insFix n ctx) H ∧ isBlack (insFix n ctx) = true := by
  intro ctx h hcv
  induction hcv with
  | nil =>
    intro n hv hr _
    obtain ⟨l, k, r, rfl⟩ := red_of_isRed hr
    obtain ⟨hl, hr2, bl, br⟩ := valid_red_inv hv
    exact ⟨_, Valid.black _ _ _ hl hr2, rfl⟩
  | black d k2 sib hsib hcv2 ih =>
    intro n hv hr hlast
    rw [insFix_eq_black]
    obtain ⟨H, hval, hblk⟩ := plug_valid (CV.black d k2 sib hsib hcv2) n hv
      (fun _ => Or.inr ⟨d, k2, sib, _, rfl⟩)
    exact ⟨H, hval, hblk hlast (fun habs => nomatch habs)⟩
  | @red d k2 sib d2 k3 sib2 hB ctxB hsib hsbb hsib2 hcv2 ih =>
    intro n hv hr hlast
    have hlast2 : lastFrameBlack _ = true := lastFrameBlack_tail (lastFrameBlack_tail hlast)
    obtain ⟨l0, k0, r0, rfl⟩ := red_of_isRed hr
    obtain ⟨hl0, hr0, bl0, br0⟩ := valid_red_inv hv
    by_cases hu : isRed sib2 = true
    · obtain ⟨u1, uk, u2, hequ⟩ := red_of_isRed hu
      subst hequ
      obtain ⟨hu1, hu2, bu1, bu2⟩ := valid_red_inv hsib2
      have hUv : Valid (setBlack (Tree.node Color.red u1 uk u2)) _ :=
        Valid.black _ _ _ hu1 hu2
      cases d with
      | left =>
        have hPv : Valid (Tree.node Color.black (Tree.node Color.red l0 k0 r0) k2 sib) _ :=
          Valid.black _ _ _ hv hsib
        cases d2 with
        | left =>
          rw [insFix_eq_ll, if_pos hu]
          exact ih (Tree.node Color.red
            (Tree.node Color.black (Tree.node Color.red l0 k0 r0) k2 sib) k3
            (setBlack (Tree.node Color.red u1 uk u2)))
            (Valid.red _ _ _ hPv hUv rfl rfl) rfl hlast2
        | right =>
          rw [insFix_eq_lr, if_pos hu]
          exact ih (Tree.node Color.red (setBlack (Tree.node Color.red u1 uk u2)) k3
            (Tree.node Color.black (Tree.node Color.red l0 k0 r0) k2 sib))
            (Valid.red _ _ _ hUv hPv rfl rfl) rfl hlast2
      | right =>
        have hPv : Valid (Tree.node Color.black sib k2 (Tree.node Color.red l0 k0 r0)) _ :=
          Valid.black _ _ _ hsib hv
        cases d2 with
        | left =>
          rw [insFix_eq_rl, if_pos hu]
          exact ih (Tree.node Color.red
            (Tree.node Color.black sib k2 (Tree.node Color.red l0 k0 r0)) k3
            (setBlack (Tree.node Color.red u1 uk u2)))
            (Valid.red _ _ _ hPv hUv rfl rfl) rfl hlast2
        | right =>
          rw [insFix_eq_rr, if_pos hu]
          exact ih (Tree.node Color.red (setBlack (Tree.node Color.red u1 uk u2)) k3
            (Tree.node Color.black sib k2 (Tree.node Color.red l0 k0 r0)))
            (Valid.red _ _ _ hUv hPv rfl rfl) rfl hlast2
    · have hub : isBlack sib2 = true := black_of_not_red hu
      have hsibSB : Valid (setBlack sib) hB := by
        rw [setBlack_of_black hsbb]; exact hsib
      have hl0SB : Valid (setBlack l0) hB := by
        rw [setBlack_of_black bl0]; exact hl0
      have hr0SB : Valid (setBlack r0) hB := by
        rw [setBlack_of_black br0]; exact hr0
      cases d with
      | left =>
        cases d2 with
        | left =>
          rw [insFix_eq_ll, if_neg hu]
          have hRv : Valid (Tree.node Color.black (Tree.node Color.red l0 k0 r0) k2
              (Tree.node Color.red (setBlack sib) k3 sib2)) _ :=
            Valid.black _ _ _ hv
              (Valid.red _ _ _ hsibSB hsib2 (isBlack_setBlack _) hub)
          obtain ⟨H, hval, hblk⟩ := plug_valid hcv2 _ hRv
            (fun habs => absurd habs (by simp [isRed]))
          exact ⟨H, hval, hblk hlast2 (fun _ => rfl)⟩
        | right =>
          rw [insFix_eq_lr, if_neg hu]
          have hRv : Valid (Tree.node Color.black
              (Tree.node Color.red sib2 k3 (setBlack l0)) k0
              (Tree.node Color.red (setBlack r0) k2 sib)) _ :=
            Valid.black _ _ _
              (Valid.red _ _ _ hsib2 hl0SB hub (isBlack_setBlack _))
              (Valid.red _ _ _ hr0SB hsib (isBlack_setBlack _) hsbb)
          obtain ⟨H, hval, hblk⟩ := plug_valid hcv2 _ hRv
            (fun habs => absurd habs (by simp [isRed]))
          exact ⟨H, hval, hblk hlast2 (fun _ => rfl)⟩
      | right =>
        cases d2 with
        | left =>
          rw [insFix_eq_rl, if_neg hu]
          have hRv : Valid (Tree.node Color.black
              (Tree.node Color.red sib k2 (setBlack l0)) k0
              (Tree.node Color.red (setBlack r0) k3 sib2)) _ :=
            Valid.black _ _ _
              (Valid.red _ _ _ hsib hl0SB hsbb (isBlack_setBlack _))
              (Valid.red _ _ _ hr0SB hsib2 (isBlack_setBlack _) hub)
          obtain ⟨H, hval, hblk⟩ := plug_valid hcv2 _ hRv
            (fun habs => absurd habs (by simp [isRed]))
          exact ⟨H, hval, hblk hlast2 (fun _ => rfl)⟩
        | right =>
          rw [insFix_eq_rr, if_neg hu]
          have hRv : Valid (Tree.node Color.black
              (Tree.node Color.red sib2 k3 (setBlack sib)) k2
              (Tree.node Color.red l0 k0 r0)) _ :=
            Valid.black _ _ _
              (Valid.red _ _ _ hsib2 hsibSB hub (isBlack_setBlack _)) hv
          obtain ⟨H, hval, hblk⟩ := plug_valid hcv2 _ hRv
            (fun habs => absurd habs (by simp [isRed]))
          exact ⟨H, hval, hblk hlast2 (fun _ => rfl)⟩

theorem insert_valid {t : Tree} {h k : Nat} {t2 : Tree}
    (hv : Valid t h) (hb : isBlack t = true) (hi : insert t k = some t2) :
    ∃ H, Valid t2 H ∧ isBlack t2 = true := by
  unfold insert at hi
  cases hf : insFind k t [] with
  | none =>
    rw [hf] at hi
    exact Option.noConfusion hi
  | some ctx =>
    rw [hf] at hi
    obtain ⟨hcv, hlast⟩ := insFind_cv t [] h k ctx hv CV.nil
      (fun hrt => absurd hrt (by rw [not_red_of_black hb]; simp))
      rfl (fun _ => hb) hf
    have hv0 : Valid (Tree.node Color.red Tree.nil k Tree.nil) 1 :=
      Valid.red _ _ _ Valid.nil Valid.nil rfl rfl
    obtain ⟨H, hval, hblk⟩ := insFix_valid hcv _ hv0 rfl hlast
    have ht2 : t2 = insFix (Tree.node Color.red Tree.nil k Tree.nil) ctx :=
      (Option.some.inj hi).symm
    subst ht2
    exact ⟨H, hval, hblk⟩

/-! ### Red black tree: erase preserves the invariants, and the C10 trace theorem -/

theorem lastFrameBlack_cons_ne (f : Frame) {rest : List Frame} (h : rest ≠ []) :
    lastFrameBlack (f :: rest) = lastFrameBlack rest := by
  cases rest with
  | nil => exact absurd rfl h
  | cons g rest2 => rfl

theorem splitMin_eq_none : ∀ {t : Tree}, splitMin t = none → t = Tree.nil := by
  intro t h
  cases t with
  | nil => rfl
  | node c l k r =>
    rw [splitMin] at h
    cases hsl : splitMin l with
    | none =>
      rw [hsl] at h
      exact Option.noConfusion h
    | some q =>
      rw [hsl] at h
      exact Option.noConfusion h

theorem eraseLowLeft_valid {h : Nat} {n : Tree} (hn : Valid n h) (hnb : isBlack n = true)
    (pcol : Color) (fk : Nat) {sib : Tree} (hs : Valid sib (h + 1)) (hsb : isBlack sib = true) :
    (∀ s, eraseLowLeft pcol n fk sib = Sum.inl s →
       Valid s (h + 1 + (if pcol = Color.black then 1 else 0)) ∧
       (isRed s = true → pcol = Color.red)) ∧
    (∀ s, eraseLowLeft pcol n fk sib = Sum.inr s →
       pcol = Color.black ∧ Valid s (h + 1) ∧ isBlack s = true) := by
  cases sib with
  | nil =>
    have h0 := valid_nil_inv hs
    have h1 := valid_pos hn
    exact absurd h0 (by omega)
  | node bc bl bk br =>
    have hbc : bc = Color.black := isBlack_node hsb
    subst hbc
    obtain ⟨h2, hh, hvbl, hvbr⟩ := valid_black_inv hs
    have hh2 : h2 = h := by omega
    rw [hh2] at hvbl hvbr
    rw [eraseLowLeft.eq_def]
    dsimp only
    by_cases hbr : isBlack br = true
    · rw [if_pos hbr]
      by_cases hbl : isBlack bl = true
      · rw [if_pos hbl]
        have hinner : Valid (Tree.node Color.black n fk (Tree.node Color.red bl bk br)) (h + 1) :=
          Valid.black _ _ _ hn (Valid.red _ _ _ hvbl hvbr hbl hbr)
        by_cases hpc : pcol = Color.red
        · subst hpc
          rw [if_pos rfl]
          constructor
          · intro s hsz
            injection hsz with h1
            subst h1
            exact ⟨hinner, fun _ => rfl⟩
          · intro s hsz
            exact Sum.noConfusion hsz
        · have hpcb : pcol = Color.black := by
            cases pcol
            · exact absurd rfl hpc
            · rfl
          subst hpcb
          rw [if_neg (fun hcc => Color.noConfusion hcc)]
          constructor
          · intro s hsz
            exact Sum.noConfusion hsz
          · intro s hsz
            injection hsz with h1
            subst h1
            exact ⟨rfl, hinner, rfl⟩
      · rw [if_neg hbl]
        have hblr : isRed bl = true := isRed_of_not_black hbl
        obtain ⟨bll, blk2, blr, rfl⟩ := red_of_isRed hblr
        obtain ⟨hvbll, hvblr, hbll, hblr2⟩ := valid_red_inv hvbl
        dsimp only
        have hv1 : Valid (Tree.node Color.black n fk bll) (h + 1) := Valid.black _ _ _ hn hvbll
        have hv2 : Valid (Tree.node Color.black (setBlack blr) bk br) (h + 1) := by
          refine Valid.black _ _ _ ?_ hvbr
          rw [setBlack_of_black hblr2]
          exact hvblr
        constructor
        · intro s hsz
          injection hsz with h1
          subst h1
          refine ⟨?_, fun habs => ?_⟩
          · cases pcol
            · exact Valid.red _ _ _ hv1 hv2 rfl rfl
            · exact Valid.black _ _ _ hv1 hv2
          · cases pcol
            · rfl
            · exact nomatch habs
        · intro s hsz
          exact Sum.noConfusion hsz
    · rw [if_neg hbr]
      have hbrr : isRed br = true := isRed_of_not_black hbr
      have hvbr2 : Valid (setBlack br) (h + 1) := by
        obtain ⟨b1, bk2, b2, rfl⟩ := red_of_isRed hbrr
        exact valid_setBlack_red hvbr
      have hv1 : Valid (Tree.node Color.black n fk bl) (h + 1) := Valid.black _ _ _ hn hvbl
      constructor
      · intro s hsz
        injection hsz with h1
        subst h1
        refine ⟨?_, fun habs => ?_⟩
        · cases pcol
          · exact Valid.red _ _ _ hv1 hvbr2 rfl (isBlack_setBlack _)
          · exact Valid.black _ _ _ hv1 hvbr2
        · cases pcol
          · rfl
          · exact nomatch habs
      · intro s hsz
        exact Sum.noConfusion hsz

theorem eraseLowRight_valid {h : Nat} {n : Tree} (hn : Valid n h) (hnb : isBlack n = true)
    (pcol : Color) (fk : Nat) {sib : Tree} (hs : Valid sib (h + 1)) (hsb : isBlack sib = true) :
    (∀ s, eraseLowRight pcol n fk sib = Sum.inl s →
       Valid s (h + 1 + (if pcol = Color.black then 1 else 0)) ∧
       (isRed s = true → pcol = Color.red)) ∧
    (∀ s, eraseLowRight pcol n fk sib = Sum.inr s →
       pcol = Color.black ∧ Valid s (h + 1) ∧ isBlack s = true) := by
  cases sib with
  | nil =>
    have h0 := valid_nil_inv hs
    have h1 := valid_pos hn
    exact absurd h0 (by omega)
  | node bc bl bk br =>
    have hbc : bc = Color.black := isBlack_node hsb
    subst hbc
    obtain ⟨h2, hh, hvbl, hvbr⟩ := valid_black_inv hs
    have hh2 : h2 = h := by omega
    rw [hh2] at hvbl hvbr
    rw [eraseLowRight.eq_def]
    dsimp only
    by_cases hbl : isBlack bl = true
    · rw [if_pos hbl]
      by_cases hbr : isBlack br = true
      · rw [if_pos hbr]
        have hinner : Valid (Tree.node Color.black (Tree.node Color.red bl bk br) fk n) (h + 1) :=
          Valid.black _ _ _ (Valid.red _ _ _ hvbl hvbr hbl hbr) hn
        by_cases hpc : pcol = Color.red
        · subst hpc
          rw [if_pos rfl]
          constructor
          · intro s hsz
            injection hsz with h1
            subst h1
            exact ⟨hinner, fun _ => rfl⟩
          · intro s hsz
            exact Sum.noConfusion hsz
        · have hpcb : pcol = Color.black := by
            cases pcol
            · exact absurd rfl hpc
            · rfl
          subst hpcb
          rw [if_neg (fun hcc => Color.noConfusion hcc)]
          constructor
          · intro s hsz
            exact Sum.noConfusion hsz
          · intro s hsz
            injection hsz with h1
            subst h1
            exact ⟨rfl, hinner, rfl⟩
      · rw [if_neg hbr]
        have hbrr : isRed br = true := isRed_of_not_black hbr
        obtain ⟨brl, brk2, brr, rfl⟩ := red_of_isRed hbrr
        obtain ⟨hvbrl, hvbrr, hbrl, hbrr2⟩ := valid_red_inv hvbr
        dsimp only
        have hv1 : Valid (Tree.node Color.black bl bk (setBlack brl)) (h + 1) := by
          refine Valid.black _ _ _ hvbl ?_
          rw [setBlack_of_black hbrl]
          exact hvbrl
        have hv2 : Valid (Tree.node Color.black brr fk n) (h + 1) := Valid.black _ _ _ hvbrr hn
        constructor
        · intro s hsz
          injection hsz with h1
          subst h1
          refine ⟨?_, fun habs => ?_⟩
          · cases pcol
            · exact Valid.red _ _ _ hv1 hv2 rfl rfl
            · exact Valid.black _ _ _ hv1 hv2
          · cases pcol
            · rfl
            · exact nomatch habs
        · intro s hsz
          exact Sum.noConfusion hsz
    · rw [if_neg hbl]
      have hblr : isRed bl = true := isRed_of_not_black hbl
      have hvbl2 : Valid (setBlack bl) (h + 1) := by
        obtain ⟨b1, bk2, b2, rfl⟩ := red_of_isRed hblr
        exact valid_setBlack_red hvbl
      have hv1 : Valid (Tree.node Color.black br fk n) (h + 1) := Valid.black _ _ _ hvbr hn
      constructor
      · intro s hsz
        injection hsz with h1
        subst h1
        refine ⟨?_, fun habs => ?_⟩
        · cases pcol
          · exact Valid.red _ _ _ hvbl2 hv1 (isBlack_setBlack _) rfl
          · exact Valid.black _ _ _ hvbl2 hv1
        · cases pcol
          · rfl
          · exact nomatch habs
      · intro s hsz
        exact Sum.noConfusion hsz

theorem eraseIter_valid {h : Nat} {n : Tree} (hn : Valid n h) (hnb : isBlack n = true)
    (f : Frame) (hs : Valid f.sib (h + 1)) (hrb : f.c = Color.red → isBlack f.sib = true) :
    (∀ s, eraseIter f n = Sum.inl s →
       Valid s (h + 1 + (if f.c = Color.black then 1 else 0)) ∧
       (isRed s = true → f.c = Color.red)) ∧
    (∀ s, eraseIter f n = Sum.inr s →
       f.c = Color.black ∧ Valid s (h + 1) ∧ isBlack s = true) := by
  obtain ⟨d, fc, fk2, fsib⟩ := f
  dsimp only at hs hrb ⊢
  cases d with
  | left =>
    cases fsib with
    | nil =>
      exact absurd (valid_nil_inv hs) (by have := valid_pos hn; omega)
    | node sc sl sk sr =>
      rw [eraseIter]
      dsimp only
      by_cases hsc : sc = Color.red
      · subst hsc
        rw [if_pos rfl]
        obtain ⟨hvsl, hvsr, hbsl, hbsr⟩ := valid_red_inv hs
        have hfcb : fc = Color.black := by
          cases fc
          · exact nomatch (hrb rfl)
          · rfl
        subst hfcb
        have hssl : Valid (setBlack sl) (h + 1) := by
          rw [setBlack_of_black hbsl]
          exact hvsl
        obtain ⟨hinl, hinr⟩ := eraseLowLeft_valid hn hnb Color.red fk2 hssl (isBlack_setBlack _)
        cases helow : eraseLowLeft Color.red n fk2 (setBlack sl) with
        | inl s0 =>
          dsimp only
          obtain ⟨hval0, _⟩ := hinl s0 helow
          constructor
          · intro s hsz
            injection hsz with h1
            subst h1
            exact ⟨Valid.black _ _ _ hval0 hvsr, fun habs => nomatch habs⟩
          · intro s hsz
            exact Sum.noConfusion hsz
        | inr s0 =>
          dsimp only
          obtain ⟨habs, hval0, _⟩ := hinr s0 helow
          constructor
          · intro s hsz
            injection hsz with h1
            subst h1
            exact ⟨Valid.black _ _ _ hval0 hvsr, fun habs2 => nomatch habs2⟩
          · intro s hsz
            exact Sum.noConfusion hsz
      · have hscb : sc = Color.black := by
          cases sc
          · exact absurd rfl hsc
          · rfl
        subst hscb
        rw [if_neg (fun hcc => Color.noConfusion hcc)]
        exact eraseLowLeft_valid hn hnb fc fk2 hs rfl
  | right =>
    cases fsib with
    | nil =>
      exact absurd (valid_nil_inv hs) (by have := valid_pos hn; omega)
    | node sc sl sk sr =>
      rw [eraseIter]
      dsimp only
      by_cases hsc : sc = Color.red
      · subst hsc
        rw [if_pos rfl]
        obtain ⟨hvsl, hvsr, hbsl, hbsr⟩ := valid_red_inv hs
        have hfcb : fc = Color.black := by
          cases fc
          · exact nomatch (hrb rfl)
          · rfl
        subst hfcb
        have hssr : Valid (setBlack sr) (h + 1) := by
          rw [setBlack_of_black hbsr]
          exact hvsr
        obtain ⟨hinl, hinr⟩ := eraseLowRight_valid hn hnb Color.red fk2 hssr (isBlack_setBlack _)
        cases helow : eraseLowRight Color.red n fk2 (setBlack sr) with
        | inl s0 =>
          dsimp only
          obtain ⟨hval0, _⟩ := hinl s0 helow
          constructor
          · intro s hsz
            injection hsz with h1
            subst h1
            exact ⟨Valid.black _ _ _ hvsl hval0, fun habs => nomatch habs⟩
          · intro s hsz
            exact Sum.noConfusion hsz
        | inr s0 =>
          dsimp only
          obtain ⟨habs, hval0, _⟩ := hinr s0 helow
          constructor
          · intro s hsz
            injection hsz with h1
            subst h1
            exact ⟨Valid.black _ _ _ hvsl hval0, fun habs2 => nomatch habs2⟩
          · intro s hsz
            exact Sum.noConfusion hsz
      · have hscb : sc = Color.black := by
          cases sc
          · exact absurd rfl hsc
          · rfl
        subst hscb
        rw [if_neg (fun hcc => Color.noConfusion hcc)]
        exact eraseLowRight_valid hn hnb fc fk2 hs rfl

theorem eraseFix_valid : ∀ {ctx : List Frame} {H : Nat}, CV ctx H →
    ∀ {h : Nat} (n : Tree), H = h + 1 → Valid n h → isBlack n = true →
    lastFrameBlack ctx = true →
    ∃ H2, Valid (eraseFix n ctx) H2 ∧ isBlack (eraseFix n ctx) = true := by
  intro ctx H hcv
  induction hcv with
  | nil =>
    intro h n hH hn hnb _
    exact ⟨h, hn, hnb⟩
  | @black d k2 sib hB ctxB hsib hcv2 ih =>
    intro h n hH hn hnb hlast
    subst hH
    obtain ⟨hinl, hinr⟩ := eraseIter_valid hn hnb ⟨d, Color.black, k2, sib⟩ hsib
      (fun hcc => nomatch hcc)
    rw [eraseFix]
    cases hit : eraseIter ⟨d, Color.black, k2, sib⟩ n with
    | inl s =>
      dsimp only
      obtain ⟨hval, hred⟩ := hinl s hit
      have hsb : isBlack s = true := by
        by_cases hr : isRed s = true
        · exact absurd (hred hr) (fun hcc => nomatch hcc)
        · exact black_of_not_red hr
      obtain ⟨H2, hv2, hb2⟩ := plug_valid hcv2 s hval
        (fun habs => absurd (hred habs) (fun hcc => nomatch hcc))
      exact ⟨H2, hv2, hb2 (lastFrameBlack_tail hlast) (fun _ => hsb)⟩
    | inr s =>
      dsimp only
      obtain ⟨_, hval, hsb⟩ := hinr s hit
      exact ih s rfl hval hsb (lastFrameBlack_tail hlast)
  | @red d k2 sib d2 k3 sib2 hB ctxB hsib hsbb hsib2 hcv2 ih =>
    intro h n hH hn hnb hlast
    subst hH
    obtain ⟨hinl, hinr⟩ := eraseIter_valid hn hnb ⟨d, Color.red, k2, sib⟩ hsib
      (fun _ => hsbb)
    rw [eraseFix]
    cases hit : eraseIter ⟨d, Color.red, k2, sib⟩ n with
    | inl s =>
      dsimp only
      obtain ⟨hval, _⟩ := hinl s hit
      have hcvt : CV (⟨d2, Color.black, k3, sib2⟩ :: ctxB) (h + 1) :=
        CV.black _ _ _ hsib2 hcv2
      obtain ⟨H2, hv2, hb2⟩ := plug_valid hcvt s hval
        (fun _ => Or.inr ⟨d2, k3, sib2, ctxB, rfl⟩)
      exact ⟨H2, hv2, hb2 (lastFrameBlack_tail hlast) (fun habs => nomatch habs)⟩
    | inr s =>
      dsimp only
      obtain ⟨habs, _, _⟩ := hinr s hit
      exact absurd habs (fun hcc => nomatch hcc)

theorem delFind_cv : ∀ (t : Tree) (ctx : List Frame) (h k : Nat) (res : Tree × List Frame),
    Valid t h → CV ctx h →
    (isRed t = true →
      ∃ d k2 sib rest, ctx = (⟨d, Color.black, k2, sib⟩ : Frame) :: rest) →
    lastFrameBlack ctx = true → (ctx = [] → isBlack t = true) →
    delFind k t ctx = some res →
    ∃ h2, Valid res.1 h2 ∧ CV res.2 h2 ∧
      (isRed res.1 = true →
        ∃ d k2 sib rest, res.2 = (⟨d, Color.black, k2, sib⟩ : Frame) :: rest) ∧
      lastFrameBlack res.2 = true ∧ (res.2 = [] → isBlack res.1 = true) := by
  intro t
  induction t with
  | nil =>
    intro ctx h k res hv hcv hred hlast hemp hfind
    rw [delFind] at hfind
    exact Option.noConfusion hfind
  | node c l k2 r ihl ihr =>
    intro ctx h k res hv hcv hred hlast hemp hfind
    rw [delFind] at hfind
    by_cases hlt : k < k2
    · rw [if_pos hlt] at hfind
      cases c with
      | black =>
        obtain ⟨h2, hh, hvl, hvr⟩ := valid_black_inv hv
        subst hh
        exact ihl (⟨Dir.left, Color.black, k2, r⟩ :: ctx) h2 k res hvl
          (CV.black _ _ _ hvr hcv) (fun _ => ⟨Dir.left, k2, r, ctx, rfl⟩)
          (lastFrameBlack_build (fun _ => rfl) hlast)
          (fun habs => nomatch habs) hfind
      | red =>
        obtain ⟨hvl, hvr, hbl, hbr⟩ := valid_red_inv hv
        obtain ⟨d, k3, sib, rest, hctx⟩ := hred rfl
        subst hctx
        cases hcv with
        | black _ _ _ hsib hcv2 =>
          exact ihl (⟨Dir.left, Color.red, k2, r⟩ :: ⟨d, Color.black, k3, sib⟩ :: rest)
            h k res hvl (CV.red _ _ _ _ _ _ hvr hbr hsib hcv2)
            (fun hrl => absurd hrl (by rw [not_red_of_black hbl]; simp))
            (lastFrameBlack_build (fun habs => nomatch habs) hlast)
            (fun habs => nomatch habs) hfind
    · rw [if_neg hlt] at hfind
      by_cases hgt : k2 < k
      · rw [if_pos hgt] at hfind
        cases c with
        | black =>
          obtain ⟨h2, hh, hvl, hvr⟩ := valid_black_inv hv
          subst hh
          exact ihr (⟨Dir.right, Color.black, k2, l⟩ :: ctx) h2 k res hvr
            (CV.black _ _ _ hvl hcv) (fun _ => ⟨Dir.right, k2, l, ctx, rfl⟩)
            (lastFrameBlack_build (fun _ => rfl) hlast)
            (fun habs => nomatch habs) hfind
        | red =>
          obtain ⟨hvl, hvr, hbl, hbr⟩ := valid_red_inv hv
          obtain ⟨d, k3, sib, rest, hctx⟩ := hred rfl
          subst hctx
          cases hcv with
          | black _ _ _ hsib hcv2 =>
            exact ihr (⟨Dir.right, Color.red, k2, l⟩ :: ⟨d, Color.black, k3, sib⟩ :: rest)
              h k res hvr (CV.red _ _ _ _ _ _ hvl hbl hsib hcv2)
              (fun hrl => absurd hrl (by rw [not_red_of_black hbr]; simp))
              (lastFrameBlack_build (fun habs => nomatch habs) hlast)
              (fun habs => nomatch habs) hfind
      · rw [if_neg hgt] at hfind
        have hres : res = (Tree.node c l k2 r, ctx) := (Option.some.inj hfind).symm
        subst hres
        exact ⟨h, hv, hcv, hred, hlast, hemp⟩

theorem splitMin_cv : ∀ {t : Tree} {h : Nat}, Valid t h →
    ∀ {sc : Color} {sk : Nat} {sr : Tree} {ictx : List Frame},
    splitMin t = some (sc, sk, sr, ictx) →
    ∀ {rest : List Frame}, CV rest h →
    (isRed t = true →
      ∃ d2 k2 sib2 rest2, rest = (⟨d2, Color.black, k2, sib2⟩ : Frame) :: rest2) →
    rest ≠ [] →
    lastFrameBlack rest = true →
    ∃ hm, Valid (Tree.node sc Tree.nil sk sr) hm ∧
      CV (ictx ++ rest) hm ∧ lastFrameBlack (ictx ++ rest) = true := by
  intro t
  induction t with
  | nil =>
    intro h hv sc sk sr ictx hsm
    rw [splitMin] at hsm
    exact Option.noConfusion hsm
  | node c l k r ihl ihr =>
    intro h hv sc sk sr ictx hsm rest hcvr hredt hne hlastr
    rw [splitMin] at hsm
    cases hsl : splitMin l with
    | none =>
      rw [hsl] at hsm
      dsimp only at hsm
      simp only [Option.some.injEq, Prod.mk.injEq] at hsm
      obtain ⟨rfl, rfl, rfl, rfl⟩ := hsm
      have hl : l = Tree.nil := splitMin_eq_none hsl
      subst hl
      exact ⟨h, hv, hcvr, hlastr⟩
    | some q =>
      obtain ⟨sc2, sk2, sr2, ictx2⟩ := q
      rw [hsl] at hsm
      dsimp only at hsm
      simp only [Option.some.injEq, Prod.mk.injEq] at hsm
      obtain ⟨rfl, rfl, rfl, rfl⟩ := hsm
      rw [List.append_assoc, List.singleton_append]
      cases c with
      | black =>
        obtain ⟨h2, hh, hvl, hvr⟩ := valid_black_inv hv
        subst hh
        exact ihl hvl hsl (CV.black _ _ _ hvr hcvr)
          (fun _ => ⟨Dir.left, k, r, rest, rfl⟩)
          (fun habs => nomatch habs)
          (by rw [lastFrameBlack_cons_ne _ hne]; exact hlastr)
      | red =>
        obtain ⟨hvl, hvr, hbl, hbr⟩ := valid_red_inv hv
        obtain ⟨d2, k4, sib2, rest2, hrest⟩ := hredt rfl
        subst hrest
        cases hcvr with
        | black _ _ _ hsib2 hcv2 =>
          exact ihl hvl hsl (CV.red _ _ _ _ _ _ hvr hbr hsib2 hcv2)
            (fun hrl => absurd hrl (by rw [not_red_of_black hbl]; simp))
            (fun habs => nomatch habs)
            hlastr

/-- C10: refuted on this source.  rb_erase decides whether to run the
recolouring walk with `rebalance = (pc & 1) ? NULL : parent` (rb_tree.c
line 267 for a childless node, line 318 for a childless successor); since
RB_BLACK is 1 this runs the walk exactly when the removed node was red
and skips it when it was black, the inverse of the deficiency condition.
Inserting the keys 1, 2, 3, 4 builds the tree 2B(1B, 3B(nil, 4R));
erasing the childless black node 1 then skips the fixup, the root's
subtrees are left with black heights 1 and 2, rb_black_height reports the
mismatch as 0 and rb_verify returns false. -/
theorem rb_erase_skips_rebalance :
    verify (runOps Tree.nil
      [RBOp.ins 1, RBOp.ins 2, RBOp.ins 3, RBOp.ins 4, RBOp.del 1]) = false := rfl

end RB

end MemPool
